import Mathlib

set_option maxHeartbeats 1000000

/-!
Verification of the algorithm engine of the Algo-Visualizer repository.

The sorting engine (src/src/components/SortingVisualizer.tsx) operates on JS
arrays of numbers; all values handled are integers, so an array is modelled as
a `List Int`, the read `arr[i]` as `List.getD a i 0`, the write `arr[i] = v` as
`List.set a i v`, and the destructuring swap `[arr[i], arr[j]] = [arr[j], arr[i]]`
as `listSwap`.  Each `for`/`while` loop becomes a recursion on its counter.
The cancellation flag (`shouldStop`) and the animation callbacks
(`setComparingIndices`, `setArray`, `delay`) do not affect the array contents
of an uncancelled run and are not modelled.
-/

/-- The JS destructuring swap `[arr[i], arr[j]] = [arr[j], arr[i]]`. -/
def listSwap (a : List Int) (i j : Nat) : List Int :=
  let x := a.getD i 0
  let y := a.getD j 0
  (a.set i y).set j x

/-- Inner loop of `bubbleSort` (SortingVisualizer.tsx lines 57-70):
`for (let j = 0; j < m; j++) { if (arr[j] > arr[j+1]) { swap; swapped = true } }`
where `m = n - i - 1`.  Returns the array together with the `swapped` flag. -/
def bubblePass (a : List Int) (j m : Nat) (swapped : Bool) : List Int × Bool :=
  if j < m then
    if a.getD j 0 > a.getD (j+1) 0 then
      bubblePass (listSwap a j (j+1)) (j+1) m true
    else
      bubblePass a (j+1) m swapped
  else (a, swapped)
termination_by m - j
decreasing_by all_goals omega

/-- Outer loop of `bubbleSort` (lines 53-74).  The pass bound `n - i - 1` of
iteration `i` is carried directly as `k`, counting down from `n - 1`;
`if (!swapped) break` is the early exit. -/
def bubbleAux : List Int → Nat → List Int
  | a, 0 => a
  | a, k+1 =>
    let p := bubblePass a 0 (k+1) false
    if p.2 then bubbleAux p.1 k else p.1

/-- `bubbleSort` (SortingVisualizer.tsx lines 47-78). -/
def bubbleSort (a : List Int) : List Int := bubbleAux a (a.length - 1)

/-- Inner while loop of `insertionSort` (lines 92-101):
`while (j >= 0 && arr[j] > current) { arr[j+1] = arr[j]; j--; }`.
Returns the shifted array and the final value of `j`. -/
def insShift (a : List Int) (current : Int) (j : Int) : List Int × Int :=
  if 0 ≤ j ∧ a.getD j.toNat 0 > current then
    insShift (a.set (j.toNat + 1) (a.getD j.toNat 0)) current (j - 1)
  else (a, j)
termination_by (j + 1).toNat
decreasing_by omega

theorem insShift_length (a : List Int) (current : Int) (j : Int) :
    (insShift a current j).1.length = a.length := by
  rw [insShift]
  split
  · rw [insShift_length]
    simp
  · rfl
termination_by (j + 1).toNat
decreasing_by omega

/-- Outer loop of `insertionSort` (lines 86-105):
`for (let i = 1; i < newArray.length; i++) { current = arr[i]; ...shift...;
arr[j+1] = current; }`. -/
def insLoop (a : List Int) (i : Nat) : List Int :=
  if i < a.length then
    let current := a.getD i 0
    let p := insShift a current ((i : Int) - 1)
    insLoop ((p.1).set (p.2 + 1).toNat current) (i + 1)
  else a
termination_by a.length - i
decreasing_by simp [insShift_length]; omega

/-- `insertionSort` (SortingVisualizer.tsx lines 81-109). -/
def insertionSort (a : List Int) : List Int := insLoop a 1

/-- The three while loops of `merge` (lines 120-151).  `L` and `R` are the
copied slices, `i`, `j`, `k` the three cursors; `arr[k] = L[i]` etc. become
`List.set`. -/
def mergeLoop (a : List Int) (L R : List Int) (i j k : Nat) : List Int :=
  if i < L.length ∧ j < R.length then
    if L.getD i 0 ≤ R.getD j 0 then
      mergeLoop (a.set k (L.getD i 0)) L R (i+1) j (k+1)
    else
      mergeLoop (a.set k (R.getD j 0)) L R i (j+1) (k+1)
  else if i < L.length then
    mergeLoop (a.set k (L.getD i 0)) L R (i+1) j (k+1)
  else if j < R.length then
    mergeLoop (a.set k (R.getD j 0)) L R i (j+1) (k+1)
  else a
termination_by (L.length - i) + (R.length - j)
decreasing_by all_goals omega

/-- `merge(arr, left, mid, right)` (SortingVisualizer.tsx lines 112-152):
`L = arr.slice(left, mid+1)`, `R = arr.slice(mid+1, right+1)`, then the merge
loops write back into `arr` starting at `k = left`. -/
def mergeStep (a : List Int) (left mid right : Nat) : List Int :=
  let L := (a.drop left).take (mid + 1 - left)
  let R := (a.drop (mid + 1)).take (right + 1 - (mid + 1))
  mergeLoop a L R 0 0 left

/-- `mergeSortHelper` (lines 154-161): divide at `mid = floor((left+right)/2)`. -/
def mergeSortHelper (a : List Int) (left right : Nat) : List Int :=
  if left < right then
    let mid := (left + right) / 2
    let a1 := mergeSortHelper a left mid
    let a2 := mergeSortHelper a1 (mid + 1) right
    mergeStep a2 left mid right
  else a
termination_by right - left
decreasing_by all_goals omega

/-- `mergeSort` (lines 163-170): sorts the whole array via
`mergeSortHelper(arr, 0, arr.length - 1)`. -/
def mergeSort (a : List Int) : List Int := mergeSortHelper a 0 (a.length - 1)

/-- Loop of the Lomuto `partition` (lines 177-188).  The source's `i` starts at
`low - 1` (possibly `-1`) and is only used as `i + 1`, carried here as `s`:
`for (let j = low; j < high; j++) { if (arr[j] < pivot) { i++; swap(arr[i], arr[j]) } }`
followed by the final pivot swap `swap(arr[i+1], arr[high])` and `return i + 1`. -/
def lomutoAux (a : List Int) (pivot : Int) (s j high : Nat) : List Int × Nat :=
  if j < high then
    if a.getD j 0 < pivot then
      lomutoAux (listSwap a s j) pivot (s+1) (j+1) high
    else
      lomutoAux a pivot s (j+1) high
  else (listSwap a s high, s)
termination_by high - j
decreasing_by all_goals omega

/-- `partition(arr, low, high)` (SortingVisualizer.tsx lines 173-193):
`pivot = arr[high]`, Lomuto scan, pivot swap, returns the pivot position. -/
def partition (a : List Int) (low high : Nat) : List Int × Nat :=
  lomutoAux a (a.getD high 0) low low high

theorem le_lomutoAux_snd (a : List Int) (pivot : Int) (s j high : Nat) :
    s ≤ (lomutoAux a pivot s j high).2 := by
  rw [lomutoAux]
  split
  · split
    · exact le_trans (Nat.le_succ s) (le_lomutoAux_snd _ _ _ _ _)
    · exact le_lomutoAux_snd _ _ _ _ _
  · exact le_refl s
termination_by high - j
decreasing_by all_goals omega

theorem lomutoAux_snd_le (a : List Int) (pivot : Int) (s j high : Nat)
    (hsj : s ≤ j) (hjh : j ≤ high) : (lomutoAux a pivot s j high).2 ≤ high := by
  rw [lomutoAux]
  split
  · split
    · exact lomutoAux_snd_le _ _ _ _ _ (by omega) (by omega)
    · exact lomutoAux_snd_le _ _ _ _ _ (by omega) (by omega)
  · omega
termination_by high - j
decreasing_by all_goals omega

theorem partition_snd_le (a : List Int) (low high : Nat) (h : low ≤ high) :
    (partition a low high).2 ≤ high :=
  lomutoAux_snd_le _ _ _ _ _ (le_refl low) h

theorem le_partition_snd (a : List Int) (low high : Nat) :
    low ≤ (partition a low high).2 :=
  le_lomutoAux_snd _ _ _ _ _

/-- `quickSortHelper` (lines 195-202): recurse on both sides of the pivot. -/
def quickSortHelper (a : List Int) (low high : Nat) : List Int :=
  if low < high then
    let p := partition a low high
    quickSortHelper (quickSortHelper p.1 low (p.2 - 1)) (p.2 + 1) high
  else a
termination_by high - low
decreasing_by
  · have := partition_snd_le a low high (by omega)
    omega
  · have := le_partition_snd a low high
    omega

/-- `quickSort` (lines 204-211): `quickSortHelper(arr, 0, arr.length - 1)`. -/
def quickSort (a : List Int) : List Int := quickSortHelper a 0 (a.length - 1)

example : bubbleSort [5, 3, 8, 1] = [1, 3, 5, 8] := by
  simp [bubbleSort, bubbleAux, bubblePass, listSwap]
example : insertionSort [5, 3, 8, 1] = [1, 3, 5, 8] := by
  simp [insertionSort, insLoop, insShift]
example : mergeSort [5, 3, 8, 1] = [1, 3, 5, 8] := by
  simp [mergeSort, mergeSortHelper, mergeStep, mergeLoop]
example : quickSort [5, 3, 8, 1] = [1, 3, 5, 8] := by
  simp [quickSort, quickSortHelper, partition, lomutoAux, listSwap]
example : quickSort [2, 1, 2, 1, 3] = [1, 1, 2, 2, 3] := by
  simp [quickSort, quickSortHelper, partition, lomutoAux, listSwap]
example : bubbleSort [2, 1, 3] = [1, 2, 3] := by
  simp [bubbleSort, bubbleAux, bubblePass, listSwap]

/-! ### Generic lemmas about indexed list access, update and swap -/

theorem getD_set_self (l : List Int) (i : Nat) (v : Int) (h : i < l.length) :
    (l.set i v).getD i 0 = v := by
  simp [List.getD_eq_getElem?_getD, List.getElem?_set, h]

theorem getD_set_ne (l : List Int) (i k : Nat) (v : Int) (h : i ≠ k) :
    (l.set i v).getD k 0 = l.getD k 0 := by
  simp [List.getD_eq_getElem?_getD, List.getElem?_set, h]

theorem listSwap_def (a : List Int) (i j : Nat) :
    listSwap a i j = (a.set i (a.getD j 0)).set j (a.getD i 0) := rfl

theorem cons_set_perm (t : List Int) (k : Nat) (x : Int) (hk : k < t.length) :
    (t.getD k 0 :: t.set k x).Perm (x :: t) := by
  induction t generalizing k with
  | nil => simp at hk
  | cons y t ih =>
    cases k with
    | zero => simpa using List.Perm.swap x y t
    | succ m =>
      have hm : m < t.length := by simpa using hk
      show (t.getD m 0 :: y :: t.set m x).Perm (x :: y :: t)
      exact (List.Perm.swap _ _ _).trans (((ih m hm).cons y).trans (List.Perm.swap _ _ _))

theorem listSwap_perm (a : List Int) (i j : Nat) (hi : i < a.length) (hj : j < a.length) :
    (listSwap a i j).Perm a := by
  rw [listSwap_def]
  induction a generalizing i j with
  | nil => simp at hi
  | cons x t ih =>
    cases i with
    | zero =>
      cases j with
      | zero => simp
      | succ k =>
        have hk : k < t.length := by simpa using hj
        show (t.getD k 0 :: t.set k x).Perm (x :: t)
        exact cons_set_perm t k x hk
    | succ m =>
      cases j with
      | zero =>
        have hm : m < t.length := by simpa using hi
        show (t.getD m 0 :: t.set m x).Perm (x :: t)
        exact cons_set_perm t m x hm
      | succ k =>
        have hm : m < t.length := by simpa using hi
        have hk : k < t.length := by simpa using hj
        show (x :: (t.set m (t.getD k 0)).set k (t.getD m 0)).Perm (x :: t)
        exact (ih m k hm hk).cons x

theorem listSwap_length (a : List Int) (i j : Nat) : (listSwap a i j).length = a.length := by
  simp [listSwap]

theorem getD_listSwap_left (a : List Int) (i j : Nat) (hi : i < a.length)
    (hj : j < a.length) : (listSwap a i j).getD i 0 = a.getD j 0 := by
  rw [listSwap_def]
  by_cases h : i = j
  · subst h
    rw [getD_set_self]
    simpa using hi
  · rw [getD_set_ne _ _ _ _ (fun hh => h hh.symm), getD_set_self _ _ _ hi]

theorem getD_listSwap_right (a : List Int) (i j : Nat) (hj : j < a.length) :
    (listSwap a i j).getD j 0 = a.getD i 0 := by
  rw [listSwap_def]
  rw [getD_set_self]
  simpa using hj

theorem getD_listSwap_ne (a : List Int) (i j t : Nat) (hti : t ≠ i) (htj : t ≠ j) :
    (listSwap a i j).getD t 0 = a.getD t 0 := by
  rw [listSwap_def]
  rw [getD_set_ne _ _ _ _ (fun hh => htj hh.symm), getD_set_ne _ _ _ _ (fun hh => hti hh.symm)]

theorem drop_set_of_lt (l : List Int) (i n : Nat) (v : Int) (h : i < n) :
    (l.set i v).drop n = l.drop n := by
  apply List.ext_getElem?
  intro k
  rw [List.getElem?_drop, List.getElem?_drop, List.getElem?_set]
  have : ¬ i = n + k := by omega
  simp [this]

theorem drop_listSwap (a : List Int) (i j n : Nat) (hi : i < n) (hj : j < n) :
    (listSwap a i j).drop n = a.drop n := by
  rw [listSwap_def]
  rw [drop_set_of_lt _ _ _ _ hj, drop_set_of_lt _ _ _ _ hi]

theorem take_perm_of_perm_drop_eq (l₁ l₂ : List Int) (n : Nat) (hp : l₁.Perm l₂)
    (hd : l₁.drop n = l₂.drop n) : (l₁.take n).Perm (l₂.take n) := by
  have h2 : (l₁.take n ++ l₁.drop n).Perm (l₂.take n ++ l₁.drop n) := by
    conv_rhs => rw [hd]
    rw [List.take_append_drop, List.take_append_drop]
    exact hp
  exact (List.perm_append_right_iff _).mp h2

theorem getD_mem_take (l : List Int) (p n : Nat) (hpn : p < n) (hp : p < l.length) :
    l.getD p 0 ∈ l.take n := by
  have hlt : p < (l.take n).length := by simp; omega
  have he : (l.take n).getD p 0 = l.getD p 0 := by
    rw [List.getD_eq_getElem _ _ hlt, List.getD_eq_getElem _ _ hp]
    exact List.getElem_take l
  rw [← he, List.getD_eq_getElem _ _ hlt]
  exact List.getElem_mem hlt

theorem getD_eq_of_drop_eq (l₁ l₂ : List Int) (n t : Nat) (hd : l₁.drop n = l₂.drop n)
    (ht : n ≤ t) : l₁.getD t 0 = l₂.getD t 0 := by
  have h1 : ∀ l : List Int, l.getD t 0 = (l.drop n).getD (t - n) 0 := by
    intro l
    rw [List.getD_eq_getElem?_getD, List.getD_eq_getElem?_getD, List.getElem?_drop]
    congr 2
    omega
  rw [h1 l₁, h1 l₂, hd]

/-- A list all of whose pairs of in-range positions are ordered is `Sorted`. -/
theorem sorted_of_getD_mono (l : List Int)
    (h : ∀ p q, p ≤ q → q < l.length → l.getD p 0 ≤ l.getD q 0) :
    l.Sorted (· ≤ ·) := by
  rw [List.Sorted, List.pairwise_iff_getElem]
  intro i j hi hj hij
  have := h i j (le_of_lt hij) hj
  rwa [List.getD_eq_getElem _ _ (lt_trans hij hj), List.getD_eq_getElem _ _ hj] at this

/-- Chain adjacent inequalities below a bound into arbitrary ones. -/
theorem getD_mono_of_adj (l : List Int) (n : Nat)
    (h : ∀ t, t + 1 ≤ n → l.getD t 0 ≤ l.getD (t+1) 0) :
    ∀ q, q ≤ n → ∀ p, p ≤ q → l.getD p 0 ≤ l.getD q 0 := by
  intro q
  induction q with
  | zero =>
    intro _ p hp
    have hp0 : p = 0 := by omega
    subst hp0
    exact le_refl _
  | succ m ih =>
    intro hq p hp
    rcases Nat.lt_or_ge p (m+1) with hlt | hge
    · exact le_trans (ih (by omega) p (by omega)) (h m hq)
    · have hpe : p = m + 1 := by omega
      subst hpe
      exact le_refl _


/-- Members of a permuted prefix are bounded whenever the original prefix values are. -/
theorem perm_prefix_bound (b a : List Int) (n : Nat) (hperm : b.Perm a)
    (hdrop : b.drop n = a.drop n) (B : Int)
    (hbound : ∀ t, t < n → t < a.length → a.getD t 0 ≤ B) :
    ∀ t, t < n → t < b.length → b.getD t 0 ≤ B := by
  intro t htn htb
  have htake : (b.take n).Perm (a.take n) := take_perm_of_perm_drop_eq b a n hperm hdrop
  have hmem : b.getD t 0 ∈ b.take n := getD_mem_take b t n htn htb
  have hmem' : b.getD t 0 ∈ a.take n := htake.mem_iff.mp hmem
  rw [List.mem_iff_getElem] at hmem'
  obtain ⟨i, hi, he⟩ := hmem'
  have hi' : i < a.length := by
    simp only [List.length_take] at hi
    omega
  have hin : i < n := by
    simp only [List.length_take] at hi
    omega
  have he2 : a.getD i 0 = b.getD t 0 := by
    rw [List.getD_eq_getElem _ _ hi', ← List.getElem_take a]
    exact he
  rw [← he2]
  exact hbound i hin hi'

/-! ### Correctness of bubbleSort -/

theorem bubblePass_length (a : List Int) (j m : Nat) (s : Bool) :
    (bubblePass a j m s).1.length = a.length := by
  induction a, j, m, s using bubblePass.induct with
  | case1 a j m s h hgt ih =>
    rw [bubblePass, if_pos h, if_pos hgt]
    rw [ih, listSwap_length]
  | case2 a j m s h hgt ih =>
    rw [bubblePass, if_pos h, if_neg hgt]
    exact ih
  | case3 a j m s h =>
    rw [bubblePass, if_neg h]

theorem bubblePass_perm : ∀ (a : List Int) (j m : Nat) (s : Bool), m < a.length →
    (bubblePass a j m s).1.Perm a := by
  intro a j m s
  induction a, j, m, s using bubblePass.induct with
  | case1 a j m s h hgt ih =>
    intro hm
    rw [bubblePass, if_pos h, if_pos hgt]
    have hswap := listSwap_perm a j (j+1) (by omega) (by omega)
    exact (ih (by rwa [listSwap_length])).trans hswap
  | case2 a j m s h hgt ih =>
    intro hm
    rw [bubblePass, if_pos h, if_neg hgt]
    exact ih hm
  | case3 a j m s h =>
    intro hm
    rw [bubblePass, if_neg h]

theorem bubblePass_drop : ∀ (a : List Int) (j m : Nat) (s : Bool),
    (bubblePass a j m s).1.drop (m+1) = a.drop (m+1) := by
  intro a j m s
  induction a, j, m, s using bubblePass.induct with
  | case1 a j m s h hgt ih =>
    rw [bubblePass, if_pos h, if_pos hgt]
    rw [ih, drop_listSwap a j (j+1) (m+1) (by omega) (by omega)]
  | case2 a j m s h hgt ih =>
    rw [bubblePass, if_pos h, if_neg hgt]
    exact ih
  | case3 a j m s h =>
    rw [bubblePass, if_neg h]

theorem bubblePass_max : ∀ (a : List Int) (j m : Nat) (s : Bool), j ≤ m → m < a.length →
    (∀ t, t < j → a.getD t 0 ≤ a.getD j 0) →
    ∀ t, t < m → (bubblePass a j m s).1.getD t 0 ≤ (bubblePass a j m s).1.getD m 0 := by
  intro a j m s
  induction a, j, m, s using bubblePass.induct with
  | case1 a j m s h hgt ih =>
    intro _ hm hP
    rw [bubblePass, if_pos h, if_pos hgt]
    apply ih (by omega) (by rwa [listSwap_length])
    intro t ht
    have hj1 : j + 1 < a.length := by omega
    have hr : (listSwap a j (j+1)).getD (j+1) 0 = a.getD j 0 :=
      getD_listSwap_right a j (j+1) hj1
    rcases Nat.lt_or_ge t j with htj | htj
    · rw [getD_listSwap_ne a j (j+1) t (by omega) (by omega), hr]
      exact hP t htj
    · have hte : t = j := by omega
      subst hte
      rw [getD_listSwap_left a t (t+1) (by omega) hj1, hr]
      exact le_of_lt hgt
  | case2 a j m s h hgt ih =>
    intro _ hm hP
    rw [bubblePass, if_pos h, if_neg hgt]
    apply ih (by omega) hm
    intro t ht
    rcases Nat.lt_or_ge t j with htj | htj
    · exact le_trans (hP t htj) (le_of_not_lt hgt)
    · have hte : t = j := by omega
      subst hte
      exact le_of_not_lt hgt
  | case3 a j m s h =>
    intro hjm hm hP
    rw [bubblePass, if_neg h]
    have hje : j = m := by omega
    subst hje
    exact hP

theorem bubblePass_snd_true : ∀ (a : List Int) (j m : Nat) (s : Bool), s = true →
    (bubblePass a j m s).2 = true := by
  intro a j m s
  induction a, j, m, s using bubblePass.induct with
  | case1 a j m s h hgt ih =>
    intro _
    rw [bubblePass, if_pos h, if_pos hgt]
    exact ih rfl
  | case2 a j m s h hgt ih =>
    intro hs
    rw [bubblePass, if_pos h, if_neg hgt]
    exact ih hs
  | case3 a j m s h =>
    intro hs
    rw [bubblePass, if_neg h]
    exact hs

theorem bubblePass_noswap : ∀ (a : List Int) (j m : Nat) (s : Bool),
    (bubblePass a j m s).2 = false →
    (bubblePass a j m s).1 = a ∧ ∀ t, j ≤ t → t + 1 ≤ m → a.getD t 0 ≤ a.getD (t+1) 0 := by
  intro a j m s
  induction a, j, m, s using bubblePass.induct with
  | case1 a j m s h hgt ih =>
    rw [bubblePass, if_pos h, if_pos hgt]
    intro h2
    rw [bubblePass_snd_true _ _ _ _ rfl] at h2
    exact absurd h2 (by simp)
  | case2 a j m s h hgt ih =>
    rw [bubblePass, if_pos h, if_neg hgt]
    intro h2
    obtain ⟨he, hadj⟩ := ih h2
    refine ⟨he, ?_⟩
    intro t htj htm
    rcases Nat.lt_or_ge t (j+1) with ht1 | ht1
    · have hte : t = j := by omega
      subst hte
      exact le_of_not_lt hgt
    · exact hadj t ht1 htm
  | case3 a j m s h =>
    rw [bubblePass, if_neg h]
    intro _
    exact ⟨rfl, fun t htj htm => absurd (by omega : j < m) h⟩

/-- The invariant of the outer bubble loop when the remaining pass bound is k:
positions above k are already sorted and dominate all positions up to k. -/
def bubbleInv (a : List Int) (k : Nat) : Prop :=
  (∀ p q, k + 1 ≤ p → p ≤ q → q < a.length → a.getD p 0 ≤ a.getD q 0) ∧
  (∀ p q, p ≤ k → k + 1 ≤ q → q < a.length → a.getD p 0 ≤ a.getD q 0)

theorem bubbleAux_succ_eq (a : List Int) (k : Nat) :
    bubbleAux a (k+1) = if (bubblePass a 0 (k+1) false).2 then
      bubbleAux (bubblePass a 0 (k+1) false).1 k else (bubblePass a 0 (k+1) false).1 := rfl

theorem bubbleAux_main : ∀ (k : Nat) (a : List Int), k < a.length → bubbleInv a k →
    (bubbleAux a k).Perm a ∧
      ∀ p q, p ≤ q → q < (bubbleAux a k).length →
        (bubbleAux a k).getD p 0 ≤ (bubbleAux a k).getD q 0 := by
  intro k
  induction k with
  | zero =>
    intro a hk hinv
    refine ⟨List.Perm.refl a, ?_⟩
    intro p q hpq hql
    rcases Nat.eq_or_lt_of_le hpq with he | hlt
    · subst he
      exact le_refl _
    · rcases Nat.eq_zero_or_pos p with hp0 | hpp
      · subst hp0
        exact hinv.2 0 q (by omega) (by omega) hql
      · exact hinv.1 p q (by omega) hpq hql
  | succ k ih =>
    intro a hk hinv
    rw [bubbleAux_succ_eq]
    have hm : k + 1 < a.length := hk
    have hlen : (bubblePass a 0 (k+1) false).1.length = a.length := bubblePass_length a 0 (k+1) false
    have hperm : (bubblePass a 0 (k+1) false).1.Perm a := bubblePass_perm a 0 (k+1) false hm
    have hdrop : (bubblePass a 0 (k+1) false).1.drop (k+2) = a.drop (k+2) :=
      bubblePass_drop a 0 (k+1) false
    have hmax : ∀ t, t < k+1 →
        (bubblePass a 0 (k+1) false).1.getD t 0 ≤ (bubblePass a 0 (k+1) false).1.getD (k+1) 0 :=
      bubblePass_max a 0 (k+1) false (by omega) hm (fun t ht => absurd ht (Nat.not_lt_zero t))
    have hprefbound : ∀ q, k+2 ≤ q → q < a.length →
        ∀ t, t < k+2 → t < (bubblePass a 0 (k+1) false).1.length →
          (bubblePass a 0 (k+1) false).1.getD t 0 ≤ a.getD q 0 := by
      intro q hq hql
      apply perm_prefix_bound _ a (k+2) hperm hdrop
      intro t ht htl
      exact hinv.2 t q (by omega) hq hql
    by_cases hp2 : (bubblePass a 0 (k+1) false).2 = true
    · rw [if_pos hp2]
      have hinv' : bubbleInv (bubblePass a 0 (k+1) false).1 k := by
        constructor
        · intro p q hp hpq hql
          rcases Nat.lt_or_ge q (k+2) with hq2 | hq2
          · have hpe : p = k+1 := by omega
            have hqe : q = k+1 := by omega
            subst hpe
            subst hqe
            exact le_refl _
          · have hPq : (bubblePass a 0 (k+1) false).1.getD q 0 = a.getD q 0 :=
              getD_eq_of_drop_eq _ a (k+2) q hdrop hq2
            rcases Nat.lt_or_ge p (k+2) with hp2' | hp2'
            · rw [hPq]
              exact hprefbound q hq2 (by omega) p hp2' (by omega)
            · have hPp : (bubblePass a 0 (k+1) false).1.getD p 0 = a.getD p 0 :=
                getD_eq_of_drop_eq _ a (k+2) p hdrop hp2'
              rw [hPp, hPq]
              exact hinv.1 p q hp2' hpq (by omega)
        · intro p q hp hq hql
          rcases Nat.lt_or_ge q (k+2) with hq2 | hq2
          · have hqe : q = k+1 := by omega
            subst hqe
            exact hmax p (by omega)
          · have hPq : (bubblePass a 0 (k+1) false).1.getD q 0 = a.getD q 0 :=
              getD_eq_of_drop_eq _ a (k+2) q hdrop hq2
            rw [hPq]
            exact hprefbound q hq2 (by omega) p (by omega) (by omega)
      have hres := ih (bubblePass a 0 (k+1) false).1 (by omega) hinv'
      exact ⟨hres.1.trans hperm, hres.2⟩
    · rw [if_neg hp2]
      have hp2' : (bubblePass a 0 (k+1) false).2 = false := by
        cases hb : (bubblePass a 0 (k+1) false).2
        · rfl
        · exact absurd hb hp2
      obtain ⟨heq, hadj⟩ := bubblePass_noswap a 0 (k+1) false hp2'
      rw [heq]
      refine ⟨List.Perm.refl a, ?_⟩
      intro p q hpq hql
      rcases Nat.lt_or_ge q (k+2) with hq2 | hq2
      · exact getD_mono_of_adj a (k+1) (fun t ht => hadj t (by omega) ht) q (by omega) p hpq
      · rcases Nat.lt_or_ge p (k+2) with hp2'' | hp2''
        · exact hinv.2 p q (by omega) hq2 hql
        · exact hinv.1 p q (by omega) hpq hql

theorem bubbleSort_perm_sorted (a : List Int) :
    (bubbleSort a).Perm a ∧ (bubbleSort a).Sorted (· ≤ ·) := by
  unfold bubbleSort
  rcases Nat.eq_zero_or_pos a.length with h0 | hpos
  · have ha : a = [] := List.length_eq_zero.mp h0
    subst ha
    exact ⟨List.Perm.refl _, List.sorted_nil⟩
  · have hinv : bubbleInv a (a.length - 1) := by
      constructor
      · intro p q hp hpq hq
        exact absurd hq (by omega)
      · intro p q hp hq hql
        exact absurd hql (by omega)
    have hres := bubbleAux_main (a.length - 1) a (by omega) hinv
    exact ⟨hres.1, sorted_of_getD_mono _ hres.2⟩

/-! ### Correctness of insertionSort -/

theorem set_getD_self (a : List Int) (i : Nat) (h : i < a.length) :
    a.set i (a.getD i 0) = a := by
  apply List.ext_getElem?
  intro k
  rw [List.getElem?_set]
  by_cases hik : i = k
  · subst hik
    simp [h, List.getD_eq_getElem _ _ h, List.getElem?_eq_getElem h]
  · simp [hik]

/-- Full behavioural description of the insertion shift loop, relative to the
initial array `a` and cursor `j`: the final cursor is between `-1` and `j`;
positions up to the insertion point and above `j+1` are untouched; positions in
between hold their left neighbour's original value; all shifted values were
greater than `current`; and the stop position's value is at most `current`. -/
theorem insShift_spec : ∀ (a : List Int) (c : Int) (j : Int), -1 ≤ j →
    j + 1 < (a.length : Int) →
    (insShift a c j).2 ≤ j ∧ -1 ≤ (insShift a c j).2 ∧
    (∀ t : Nat, (t : Int) < (insShift a c j).2 + 2 → (insShift a c j).1.getD t 0 = a.getD t 0) ∧
    (∀ t : Nat, j + 1 < (t : Int) → (insShift a c j).1.getD t 0 = a.getD t 0) ∧
    (∀ t : Nat, (insShift a c j).2 + 2 ≤ (t : Int) → (t : Int) ≤ j + 1 →
      (insShift a c j).1.getD t 0 = a.getD (t - 1) 0) ∧
    (∀ t : Nat, (insShift a c j).2 + 1 ≤ (t : Int) → (t : Int) ≤ j → c < a.getD t 0) ∧
    (0 ≤ (insShift a c j).2 → a.getD (insShift a c j).2.toNat 0 ≤ c) := by
  intro a c j
  induction a, c, j using insShift.induct with
  | case1 a c j hcond ih =>
    intro hj hjlen
    obtain ⟨hj0, hgt⟩ := hcond
    have heq : insShift a c j = insShift (a.set (j.toNat + 1) (a.getD j.toNat 0)) c (j - 1) := by
      rw [insShift, if_pos ⟨hj0, hgt⟩]
    have hlen' : ((a.set (j.toNat + 1) (a.getD j.toNat 0)).length : Int) = (a.length : Int) := by
      simp
    obtain ⟨g1, g2, gF2, gF2b, gF3, gF4, gF5⟩ :=
      ih (by omega) (by rw [hlen']; omega)
    rw [heq]
    refine ⟨by omega, by omega, ?_, ?_, ?_, ?_, ?_⟩
    · intro t ht
      rw [gF2 t ht, getD_set_ne _ _ _ _ (by omega)]
    · intro t ht
      rw [gF2b t (by omega), getD_set_ne _ _ _ _ (by omega)]
    · intro t ht1 ht2
      rcases Int.lt_or_le (t : Int) (j + 1) with h2 | h2
      · rw [gF3 t ht1 (by omega), getD_set_ne _ _ _ _ (by omega)]
      · have htn : t = j.toNat + 1 := by omega
        subst htn
        rw [gF2b _ (by omega), getD_set_self]
        · simp
        · have hc : (j.toNat + 1 : Int) < (a.length : Int) := by omega
          exact_mod_cast hc
    · intro t ht1 ht2
      rcases Int.lt_or_le (t : Int) j with h2 | h2
      · have := gF4 t ht1 (by omega)
        rwa [getD_set_ne _ _ _ _ (by omega)] at this
      · have htn : t = j.toNat := by omega
        subst htn
        exact hgt
    · intro hpos
      have := gF5 hpos
      rwa [getD_set_ne _ _ _ _ (by omega)] at this
  | case2 a c j hcond =>
    intro hj hjlen
    have heq : insShift a c j = (a, j) := by
      rw [insShift, if_neg hcond]
    rw [heq]
    refine ⟨le_refl j, hj, fun t _ => rfl, fun t _ => rfl, ?_, ?_, ?_⟩
    · intro t ht1 ht2
      omega
    · intro t ht1 ht2
      omega
    · intro hpos
      rcases Int.lt_or_le c (a.getD j.toNat 0) with h2 | h2
      · exact absurd ⟨hpos, h2⟩ hcond
      · exact h2

/-- Writing `current` at the final insertion point turns the shifted array into
a permutation of the array with `current` written at the start position. -/
theorem insShift_set_perm : ∀ (a : List Int) (c : Int) (j : Int), -1 ≤ j →
    j + 1 < (a.length : Int) →
    ((insShift a c j).1.set ((insShift a c j).2 + 1).toNat c).Perm
      (a.set (j + 1).toNat c) := by
  intro a c j
  induction a, c, j using insShift.induct with
  | case1 a c j hcond ih =>
    intro hj hjlen
    obtain ⟨hj0, hgt⟩ := hcond
    have heq : insShift a c j = insShift (a.set (j.toNat + 1) (a.getD j.toNat 0)) c (j - 1) := by
      rw [insShift, if_pos ⟨hj0, hgt⟩]
    rw [heq]
    have hstep := ih (by omega) (by simp; omega)
    apply hstep.trans
    have he1 : (j - 1 + 1).toNat = j.toNat := by omega
    rw [he1]
    -- (a.set (jN+1) a[jN]).set jN c is the swap of positions jN, jN+1 of a.set (jN+1) c
    have hr1 : (a.set (j.toNat + 1) c).getD (j.toNat + 1) 0 = c := by
      apply getD_set_self
      omega
    have hr2 : (a.set (j.toNat + 1) c).getD j.toNat 0 = a.getD j.toNat 0 := by
      apply getD_set_ne
      omega
    have hkey : (a.set (j.toNat + 1) (a.getD j.toNat 0)).set j.toNat c
        = listSwap (a.set (j.toNat + 1) c) j.toNat (j.toNat + 1) := by
      rw [listSwap_def, hr1, hr2]
      have e1 : (a.set (j.toNat + 1) c).set j.toNat c = (a.set j.toNat c).set (j.toNat + 1) c :=
        List.set_comm _ _ _ (by omega)
      rw [e1, List.set_set]
      exact List.set_comm _ _ _ (by omega)
    have he2 : (j + 1).toNat = j.toNat + 1 := by omega
    rw [hkey, he2]
    apply listSwap_perm
    · simp
      omega
    · simp
      omega
  | case2 a c j hcond =>
    intro hj hjlen
    have heq : insShift a c j = (a, j) := by
      rw [insShift, if_neg hcond]
    rw [heq]

theorem insLoop_eq (a : List Int) (i : Nat) (h : i < a.length) :
    insLoop a i = insLoop ((insShift a (a.getD i 0) ((i : Int) - 1)).1.set
      (((insShift a (a.getD i 0) ((i : Int) - 1)).2 + 1).toNat) (a.getD i 0)) (i + 1) := by
  rw [insLoop, if_pos h]

theorem insLoop_main : ∀ (n : Nat) (a : List Int) (i : Nat), a.length ≤ i + n →
    (∀ p q, p ≤ q → q < i → a.getD p 0 ≤ a.getD q 0) →
    (insLoop a i).Perm a ∧
      ∀ p q, p ≤ q → q < (insLoop a i).length →
        (insLoop a i).getD p 0 ≤ (insLoop a i).getD q 0 := by
  intro n
  induction n with
  | zero =>
    intro a i hn hpre
    have hni : ¬ i < a.length := by omega
    rw [insLoop, if_neg hni]
    exact ⟨List.Perm.refl a, fun p q hpq hql => hpre p q hpq (by omega)⟩
  | succ n ih =>
    intro a i hn hpre
    by_cases h : i < a.length
    · rw [insLoop_eq a i h]
      have hj1 : (-1 : Int) ≤ (i : Int) - 1 := by omega
      have hj2 : ((i : Int) - 1) + 1 < (a.length : Int) := by omega
      obtain ⟨g1, g2, gF2, gF2b, gF3, gF4, gF5⟩ :=
        insShift_spec a (a.getD i 0) ((i : Int) - 1) hj1 hj2
      have hSlen : (insShift a (a.getD i 0) ((i : Int) - 1)).1.length = a.length :=
        insShift_length a (a.getD i 0) ((i : Int) - 1)
      have hposi : (((insShift a (a.getD i 0) ((i : Int) - 1)).2 + 1).toNat : Int)
          = (insShift a (a.getD i 0) ((i : Int) - 1)).2 + 1 := by omega
      have hposle : ((insShift a (a.getD i 0) ((i : Int) - 1)).2 + 1).toNat ≤ i := by omega
      -- the array after the final write
      set S := insShift a (a.getD i 0) ((i : Int) - 1) with hS
      set pos := (S.2 + 1).toNat with hposdef
      set w := S.1.set pos (a.getD i 0) with hw
      have hwlen : w.length = a.length := by
        rw [hw, List.length_set, hSlen]
      have hwperm : w.Perm a := by
        have hp := insShift_set_perm a (a.getD i 0) ((i : Int) - 1) hj1 hj2
        have he : ((i : Int) - 1 + 1).toNat = i := by omega
        rw [he] at hp
        rw [set_getD_self a i h] at hp
        exact hp
      -- pointwise description of w
      have wlow : ∀ t : Nat, (t : Int) < S.2 + 1 → w.getD t 0 = a.getD t 0 := by
        intro t ht
        rw [hw, getD_set_ne _ _ _ _ (by omega)]
        exact gF2 t (by omega)
      have wpos : w.getD pos 0 = a.getD i 0 := by
        rw [hw]
        apply getD_set_self
        rw [hSlen]
        omega
      have wmid : ∀ t : Nat, S.2 + 1 < (t : Int) → t ≤ i → w.getD t 0 = a.getD (t-1) 0 := by
        intro t ht hti
        rw [hw, getD_set_ne _ _ _ _ (by omega)]
        exact gF3 t (by omega) (by omega)
      have whigh : ∀ t : Nat, i < t → w.getD t 0 = a.getD t 0 := by
        intro t ht
        rw [hw, getD_set_ne _ _ _ _ (by omega)]
        exact gF2b t (by omega)
      -- the value at the insertion point dominates the untouched prefix
      have hprefc : ∀ p : Nat, (p : Int) < S.2 + 1 → a.getD p 0 ≤ a.getD i 0 := by
        intro p hp
        have h0 : (0 : Int) ≤ S.2 := by omega
        have hle : a.getD S.2.toNat 0 ≤ a.getD i 0 := gF5 h0
        exact le_trans (hpre p S.2.toNat (by omega) (by omega)) hle
      -- sortedness of the extended prefix of w
      have hsort' : ∀ p q, p ≤ q → q < i + 1 → w.getD p 0 ≤ w.getD q 0 := by
        intro p q hpq hqi
        rcases Nat.lt_trichotomy q pos with hq | hq | hq
        · rw [wlow p (by omega), wlow q (by omega)]
          exact hpre p q hpq (by omega)
        · subst hq
          rcases Nat.eq_or_lt_of_le hpq with hpe | hplt
          · subst hpe
            exact le_refl _
          · rw [wlow p (by omega), wpos]
            exact hprefc p (by omega)
        · have hq1 : w.getD q 0 = a.getD (q-1) 0 := wmid q (by omega) (by omega)
          have hcq : a.getD i 0 < a.getD (q-1) 0 := gF4 (q-1) (by omega) (by omega)
          rcases Nat.lt_trichotomy p pos with hp | hp | hp
          · rw [wlow p (by omega), hq1]
            exact le_trans (hprefc p (by omega)) (le_of_lt hcq)
          · subst hp
            rw [wpos, hq1]
            exact le_of_lt hcq
          · rw [wmid p (by omega) (by omega), hq1]
            exact hpre (p-1) (q-1) (by omega) (by omega)
      have hres := ih w (i+1) (by omega) hsort'
      exact ⟨hres.1.trans hwperm, hres.2⟩
    · rw [insLoop, if_neg h]
      exact ⟨List.Perm.refl a, fun p q hpq hql => hpre p q hpq (by omega)⟩

theorem insertionSort_perm_sorted (a : List Int) :
    (insertionSort a).Perm a ∧ (insertionSort a).Sorted (· ≤ ·) := by
  unfold insertionSort
  have hpre : ∀ p q, p ≤ q → q < 1 → a.getD p 0 ≤ a.getD q 0 := by
    intro p q hpq hq
    have hp0 : p = 0 := by omega
    have hq0 : q = 0 := by omega
    subst hp0
    subst hq0
    exact le_refl _
  have h := insLoop_main a.length a 1 (by omega) hpre
  exact ⟨h.1, sorted_of_getD_mono _ h.2⟩

/-! ### Correctness of mergeSort -/

/-- Functional counterpart of the three merge loops: the sequence of values the
loops write into positions `k, k+1, ...`, in order. -/
def mergeLists : List Int → List Int → List Int
  | [], r => r
  | x :: l, [] => x :: l
  | x :: l, y :: r => if x ≤ y then x :: mergeLists l (y :: r) else y :: mergeLists (x :: l) r
termination_by l r => l.length + r.length
decreasing_by all_goals (simp; try omega)

theorem mergeLists_nil_left (r : List Int) : mergeLists [] r = r := by
  rw [mergeLists]

theorem mergeLists_nil_right (l : List Int) : mergeLists l [] = l := by
  cases l <;> rw [mergeLists]

theorem mergeLists_cons_cons (x y : Int) (l r : List Int) :
    mergeLists (x :: l) (y :: r)
      = if x ≤ y then x :: mergeLists l (y :: r) else y :: mergeLists (x :: l) r := by
  rw [mergeLists]

theorem mergeLists_perm : ∀ (l r : List Int), (mergeLists l r).Perm (l ++ r) := by
  intro l r
  induction l, r using mergeLists.induct with
  | case1 r => simp [mergeLists_nil_left]
  | case2 l h => simp [mergeLists_nil_right]
  | case3 x l y r hle ih =>
    rw [mergeLists_cons_cons, if_pos hle]
    exact ih.cons x
  | case4 x l y r hle ih =>
    rw [mergeLists_cons_cons, if_neg hle]
    exact ((ih.cons y).trans (List.perm_middle).symm)

theorem mergeLists_sorted : ∀ (l r : List Int), l.Sorted (· ≤ ·) → r.Sorted (· ≤ ·) →
    (mergeLists l r).Sorted (· ≤ ·) := by
  intro l r
  induction l, r using mergeLists.induct with
  | case1 r =>
    intro _ hr
    rw [mergeLists_nil_left]
    exact hr
  | case2 l h =>
    intro hl _
    rw [mergeLists_nil_right]
    exact hl
  | case3 x l y r hle ih =>
    intro hl hr
    rw [mergeLists_cons_cons, if_pos hle]
    rw [List.sorted_cons]
    refine ⟨?_, ih (List.sorted_cons.mp hl).2 hr⟩
    intro b hb
    have hb2 : b ∈ l ++ (y :: r) := (mergeLists_perm l (y :: r)).mem_iff.mp hb
    rcases List.mem_append.mp hb2 with h1 | h1
    · exact (List.sorted_cons.mp hl).1 b h1
    · rcases List.mem_cons.mp h1 with h2 | h2
      · rw [h2]
        exact hle
      · exact le_trans hle ((List.sorted_cons.mp hr).1 b h2)
  | case4 x l y r hle ih =>
    intro hl hr
    rw [mergeLists_cons_cons, if_neg hle]
    rw [List.sorted_cons]
    refine ⟨?_, ih hl (List.sorted_cons.mp hr).2⟩
    intro b hb
    have hylt : y ≤ x := le_of_lt (lt_of_not_le hle)
    have hb2 : b ∈ (x :: l) ++ r := (mergeLists_perm (x :: l) r).mem_iff.mp hb
    rcases List.mem_append.mp hb2 with h1 | h1
    · rcases List.mem_cons.mp h1 with h2 | h2
      · rw [h2]
        exact hylt
      · exact le_trans hylt ((List.sorted_cons.mp hl).1 b h2)
    · exact (List.sorted_cons.mp hr).1 b h1

theorem take_succ_set (a : List Int) (k : Nat) (v : Int) (h : k < a.length) :
    (a.set k v).take (k+1) = a.take k ++ [v] := by
  rw [List.set_eq_take_cons_drop v h]
  have hl : (a.take k).length = k := by
    simp
    omega
  have h2 : k + 1 = (a.take k).length + 1 := by omega
  rw [h2, List.take_append]
  simp

/-- The merge loops write exactly the functional merge of the two slices into
positions `k, k+1, ...` of the array. -/
theorem mergeLoop_eq : ∀ (a L R : List Int) (i j k : Nat),
    k + (L.length - i) + (R.length - j) ≤ a.length →
    mergeLoop a L R i j k
      = a.take k ++ mergeLists (L.drop i) (R.drop j)
        ++ a.drop (k + (L.length - i) + (R.length - j)) := by
  intro a L R i j k
  induction a, L, R, i, j, k using mergeLoop.induct with
  | case1 a L R i j k hc hle ih =>
    intro hb
    obtain ⟨hi, hj⟩ := hc
    rw [mergeLoop, if_pos ⟨hi, hj⟩, if_pos hle]
    have hk : k < a.length := by omega
    have ihb : (k+1) + (L.length - (i+1)) + (R.length - j) ≤ (a.set k (L.getD i 0)).length := by
      simp
      omega
    rw [ih ihb]
    have e1 : (a.set k (L.getD i 0)).take (k+1) = a.take k ++ [L.getD i 0] :=
      take_succ_set a k _ hk
    have harith : (k+1) + (L.length - (i+1)) + (R.length - j)
        = k + (L.length - i) + (R.length - j) := by omega
    have e2 : (a.set k (L.getD i 0)).drop ((k+1) + (L.length - (i+1)) + (R.length - j))
        = a.drop (k + (L.length - i) + (R.length - j)) := by
      rw [harith, drop_set_of_lt _ _ _ _ (by omega)]
    have hLd : L.drop i = L.getD i 0 :: L.drop (i+1) := by
      rw [List.getD_eq_getElem _ _ hi]
      exact List.drop_eq_getElem_cons hi
    have hRd : R.drop j = R.getD j 0 :: R.drop (j+1) := by
      rw [List.getD_eq_getElem _ _ hj]
      exact List.drop_eq_getElem_cons hj
    rw [e1, e2, hLd, hRd, mergeLists_cons_cons, if_pos hle]
    simp [List.append_assoc]
  | case2 a L R i j k hc hle ih =>
    intro hb
    obtain ⟨hi, hj⟩ := hc
    rw [mergeLoop, if_pos ⟨hi, hj⟩, if_neg hle]
    have hk : k < a.length := by omega
    have ihb : (k+1) + (L.length - i) + (R.length - (j+1)) ≤ (a.set k (R.getD j 0)).length := by
      simp
      omega
    rw [ih ihb]
    have e1 : (a.set k (R.getD j 0)).take (k+1) = a.take k ++ [R.getD j 0] :=
      take_succ_set a k _ hk
    have harith : (k+1) + (L.length - i) + (R.length - (j+1))
        = k + (L.length - i) + (R.length - j) := by omega
    have e2 : (a.set k (R.getD j 0)).drop ((k+1) + (L.length - i) + (R.length - (j+1)))
        = a.drop (k + (L.length - i) + (R.length - j)) := by
      rw [harith, drop_set_of_lt _ _ _ _ (by omega)]
    have hLd : L.drop i = L.getD i 0 :: L.drop (i+1) := by
      rw [List.getD_eq_getElem _ _ hi]
      exact List.drop_eq_getElem_cons hi
    have hRd : R.drop j = R.getD j 0 :: R.drop (j+1) := by
      rw [List.getD_eq_getElem _ _ hj]
      exact List.drop_eq_getElem_cons hj
    rw [e1, e2, hLd, hRd, mergeLists_cons_cons, if_neg hle]
    simp [List.append_assoc]
  | case3 a L R i j k hc hi ih =>
    intro hb
    rw [mergeLoop, if_neg hc, if_pos hi]
    have hj : R.length ≤ j := by
      rcases Nat.lt_or_ge j R.length with h1 | h1
      · exact absurd ⟨hi, h1⟩ hc
      · exact h1
    have hk : k < a.length := by omega
    have ihb : (k+1) + (L.length - (i+1)) + (R.length - j) ≤ (a.set k (L.getD i 0)).length := by
      simp
      omega
    rw [ih ihb]
    have e1 : (a.set k (L.getD i 0)).take (k+1) = a.take k ++ [L.getD i 0] :=
      take_succ_set a k _ hk
    have harith : (k+1) + (L.length - (i+1)) + (R.length - j)
        = k + (L.length - i) + (R.length - j) := by omega
    have e2 : (a.set k (L.getD i 0)).drop ((k+1) + (L.length - (i+1)) + (R.length - j))
        = a.drop (k + (L.length - i) + (R.length - j)) := by
      rw [harith, drop_set_of_lt _ _ _ _ (by omega)]
    have hLd : L.drop i = L.getD i 0 :: L.drop (i+1) := by
      rw [List.getD_eq_getElem _ _ hi]
      exact List.drop_eq_getElem_cons hi
    have hRnil : R.drop j = [] := List.drop_eq_nil_of_le hj
    rw [e1, e2, hLd, hRnil, mergeLists_nil_right, mergeLists_nil_right]
    simp [List.append_assoc]
  | case4 a L R i j k hc hi hj ih =>
    intro hb
    rw [mergeLoop, if_neg hc, if_neg hi, if_pos hj]
    have hiL : L.length ≤ i := by omega
    have hk : k < a.length := by omega
    have ihb : (k+1) + (L.length - i) + (R.length - (j+1)) ≤ (a.set k (R.getD j 0)).length := by
      simp
      omega
    rw [ih ihb]
    have e1 : (a.set k (R.getD j 0)).take (k+1) = a.take k ++ [R.getD j 0] :=
      take_succ_set a k _ hk
    have harith : (k+1) + (L.length - i) + (R.length - (j+1))
        = k + (L.length - i) + (R.length - j) := by omega
    have e2 : (a.set k (R.getD j 0)).drop ((k+1) + (L.length - i) + (R.length - (j+1)))
        = a.drop (k + (L.length - i) + (R.length - j)) := by
      rw [harith, drop_set_of_lt _ _ _ _ (by omega)]
    have hLnil : L.drop i = [] := List.drop_eq_nil_of_le hiL
    have hRd : R.drop j = R.getD j 0 :: R.drop (j+1) := by
      rw [List.getD_eq_getElem _ _ hj]
      exact List.drop_eq_getElem_cons hj
    rw [e1, e2, hLnil, hRd, mergeLists_nil_left, mergeLists_nil_left]
    simp [List.append_assoc]
  | case5 a L R i j k hc hi hj =>
    intro hb
    rw [mergeLoop, if_neg hc, if_neg hi, if_neg hj]
    have hiL : L.length ≤ i := by omega
    have hjR : R.length ≤ j := by omega
    have hLnil : L.drop i = [] := List.drop_eq_nil_of_le hiL
    have hRnil : R.drop j = [] := List.drop_eq_nil_of_le hjR
    rw [hLnil, hRnil, mergeLists_nil_left]
    have harith : k + (L.length - i) + (R.length - j) = k := by omega
    rw [harith]
    simp

theorem sorted_of_length_le_one (l : List Int) (h : l.length ≤ 1) : l.Sorted (· ≤ ·) := by
  match l with
  | [] => exact List.sorted_nil
  | [x] => exact List.sorted_singleton x
  | x :: y :: t => simp at h

theorem take_slice_drop (a : List Int) (lo hi : Nat) (hlo : lo ≤ hi + 1) :
    a.take lo ++ (a.drop lo).take (hi + 1 - lo) ++ a.drop (hi + 1) = a := by
  have he : hi + 1 = lo + (hi + 1 - lo) := by omega
  have h1 : a.take (hi + 1) = a.take lo ++ (a.drop lo).take (hi + 1 - lo) := by
    conv_lhs => rw [he]
    exact List.take_add a lo (hi + 1 - lo)
  rw [← h1, List.take_append_drop]

theorem slice_join (a : List Int) (left mid right : Nat) (h1 : left ≤ mid + 1)
    (h2 : mid ≤ right) :
    (a.drop left).take (mid + 1 - left) ++ (a.drop (mid + 1)).take (right + 1 - (mid + 1))
      = (a.drop left).take (right + 1 - left) := by
  have he : right + 1 - left = (mid + 1 - left) + (right - mid) := by omega
  rw [he, List.take_add]
  congr 1
  rw [List.drop_drop]
  have he2 : left + (mid + 1 - left) = mid + 1 := by omega
  rw [he2]
  congr 1
  omega

theorem mergeSortHelper_go (a : List Int) (left right : Nat) (h : left < right) :
    mergeSortHelper a left right
      = mergeStep (mergeSortHelper (mergeSortHelper a left ((left + right) / 2))
          ((left + right) / 2 + 1) right) left ((left + right) / 2) right := by
  rw [mergeSortHelper, if_pos h]

theorem mergeStep_eq (a : List Int) (left mid right : Nat) :
    mergeStep a left mid right = mergeLoop a ((a.drop left).take (mid + 1 - left))
      ((a.drop (mid + 1)).take (right + 1 - (mid + 1))) 0 0 left := rfl

theorem mergeSortHelper_spec : ∀ (n : Nat) (a : List Int) (left right : Nat),
    right - left ≤ n → right < a.length → left ≤ right + 1 →
    ∃ seg : List Int,
      mergeSortHelper a left right = a.take left ++ seg ++ a.drop (right + 1) ∧
      seg.Perm ((a.drop left).take (right + 1 - left)) ∧
      seg.Sorted (· ≤ ·) := by
  intro n
  induction n with
  | zero =>
    intro a left right hn hr hlr1
    have hnl : ¬ left < right := by omega
    rw [mergeSortHelper, if_neg hnl]
    refine ⟨(a.drop left).take (right + 1 - left), ?_, List.Perm.refl _, ?_⟩
    · rw [take_slice_drop a left right (by omega)]
    · apply sorted_of_length_le_one
      rw [List.length_take, List.length_drop]
      omega
  | succ n ih =>
    intro a left right hn hr hlr1
    by_cases hlr : left < right
    · rw [mergeSortHelper_go a left right hlr]
      have hmid1 : left ≤ (left + right) / 2 := by omega
      have hmid2 : (left + right) / 2 < right := by omega
      set mid := (left + right) / 2 with hmiddef
      obtain ⟨seg1, ha1eq, hseg1perm, hseg1sorted⟩ := ih a left mid (by omega) (by omega) (by omega)
      set a1 := mergeSortHelper a left mid with ha1def
      have hseg1len : seg1.length = mid + 1 - left := by
        rw [hseg1perm.length_eq]
        simp
        omega
      have htakeleftlen : (a.take left).length = left := by
        simp
        omega
      have ha1len : a1.length = a.length := by
        rw [ha1eq]
        simp [hseg1len]
        omega
      have h2 : a1.take (mid+1) = a.take left ++ seg1 := by
        rw [ha1eq]
        apply List.take_left'
        simp [hseg1len]
        omega
      have h3 : a1.drop (mid+1) = a.drop (mid+1) := by
        rw [ha1eq]
        have hxs : (a.take left ++ seg1).length = mid + 1 := by
          simp [hseg1len]
          omega
        rw [List.drop_left' hxs]
      have h4 : a1.drop (right+1) = a.drop (right+1) := by
        have e : right + 1 = (mid + 1) + (right - mid) := by omega
        rw [e, ← List.drop_drop, h3, List.drop_drop]
      obtain ⟨seg2, ha2eq, hseg2perm, hseg2sorted⟩ :=
        ih a1 (mid+1) right (by omega) (by rw [ha1len]; omega) (by omega)
      set a2 := mergeSortHelper a1 (mid+1) right with ha2def
      rw [h2, h4] at ha2eq
      rw [h3] at hseg2perm
      have hseg2len : seg2.length = right - mid := by
        rw [hseg2perm.length_eq]
        simp
        omega
      have hL : (a2.drop left).take (mid + 1 - left) = seg1 := by
        rw [ha2eq, List.append_assoc, List.append_assoc, List.drop_left' htakeleftlen]
        apply List.take_left'
        exact hseg1len
      have hR : (a2.drop (mid+1)).take (right + 1 - (mid + 1)) = seg2 := by
        rw [ha2eq, List.append_assoc, List.drop_left']
        · apply List.take_left'
          omega
        · simp [hseg1len]
          omega
      have ha2len : a2.length = a.length := by
        rw [ha2eq]
        simp [hseg1len, hseg2len]
        omega
      have hstep : mergeStep a2 left mid right = a2.take left ++ mergeLists seg1 seg2
          ++ a2.drop (left + seg1.length + seg2.length) := by
        rw [mergeStep_eq, hL, hR, mergeLoop_eq a2 seg1 seg2 0 0 left
          (by rw [ha2len]; simp [hseg1len, hseg2len]; omega)]
        simp
      have hfin1 : a2.take left = a.take left := by
        rw [ha2eq, List.append_assoc, List.append_assoc]
        exact List.take_left' htakeleftlen
      have hfin2 : a2.drop (left + seg1.length + seg2.length) = a.drop (right + 1) := by
        rw [ha2eq]
        apply List.drop_left'
        simp [htakeleftlen, hseg1len, hseg2len]
        omega
      refine ⟨mergeLists seg1 seg2, ?_, ?_, mergeLists_sorted seg1 seg2 hseg1sorted hseg2sorted⟩
      · rw [hstep, hfin1, hfin2]
      · apply (mergeLists_perm seg1 seg2).trans
        have hjoin := slice_join a left mid right (by omega) (by omega)
        rw [← hjoin]
        exact hseg1perm.append hseg2perm
    · rw [mergeSortHelper, if_neg hlr]
      refine ⟨(a.drop left).take (right + 1 - left), ?_, List.Perm.refl _, ?_⟩
      · rw [take_slice_drop a left right (by omega)]
      · apply sorted_of_length_le_one
        rw [List.length_take, List.length_drop]
        omega

theorem mergeSort_perm_sorted (a : List Int) :
    (mergeSort a).Perm a ∧ (mergeSort a).Sorted (· ≤ ·) := by
  unfold mergeSort
  rcases Nat.eq_zero_or_pos a.length with h0 | hpos
  · have ha : a = [] := List.length_eq_zero.mp h0
    subst ha
    rw [mergeSortHelper]
    simp
  · obtain ⟨seg, heq, hperm, hsorted⟩ :=
      mergeSortHelper_spec a.length a 0 (a.length - 1) (by omega) (by omega) (by omega)
    have e1 : a.length - 1 + 1 = a.length := by omega
    rw [e1] at heq hperm
    rw [heq]
    simp only [List.take_zero, List.nil_append, List.drop_length, List.append_nil]
    refine ⟨?_, hsorted⟩
    apply hperm.trans
    simp

/-! ### Correctness of quickSort -/

theorem take_set_of_le (l : List Int) (i n : Nat) (v : Int) (h : n ≤ i) :
    (l.set i v).take n = l.take n := by
  apply List.ext_getElem?
  intro k
  by_cases hk : k < n
  · rw [List.getElem?_take_of_lt hk, List.getElem?_take_of_lt hk, List.getElem?_set]
    have : ¬ i = k := by omega
    simp [this]
  · have hk' : n ≤ k := by omega
    rw [List.getElem?_take, List.getElem?_take]
    simp [hk]

theorem take_listSwap (a : List Int) (i j n : Nat) (hi : n ≤ i) (hj : n ≤ j) :
    (listSwap a i j).take n = a.take n := by
  rw [listSwap_def]
  rw [take_set_of_le _ _ _ _ hj, take_set_of_le _ _ _ _ hi]

theorem getD_drop_add (l : List Int) (n k : Nat) :
    (l.drop n).getD k 0 = l.getD (n + k) 0 := by
  rw [List.getD_eq_getElem?_getD, List.getD_eq_getElem?_getD, List.getElem?_drop]

theorem getD_eq_of_take_eq (l₁ l₂ : List Int) (n t : Nat) (h : l₁.take n = l₂.take n)
    (ht : t < n) : l₁.getD t 0 = l₂.getD t 0 := by
  rw [List.getD_eq_getElem?_getD, List.getD_eq_getElem?_getD,
    ← List.getElem?_take_of_lt ht (l := l₁), ← List.getElem?_take_of_lt ht (l := l₂), h]

theorem take_eq_of_take_eq (l₁ l₂ : List Int) (m n : Nat) (hmn : m ≤ n)
    (h : l₁.take n = l₂.take n) : l₁.take m = l₂.take m := by
  have e : ∀ l : List Int, l.take m = (l.take n).take m := by
    intro l
    rw [List.take_take]
    congr 1
    omega
  rw [e l₁, e l₂, h]

theorem drop_eq_of_drop_eq (l₁ l₂ : List Int) (m n : Nat) (hmn : m ≤ n)
    (h : l₁.drop m = l₂.drop m) : l₁.drop n = l₂.drop n := by
  have e : ∀ l : List Int, l.drop n = (l.drop m).drop (n - m) := by
    intro l
    rw [List.drop_drop]
    congr 1
    omega
  rw [e l₁, e l₂, h]

/-- Transport a predicate over the values of a middle segment along a
permutation that fixes everything outside the segment. -/
theorem seg_mem_bound (b a : List Int) (lo hi : Nat) (hperm : b.Perm a)
    (htake : b.take lo = a.take lo) (hdrop : b.drop (hi+1) = a.drop (hi+1))
    (hlen : hi < a.length) (hlohi : lo ≤ hi + 1) (P : Int → Prop)
    (hP : ∀ t, lo ≤ t → t ≤ hi → P (a.getD t 0)) :
    ∀ t, lo ≤ t → t ≤ hi → P (b.getD t 0) := by
  intro t hlot hthi
  have hblen : b.length = a.length := hperm.length_eq
  have hd : (b.drop lo).Perm (a.drop lo) := by
    apply (List.perm_append_left_iff (b.take lo)).mp
    conv_lhs => rw [List.take_append_drop]
    rw [htake, List.take_append_drop]
    exact hperm
  have hdrop2 : (b.drop lo).drop (hi + 1 - lo) = (a.drop lo).drop (hi + 1 - lo) := by
    rw [List.drop_drop, List.drop_drop]
    have e : lo + (hi + 1 - lo) = hi + 1 := by omega
    rw [e]
    exact hdrop
  have hslice : ((b.drop lo).take (hi + 1 - lo)).Perm ((a.drop lo).take (hi + 1 - lo)) :=
    take_perm_of_perm_drop_eq _ _ _ hd hdrop2
  have hmem : b.getD t 0 ∈ (b.drop lo).take (hi + 1 - lo) := by
    have e : b.getD t 0 = (b.drop lo).getD (t - lo) 0 := by
      rw [getD_drop_add]
      congr 1
      omega
    rw [e]
    apply getD_mem_take
    · omega
    · simp
      omega
  have hmem2 : b.getD t 0 ∈ (a.drop lo).take (hi + 1 - lo) := hslice.mem_iff.mp hmem
  rw [List.mem_iff_getElem] at hmem2
  obtain ⟨i, hi2, he⟩ := hmem2
  have hi3 : i < hi + 1 - lo := by
    simp only [List.length_take, List.length_drop] at hi2
    omega
  have hi4 : i < (a.drop lo).length := by
    simp
    omega
  have hed : ((a.drop lo).take (hi + 1 - lo)).getD i 0 = b.getD t 0 := by
    rw [List.getD_eq_getElem _ _ hi2]
    exact he
  have he3 : ((a.drop lo).take (hi + 1 - lo)).getD i 0 = (a.drop lo).getD i 0 := by
    rw [List.getD_eq_getElem _ _ hi2, List.getD_eq_getElem _ _ hi4]
    exact List.getElem_take _
  have he2 : (a.drop lo).getD i 0 = a.getD (lo + i) 0 := getD_drop_add a lo i
  rw [← hed, he3, he2]
  exact hP (lo + i) (by omega) (by omega)

/-- Invariant-based description of the Lomuto partition loop: the result is a
permutation of the input touching only positions of the scanned range, whose
values below the returned index are smaller than the pivot, equal to the pivot
at the index, and not smaller above it. -/
theorem lomutoAux_spec : ∀ (a : List Int) (pivot : Int) (s j high : Nat), ∀ low : Nat,
    low ≤ s → s ≤ j → j ≤ high → high < a.length →
    a.getD high 0 = pivot →
    (∀ t, low ≤ t → t < s → a.getD t 0 < pivot) →
    (∀ t, s ≤ t → t < j → ¬ a.getD t 0 < pivot) →
    (lomutoAux a pivot s j high).1.length = a.length ∧
    (lomutoAux a pivot s j high).1.Perm a ∧
    (lomutoAux a pivot s j high).1.take low = a.take low ∧
    (lomutoAux a pivot s j high).1.drop (high+1) = a.drop (high+1) ∧
    (∀ t, low ≤ t → t < (lomutoAux a pivot s j high).2 →
      (lomutoAux a pivot s j high).1.getD t 0 < pivot) ∧
    (lomutoAux a pivot s j high).1.getD (lomutoAux a pivot s j high).2 0 = pivot ∧
    (∀ t, (lomutoAux a pivot s j high).2 < t → t ≤ high →
      ¬ (lomutoAux a pivot s j high).1.getD t 0 < pivot) := by
  intro a pivot s j high
  induction a, pivot, s, j, high using lomutoAux.induct with
  | case1 a pivot s j high hjh hlt ih =>
    intro low hls hsj hjh2 hhl hpiv hinv1 hinv2
    have heq : lomutoAux a pivot s j high = lomutoAux (listSwap a s j) pivot (s+1) (j+1) high := by
      rw [lomutoAux, if_pos hjh, if_pos hlt]
    rw [heq]
    have hsl : s < a.length := by omega
    have hjl : j < a.length := by omega
    obtain ⟨c1, c2, c3, c4, c5, c6, c7⟩ :=
      ih low (by omega) (by omega) (by omega) (by rw [listSwap_length]; omega)
        (by rw [getD_listSwap_ne a s j high (by omega) (by omega)]; exact hpiv)
        (by
          intro t hlt2 hts
          rcases Nat.lt_or_ge t s with h2 | h2
          · rw [getD_listSwap_ne a s j t (by omega) (by omega)]
            exact hinv1 t hlt2 h2
          · have hte : t = s := by omega
            subst hte
            rw [getD_listSwap_left a t j hsl hjl]
            exact hlt)
        (by
          intro t hst htj
          rcases Nat.lt_or_ge t j with h2 | h2
          · rw [getD_listSwap_ne a s j t (by omega) (by omega)]
            exact hinv2 t (by omega) h2
          · have hte : t = j := by omega
            subst hte
            rw [getD_listSwap_right a s t hjl]
            exact hinv2 s (le_refl s) (by omega))
    refine ⟨by rw [c1, listSwap_length], c2.trans (listSwap_perm a s j hsl hjl), ?_, ?_, c5, c6, c7⟩
    · rw [c3, take_listSwap a s j low (by omega) (by omega)]
    · rw [c4, drop_listSwap a s j (high+1) (by omega) (by omega)]
  | case2 a pivot s j high hjh hlt ih =>
    intro low hls hsj hjh2 hhl hpiv hinv1 hinv2
    have heq : lomutoAux a pivot s j high = lomutoAux a pivot s (j+1) high := by
      rw [lomutoAux, if_pos hjh, if_neg hlt]
    rw [heq]
    exact ih low hls (by omega) (by omega) hhl hpiv hinv1
      (by
        intro t hst htj
        rcases Nat.lt_or_ge t j with h2 | h2
        · exact hinv2 t hst h2
        · have hte : t = j := by omega
          subst hte
          exact hlt)
  | case3 a pivot s j high hjh =>
    intro low hls hsj hjh2 hhl hpiv hinv1 hinv2
    have hje : j = high := by omega
    subst hje
    have heq : lomutoAux a pivot s j j = (listSwap a s j, s) := by
      rw [lomutoAux, if_neg hjh]
    rw [heq]
    have hsl : s < a.length := by omega
    refine ⟨listSwap_length a s j, listSwap_perm a s j hsl (by omega), ?_, ?_, ?_, ?_, ?_⟩
    · exact take_listSwap a s j low (by omega) (by omega)
    · exact drop_listSwap a s j (j+1) (by omega) (by omega)
    · intro t hlt2 hts
      rw [getD_listSwap_ne a s j t (by omega) (by omega)]
      exact hinv1 t hlt2 hts
    · rw [getD_listSwap_left a s j hsl (by omega)]
      exact hpiv
    · intro t hst htj
      rcases Nat.lt_or_ge t j with h2 | h2
      · rw [getD_listSwap_ne a s j t (by omega) (by omega)]
        exact hinv2 t (by omega) h2
      · have hte : t = j := by omega
        subst hte
        rw [getD_listSwap_right a s t (by omega)]
        exact hinv2 s (le_refl s) (by omega)

theorem partition_spec (a : List Int) (low high : Nat) (hlh : low ≤ high)
    (hhl : high < a.length) :
    (partition a low high).1.length = a.length ∧
    (partition a low high).1.Perm a ∧
    (partition a low high).1.take low = a.take low ∧
    (partition a low high).1.drop (high+1) = a.drop (high+1) ∧
    (∀ t, low ≤ t → t < (partition a low high).2 →
      (partition a low high).1.getD t 0 < a.getD high 0) ∧
    (partition a low high).1.getD (partition a low high).2 0 = a.getD high 0 ∧
    (∀ t, (partition a low high).2 < t → t ≤ high →
      ¬ (partition a low high).1.getD t 0 < a.getD high 0) := by
  unfold partition
  exact lomutoAux_spec a (a.getD high 0) low low high low (le_refl low) (le_refl low) hlh hhl rfl
    (by
      intro t h1 h2
      exact absurd h2 (by omega))
    (by
      intro t h1 h2
      exact absurd h2 (by omega))

theorem quickSortHelper_spec : ∀ (n : Nat) (a : List Int) (low high : Nat),
    high - low ≤ n → high < a.length →
    (quickSortHelper a low high).length = a.length ∧
    (quickSortHelper a low high).Perm a ∧
    (quickSortHelper a low high).take low = a.take low ∧
    (quickSortHelper a low high).drop (high+1) = a.drop (high+1) ∧
    (∀ t q, low ≤ t → t ≤ q → q ≤ high →
      (quickSortHelper a low high).getD t 0 ≤ (quickSortHelper a low high).getD q 0) := by
  intro n
  induction n with
  | zero =>
    intro a low high hn hh
    have hnl : ¬ low < high := by omega
    rw [quickSortHelper, if_neg hnl]
    refine ⟨rfl, List.Perm.refl a, rfl, rfl, ?_⟩
    intro t q ht htq hq
    have he : t = q := by omega
    subst he
    exact le_refl _
  | succ n ih =>
    intro a low high hn hh
    by_cases hlh : low < high
    · have hgo : quickSortHelper a low high
          = quickSortHelper
              (quickSortHelper (partition a low high).1 low ((partition a low high).2 - 1))
              ((partition a low high).2 + 1) high := by
        rw [quickSortHelper, if_pos hlh]
      rw [hgo]
      obtain ⟨p1len, p1perm, p1take, p1drop, p1lt, p1piv, p1ge⟩ :=
        partition_spec a low high (by omega) hh
      set pv := a.getD high 0 with hpv
      set a2 := (partition a low high).1 with ha2
      set p := (partition a low high).2 with hpdef
      have hplow : low ≤ p := le_partition_snd a low high
      have hphigh : p ≤ high := partition_snd_le a low high (by omega)
      -- facts about the left recursive call
      have hbfacts :
          (quickSortHelper a2 low (p-1)).length = a2.length ∧
          (quickSortHelper a2 low (p-1)).Perm a2 ∧
          (quickSortHelper a2 low (p-1)).take low = a2.take low ∧
          (quickSortHelper a2 low (p-1)).drop p = a2.drop p ∧
          (∀ t q, low ≤ t → t ≤ q → q ≤ p-1 →
            (quickSortHelper a2 low (p-1)).getD t 0 ≤ (quickSortHelper a2 low (p-1)).getD q 0) := by
        rcases Nat.eq_or_lt_of_le hplow with hpe | hplt
        · have hnl : ¬ low < p - 1 := by omega
          rw [quickSortHelper, if_neg hnl]
          refine ⟨rfl, List.Perm.refl a2, rfl, rfl, ?_⟩
          intro t q ht htq hq
          have he : t = q := by omega
          subst he
          exact le_refl _
        · obtain ⟨l1, l2, l3, l4, l5⟩ := ih a2 low (p-1) (by omega) (by rw [p1len]; omega)
          refine ⟨l1, l2, l3, ?_, fun t q h1 h2 h3 => l5 t q h1 h2 (by omega)⟩
          have e : p - 1 + 1 = p := by omega
          rw [← e]
          exact l4
      obtain ⟨blen, bperm, btake, bdropp, bsorted⟩ := hbfacts
      set b := quickSortHelper a2 low (p-1) with hbdef
      -- values of b at and above the pivot position agree with a2
      have bhi : ∀ t, p ≤ t → b.getD t 0 = a2.getD t 0 := by
        intro t hpt
        exact getD_eq_of_drop_eq b a2 p t bdropp hpt
      have bpv : b.getD p 0 = pv := by
        rw [bhi p (le_refl p)]
        exact p1piv
      have bge : ∀ t, p < t → t ≤ high → ¬ b.getD t 0 < pv := by
        intro t h1 h2
        rw [bhi t (by omega)]
        exact p1ge t h1 h2
      have blt : ∀ t, low ≤ t → t < p → b.getD t 0 < pv := by
        intro t h1 h2
        rcases Nat.eq_or_lt_of_le hplow with hpe | hplt
        · omega
        · have e : p - 1 + 1 = p := by omega
          have hseg := seg_mem_bound b a2 low (p-1) bperm btake
            (by rw [e]; exact bdropp) (by omega) (by omega) (fun x => x < pv)
            (fun t' ht1 ht2 => p1lt t' ht1 (by omega))
          exact hseg t h1 (by omega)
      -- facts about the right recursive call
      obtain ⟨clen, cperm, ctake, cdrop, csorted⟩ :=
        ih b (p+1) high (by omega) (by rw [blen, p1len]; omega)
      set c := quickSortHelper b (p+1) high with hcdef
      have clow : ∀ t, t ≤ p → c.getD t 0 = b.getD t 0 := by
        intro t htp
        exact getD_eq_of_take_eq c b (p+1) t ctake (by omega)
      have cpv : c.getD p 0 = pv := by
        rw [clow p (le_refl p)]
        exact bpv
      have cge : ∀ t, p < t → t ≤ high → ¬ c.getD t 0 < pv := by
        have hseg := seg_mem_bound c b (p+1) high cperm ctake cdrop
          (by rw [blen, p1len]; omega) (by omega) (fun x => ¬ x < pv) bge
        intro t h1 h2
        exact hseg t h1 h2
      have clt : ∀ t, low ≤ t → t < p → c.getD t 0 < pv := by
        intro t h1 h2
        rw [clow t (by omega)]
        exact blt t h1 h2
      refine ⟨?_, ?_, ?_, ?_, ?_⟩
      · rw [clen, blen, p1len]
      · exact cperm.trans (bperm.trans p1perm)
      · have e1 : c.take low = b.take low := take_eq_of_take_eq c b low (p+1) (by omega) ctake
        rw [e1, btake, p1take]
      · have e1 : b.drop (high+1) = a2.drop (high+1) :=
          drop_eq_of_drop_eq b a2 p (high+1) (by omega) bdropp
        rw [cdrop, e1, p1drop]
      · intro t q ht htq hq
        rcases Nat.lt_trichotomy q p with hq2 | hq2 | hq2
        · rw [clow t (by omega), clow q (by omega)]
          exact bsorted t q ht htq (by omega)
        · subst hq2
          rcases Nat.eq_or_lt_of_le htq with he | hlt2
          · subst he
            exact le_refl _
          · rw [cpv]
            exact le_of_lt (clt t ht hlt2)
        · rcases Nat.lt_trichotomy t p with ht2 | ht2 | ht2
          · have h1 : c.getD t 0 < pv := clt t ht ht2
            have h2 : ¬ c.getD q 0 < pv := cge q hq2 hq
            omega
          · subst ht2
            rw [cpv]
            have h2 : ¬ c.getD q 0 < pv := cge q hq2 hq
            omega
          · exact csorted t q (by omega) htq hq
    · rw [quickSortHelper, if_neg hlh]
      refine ⟨rfl, List.Perm.refl a, rfl, rfl, ?_⟩
      intro t q ht htq hq
      have he : t = q := by omega
      subst he
      exact le_refl _

theorem quickSort_perm_sorted (a : List Int) :
    (quickSort a).Perm a ∧ (quickSort a).Sorted (· ≤ ·) := by
  unfold quickSort
  rcases Nat.eq_zero_or_pos a.length with h0 | hpos
  · have ha : a = [] := List.length_eq_zero.mp h0
    subst ha
    rw [quickSortHelper]
    simp
  · obtain ⟨q1, q2, q3, q4, q5⟩ :=
      quickSortHelper_spec a.length a 0 (a.length - 1) (by omega) (by omega)
    refine ⟨q2, ?_⟩
    apply sorted_of_getD_mono
    intro t q htq hql
    rw [q1] at hql
    exact q5 t q (by omega) htq (by omega)

/-! ### Sorted inputs: no-op behaviour (supports idempotence) -/

theorem getD_mono_of_sorted (l : List Int) (h : l.Sorted (· ≤ ·)) :
    ∀ p q, p ≤ q → q < l.length → l.getD p 0 ≤ l.getD q 0 := by
  intro p q hpq hql
  rcases Nat.eq_or_lt_of_le hpq with he | hlt
  · subst he
    exact le_refl _
  · rw [List.Sorted, List.pairwise_iff_getElem] at h
    have := h p q (by omega) hql hlt
    rwa [List.getD_eq_getElem _ _ (by omega), List.getD_eq_getElem _ _ hql]

theorem bubblePass_of_sorted : ∀ (a : List Int) (j m : Nat), m < a.length →
    (∀ p q, p ≤ q → q < a.length → a.getD p 0 ≤ a.getD q 0) →
    bubblePass a j m false = (a, false) := by
  intro a j m
  induction a, j, m, false using bubblePass.induct with
  | case1 a j m s h hgt ih =>
    intro hm hmono
    have hle : a.getD j 0 ≤ a.getD (j+1) 0 := hmono j (j+1) (by omega) (by omega)
    omega
  | case2 a j m s h hgt ih =>
    intro hm hmono
    rw [bubblePass, if_pos h, if_neg hgt]
    exact ih hm hmono
  | case3 a j m s h =>
    intro hm hmono
    rw [bubblePass, if_neg h]

/-!
### Input vector parsing (handleInputVector, SortingVisualizer.tsx lines 255-284)

Strings are modelled as their character lists (Lean's String.split does not
reduce in the kernel).  `splitCommas` is JS `String.prototype.split(',')`,
`trimChars` is `String.prototype.trim()` restricted to the common whitespace
characters, and `jsParseInt` is the decimal fragment of JS `parseInt`: optional
sign followed by the longest leading run of decimal digits, NaN when that run
is empty.  parseInt's hexadecimal `0x` radix detection is not modelled (no
behaviour relevant to the claims depends on it).
-/

/-- JS `str.split(',')`: splits on every comma; the empty string yields one
empty token. -/
def splitCommas : List Char → List (List Char)
  | [] => [[]]
  | c :: rest =>
    if c = ',' then [] :: splitCommas rest
    else match splitCommas rest with
      | [] => [[c]]
      | t :: ts => (c :: t) :: ts

def isSpaceChar (c : Char) : Bool := c = ' ' ∨ c = '\t' ∨ c = '\n' ∨ c = '\r'

/-- JS `str.trim()`: strip whitespace from both ends. -/
def trimChars (l : List Char) : List Char :=
  ((l.dropWhile isSpaceChar).reverse.dropWhile isSpaceChar).reverse

def isDigitChar (c : Char) : Bool := '0' ≤ c ∧ c ≤ '9'

/-- Value of a digit string read left to right. -/
def digitsVal (l : List Char) : Nat :=
  l.foldl (fun acc c => acc * 10 + (c.toNat - 48)) 0

/-- The longest leading digit run, or NaN (`none`) when there is none. -/
def parseDigits (l : List Char) : Option Nat :=
  let ds := l.takeWhile isDigitChar
  if ds.isEmpty then none else some (digitsVal ds)

/-- Decimal JS `parseInt` on an already-trimmed token. -/
def jsParseInt (l : List Char) : Option Int :=
  match l with
  | [] => none
  | c :: rest =>
    if c = '-' then (parseDigits rest).map (fun n => -(n : Int))
    else if c = '+' then (parseDigits rest).map (fun n => (n : Int))
    else (parseDigits (c :: rest)).map (fun n => (n : Int))

/-- The four `throw new Error(...)` sites of handleInputVector, in source
order: 'Invalid number in input', 'Numbers must be between 1 and 100',
'Please enter at least one number', 'Maximum 100 elements allowed'. -/
inductive InputError
  | invalidNumber
  | outOfRange
  | noNumbers
  | tooMany
deriving DecidableEq

/-- Body of the `.map` callback (lines 261-270): parse, reject NaN, reject
values outside `[1, 100]`. -/
def parseToken (t : List Char) : Except InputError Int :=
  match jsParseInt t with
  | none => Except.error InputError.invalidNumber
  | some v => if v < 1 ∨ 100 < v then Except.error InputError.outOfRange else Except.ok v

/-- JS `Array.prototype.map` with a throwing callback: stops at the first
failing element. -/
def parseTokens : List (List Char) → Except InputError (List Int)
  | [] => Except.ok []
  | t :: ts =>
    match parseToken t with
    | Except.error e => Except.error e
    | Except.ok v =>
      match parseTokens ts with
      | Except.error e => Except.error e
      | Except.ok vs => Except.ok (v :: vs)

/-- `split(',').map(trim).filter(num => num !== '')` (lines 258-260). -/
def tokensOf (s : List Char) : List (List Char) :=
  ((splitCommas s).map trimChars).filter (fun t => ¬ t.isEmpty)

/-- `handleInputVector` (SortingVisualizer.tsx lines 255-284), as the function
from the input string to either the parsed numbers or the first error raised. -/
def handleInputVector (s : List Char) : Except InputError (List Int) :=
  match parseTokens (tokensOf s) with
  | Except.error e => Except.error e
  | Except.ok numbers =>
    if numbers.length = 0 then Except.error InputError.noNumbers
    else if numbers.length > 100 then Except.error InputError.tooMany
    else Except.ok numbers

example : handleInputVector "45, 23, 67".toList = Except.ok [45, 23, 67] := by rfl
example : handleInputVector "101,2".toList = Except.error InputError.outOfRange := by rfl
example : handleInputVector "".toList = Except.error InputError.noNumbers := by rfl
example : handleInputVector "1,,2,".toList = Except.ok [1, 2] := by rfl
example : handleInputVector "12abc".toList = Except.ok [12] := by rfl
example : handleInputVector "2.5".toList = Except.ok [2] := by rfl
example : handleInputVector "abc".toList = Except.error InputError.invalidNumber := by rfl

theorem takeWhile_digits_eq_self : ∀ (l : List Char), (∀ c ∈ l, isDigitChar c = true) →
    l.takeWhile isDigitChar = l := by
  intro l h
  induction l with
  | nil => rfl
  | cons c t ih =>
    rw [List.takeWhile_cons, h c (by simp)]
    simp only [if_true]
    rw [ih (fun x hx => h x (by simp [hx]))]

theorem jsParseInt_digits (l : List Char) (hne : l ≠ [])
    (h : ∀ c ∈ l, isDigitChar c = true) :
    jsParseInt l = some ((digitsVal l : Int)) := by
  match l, hne with
  | c :: rest, _ =>
    have hc : isDigitChar c = true := h c (by simp)
    have hcm : ¬ c = '-' := by
      intro he
      subst he
      exact absurd hc (by decide)
    have hcp : ¬ c = '+' := by
      intro he
      subst he
      exact absurd hc (by decide)
    rw [jsParseInt]
    simp only [if_neg hcm, if_neg hcp]
    unfold parseDigits
    rw [takeWhile_digits_eq_self (c :: rest) h]
    simp

theorem parseToken_digits (t : List Char) (hne : t ≠ []) (hd : ∀ c ∈ t, isDigitChar c = true)
    (h1 : 1 ≤ digitsVal t) (h2 : digitsVal t ≤ 100) :
    parseToken t = Except.ok ((digitsVal t : Int)) := by
  unfold parseToken
  rw [jsParseInt_digits t hne hd]
  have hno : ¬ ((digitsVal t : Int) < 1 ∨ 100 < (digitsVal t : Int)) := by omega
  simp only [if_neg hno]

theorem parseTokens_all_ok : ∀ (ts : List (List Char)),
    (∀ t ∈ ts, t ≠ [] ∧ (∀ c ∈ t, isDigitChar c = true) ∧
      1 ≤ digitsVal t ∧ digitsVal t ≤ 100) →
    parseTokens ts = Except.ok (ts.map (fun t => (digitsVal t : Int))) := by
  intro ts h
  induction ts with
  | nil => rfl
  | cons t ts ih =>
    obtain ⟨h1, h2, h3, h4⟩ := h t (by simp)
    rw [parseTokens, parseToken_digits t h1 h2 h3 h4, ih (fun x hx => h x (by simp [hx]))]
    rfl

theorem parseToken_error_kind (t : List Char) (e : InputError)
    (h : parseToken t = Except.error e) :
    e = InputError.invalidNumber ∨ e = InputError.outOfRange := by
  unfold parseToken at h
  cases hj : jsParseInt t with
  | none =>
    simp only [hj] at h
    injection h with he
    left
    exact he.symm
  | some v =>
    simp only [hj] at h
    by_cases hv : (v < 1 ∨ 100 < v)
    · rw [if_pos hv] at h
      injection h with he
      right
      exact he.symm
    · rw [if_neg hv] at h
      exact absurd h (by simp)

theorem parseTokens_error_kind : ∀ (ts : List (List Char)) (e : InputError),
    parseTokens ts = Except.error e →
    e = InputError.invalidNumber ∨ e = InputError.outOfRange := by
  intro ts
  induction ts with
  | nil =>
    intro e h
    exact absurd h (by rw [parseTokens]; simp)
  | cons t ts ih =>
    intro e h
    rw [parseTokens] at h
    cases hp : parseToken t with
    | error e' =>
      rw [hp] at h
      injection h with he
      rw [← he]
      exact parseToken_error_kind t e' hp
    | ok v =>
      rw [hp] at h
      cases hq : parseTokens ts with
      | error e' =>
        rw [hq] at h
        injection h with he
        rw [← he]
        exact ih e' hq
      | ok vs =>
        rw [hq] at h
        exact absurd h (by simp)

theorem parseTokens_length : ∀ (ts : List (List Char)) (vs : List Int),
    parseTokens ts = Except.ok vs → vs.length = ts.length := by
  intro ts
  induction ts with
  | nil =>
    intro vs h
    rw [parseTokens] at h
    injection h with he
    rw [← he]
    rfl
  | cons t ts ih =>
    intro vs h
    rw [parseTokens] at h
    cases hp : parseToken t with
    | error e' =>
      rw [hp] at h
      exact absurd h (by simp)
    | ok v =>
      rw [hp] at h
      cases hq : parseTokens ts with
      | error e' =>
        rw [hq] at h
        exact absurd h (by simp)
      | ok vs' =>
        rw [hq] at h
        injection h with he
        rw [← he]
        simp [ih vs' hq]

theorem handleInputVector_noNumbers_iff (s : List Char) :
    handleInputVector s = Except.error InputError.noNumbers ↔ tokensOf s = [] := by
  constructor
  · intro h
    unfold handleInputVector at h
    cases hp : parseTokens (tokensOf s) with
    | error e =>
      simp only [hp] at h
      injection h with he
      subst he
      rcases parseTokens_error_kind _ _ hp with h1 | h1 <;> exact absurd h1 (by simp)
    | ok vs =>
      simp only [hp] at h
      by_cases h0 : vs.length = 0
      · have hl := parseTokens_length _ _ hp
        have : (tokensOf s).length = 0 := by omega
        exact List.length_eq_zero.mp this
      · rw [if_neg h0] at h
        by_cases h100 : vs.length > 100
        · rw [if_pos h100] at h
          injection h with he
          exact absurd he (by simp)
        · rw [if_neg h100] at h
          exact absurd h (by simp)
  · intro h
    unfold handleInputVector
    rw [h]
    rfl

/-- Well-formed inputs parse to their digit values, in order. -/
theorem handleInputVector_ok (s : List Char)
    (hall : ∀ t ∈ tokensOf s, t ≠ [] ∧ (∀ c ∈ t, isDigitChar c = true) ∧
      1 ≤ digitsVal t ∧ digitsVal t ≤ 100)
    (hne : tokensOf s ≠ []) (hlen : (tokensOf s).length ≤ 100) :
    handleInputVector s = Except.ok ((tokensOf s).map (fun t => (digitsVal t : Int))) := by
  unfold handleInputVector
  simp only [parseTokens_all_ok (tokensOf s) hall]
  have h0 : ¬ ((tokensOf s).map (fun t => (digitsVal t : Int))).length = 0 := by
    simp
    exact hne
  have h100 : ¬ ((tokensOf s).map (fun t => (digitsVal t : Int))).length > 100 := by
    simp
    omega
  rw [if_neg h0, if_neg h100]

/-!
### Pathfinding model

src/src/algorithms/pathfinding.ts and the grid handling of
src/src/components/PathfindingVisualizer.tsx.  A JS `Node` object becomes the
structure `PNode`; the mutable object graph is replaced by the grid as an
arena addressed by `(row, col)`, so the `previousNode` object reference and
the `===` identity tests become coordinate pairs.  A JS number that is either
a non-negative count or `Infinity` is `Option Nat` with `none = Infinity`
(`fScore: undefined` also compares as `Infinity` via the `?? Infinity` in the
comparator, hence the same encoding).  `Array.prototype.sort`, which
ECMAScript guarantees to be stable (comparator results that are `NaN`, as for
two `Infinity` keys, are treated as `0`), is modelled by the stable insertion
sort `sortByKey`.
-/

/-- A JS number that is a count or `Infinity` (`none`). -/
abbrev Distance := Option Nat

/-- Numeric `≤` on distances. -/
def dLe : Distance → Distance → Bool
  | _, none => true
  | none, some _ => false
  | some a, some b => a ≤ b

/-- Numeric `<` on distances. -/
def dLt : Distance → Distance → Bool
  | none, _ => false
  | some _, none => true
  | some a, some b => a < b

/-- `d + 1` on distances. -/
def dSucc : Distance → Distance
  | none => none
  | some n => some (n + 1)

/-- `d + k` on distances. -/
def dAdd : Distance → Nat → Distance
  | none, _ => none
  | some n, k => some (n + k)

/-- The `Node` interface of pathfinding.ts (plus `isInPath`, used by the
visualizer's grid).  `isBlock?: boolean` is `false` when absent. -/
structure PNode where
  row : Nat
  col : Nat
  isStart : Bool
  isEnd : Bool
  distance : Distance
  isVisited : Bool
  isWall : Bool
  isBlock : Bool
  previousNode : Option (Nat × Nat)
  fScore : Distance
  isInPath : Bool
deriving DecidableEq

instance : Inhabited PNode :=
  ⟨{ row := 0, col := 0, isStart := false, isEnd := false, distance := none,
     isVisited := false, isWall := false, isBlock := false, previousNode := none,
     fScore := none, isInPath := false }⟩

abbrev Grid := List (List PNode)

def getNode (g : Grid) (r c : Nat) : PNode := (g.getD r []).getD c default

def setNode (g : Grid) (r c : Nat) (v : PNode) : Grid := g.set r ((g.getD r []).set c v)

def gridCols (g : Grid) : Nat := (g.getD 0 []).length

/-- Stable insertion of `x` into a list ordered by `key` (before the first
strictly larger or equal-keyed element seen from later inserts). -/
def insertByKey {α : Type} (key : α → Distance) (x : α) : List α → List α
  | [] => [x]
  | y :: ys => if dLe (key x) (key y) then x :: y :: ys else y :: insertByKey key x ys

/-- Stable sort by key: the model of `Array.prototype.sort` with a numeric
comparator on the keys. -/
def sortByKey {α : Type} (key : α → Distance) (l : List α) : List α :=
  l.foldr (insertByKey key) []

theorem insertByKey_length {α : Type} (key : α → Distance) (x : α) :
    ∀ l : List α, (insertByKey key x l).length = l.length + 1 := by
  intro l
  induction l with
  | nil => rfl
  | cons y ys ih =>
    rw [insertByKey]
    split
    · rfl
    · simp [ih]

theorem sortByKey_length {α : Type} (key : α → Distance) (l : List α) :
    (sortByKey key l).length = l.length := by
  induction l with
  | nil => rfl
  | cons y ys ih =>
    show (insertByKey key y (sortByKey key ys)).length = ys.length + 1
    rw [insertByKey_length, ih]

/-- `getAllNodes` (pathfinding.ts 60-68): row-major traversal, as coordinates. -/
def allCoords (g : Grid) : List (Nat × Nat) :=
  (List.range g.length).flatMap (fun i => (List.range (g.getD i []).length).map (fun j => (i, j)))

/-- `getNeighbors` (pathfinding.ts 102-112): the up/down/left/right cells that
exist, with already-visited ones filtered out.  (Walls are *not* filtered.) -/
def getNeighbors (g : Grid) (r c : Nat) : List (Nat × Nat) :=
  ((if 0 < r then [(r-1, c)] else []) ++
   (if r < g.length - 1 then [(r+1, c)] else []) ++
   (if 0 < c then [(r, c-1)] else []) ++
   (if c < gridCols g - 1 then [(r, c+1)] else [])).filter
    (fun p => ¬ (getNode g p.1 p.2).isVisited)

/-- One recorded relaxation: which cell was written, whether it is a wall, and
its tentative distance before and after. -/
structure RelaxEvent where
  target : Nat × Nat
  wall : Bool
  oldDist : Distance
  newDist : Distance
deriving DecidableEq

/-- Body of `updateNeighbors` (pathfinding.ts 82-88): every non-visited
neighbour's distance is unconditionally overwritten with `node.distance + 1`
and its back-pointer with the node; each write is recorded as an event. -/
def relaxList (g : Grid) (src : Nat × Nat) (nodeDist : Distance) :
    List (Nat × Nat) → Grid × List RelaxEvent
  | [] => (g, [])
  | p :: ps =>
    let n := getNode g p.1 p.2
    let g1 := setNode g p.1 p.2
      { n with distance := dSucc nodeDist, previousNode := some src }
    let rest := relaxList g1 src nodeDist ps
    (rest.1, ⟨p, n.isWall, n.distance, dSucc nodeDist⟩ :: rest.2)

def updateNeighbors (g : Grid) (r c : Nat) : Grid × List RelaxEvent :=
  relaxList g (r, c) (getNode g r c).distance (getNeighbors g r c)

def sortNodesByDistance (g : Grid) (l : List (Nat × Nat)) : List (Nat × Nat) :=
  sortByKey (fun p => (getNode g p.1 p.2).distance) l

/-- The main loop of `dijkstra` (pathfinding.ts 20-32).  The in-place
`sort`-then-`shift` of `unvisitedNodes` is modelled by sorting the remaining
queue each iteration and continuing with the sorted tail.  Each iteration
removes exactly one element from the queue, so running the loop with
`fuel ≥ queue.length` is identical to the source's `while` loop (when the
fuel runs out the queue is empty, and the source loop also stops).  Returns
the final grid, the visited order, and all relaxation events. -/
def dijkstraLoop : Nat → Grid → List (Nat × Nat) → (Nat × Nat) →
    List (Nat × Nat) → List RelaxEvent → Grid × List (Nat × Nat) × List RelaxEvent
  | 0, g, _, _, trace, events => (g, trace, events)
  | fuel+1, g, queue, endRC, trace, events =>
    match sortNodesByDistance g queue with
    | [] => (g, trace, events)
    | u :: rest =>
      let n := getNode g u.1 u.2
      if n.isWall ∨ n.isBlock then dijkstraLoop fuel g rest endRC trace events
      else if n.distance = none then (g, trace, events)
      else
        let g1 := setNode g u.1 u.2 { n with isVisited := true }
        if u = endRC then (g1, trace ++ [u], events)
        else
          let r := updateNeighbors g1 u.1 u.2
          dijkstraLoop fuel r.1 rest endRC (trace ++ [u]) (events ++ r.2)

/-- `dijkstra` (pathfinding.ts 15-35), with the start and end nodes given by
their coordinates. -/
def dijkstra (g : Grid) (startRC endRC : Nat × Nat) :
    Grid × List (Nat × Nat) × List RelaxEvent :=
  let s := getNode g startRC.1 startRC.2
  let g0 := setNode g startRC.1 startRC.2 { s with distance := some 0 }
  dijkstraLoop (allCoords g0).length g0 (allCoords g0) endRC [] []

/-- The `previousNode` chain walk of `getNodesInShortestPathOrder`
(pathfinding.ts 118-128), built start-to-end (the source `unshift`s).  `fuel`
bounds the walk; in any state produced by a search each link strictly
decreases the stored distance, so grid-size fuel is enough. -/
def pathChain (g : Grid) : Nat → (Nat × Nat) → List (Nat × Nat)
  | 0, u => [u]
  | fuel+1, u =>
    match (getNode g u.1 u.2).previousNode with
    | none => [u]
    | some p => pathChain g fuel p ++ [u]

def getNodesInShortestPathOrder (g : Grid) (endRC : Nat × Nat) : List (Nat × Nat) :=
  pathChain g (g.length * gridCols g + 1) endRC

/-- `heuristic` (pathfinding.ts 114-116): Manhattan distance. -/
def heuristic (a b : PNode) : Nat :=
  ((a.row : Int) - (b.row : Int)).natAbs + ((a.col : Int) - (b.col : Int)).natAbs

/-- Manhattan distance on coordinates. -/
def manhattan (a b : Nat × Nat) : Nat :=
  ((a.1 : Int) - (b.1 : Int)).natAbs + ((a.2 : Int) - (b.2 : Int)).natAbs

/-- `heuristic` of PathfindingVisualizer.tsx (lines 423-428): *Euclidean*
distance `sqrt(dx² + dy²)`; the JS float `Math.sqrt` is idealised as the real
square root. -/
noncomputable def heuristicTSX (a b : PNode) : ℝ :=
  Real.sqrt ((((a.row : Int) - (b.row : Int)).natAbs * ((a.row : Int) - (b.row : Int)).natAbs
    + ((a.col : Int) - (b.col : Int)).natAbs * ((a.col : Int) - (b.col : Int)).natAbs : Nat))

def sortNodesByFScore (g : Grid) (l : List (Nat × Nat)) : List (Nat × Nat) :=
  sortByKey (fun p => (getNode g p.1 p.2).fScore) l

/-- One neighbour step of `updateNeighborsAStar` (pathfinding.ts 90-100):
relax only on strict improvement, setting `fScore = g + heuristic`. -/
def aStarRelax (g : Grid) (src : Nat × Nat) (nodeDist : Distance) (endNode : PNode)
    (p : Nat × Nat) : Grid :=
  let n := getNode g p.1 p.2
  let tentative := dSucc nodeDist
  if dLt tentative n.distance then
    setNode g p.1 p.2
      { n with distance := tentative,
               fScore := dAdd tentative (heuristic n endNode),
               previousNode := some src }
  else g

def updateNeighborsAStar (g : Grid) (src : Nat × Nat) (nodeDist : Distance)
    (endNode : PNode) (ps : List (Nat × Nat)) : Grid :=
  ps.foldl (fun acc p => aStarRelax acc src nodeDist endNode p) g

/-- The main loop of `aStar` (pathfinding.ts 43-55). -/
def aStarLoop (g : Grid) (queue : List (Nat × Nat)) (endRC : Nat × Nat)
    (endNode : PNode) (trace : List (Nat × Nat)) : Grid × List (Nat × Nat) :=
  match hq : sortNodesByFScore g queue with
  | [] => (g, trace)
  | u :: rest =>
    let n := getNode g u.1 u.2
    if n.isWall ∨ n.isBlock then aStarLoop g rest endRC endNode trace
    else if n.distance = none then (g, trace)
    else
      let g1 := setNode g u.1 u.2 { n with isVisited := true }
      if u = endRC then (g1, trace ++ [u])
      else
        aStarLoop (updateNeighborsAStar g1 u (getNode g1 u.1 u.2).distance endNode
          (getNeighbors g1 u.1 u.2)) rest endRC endNode (trace ++ [u])
termination_by queue.length
decreasing_by
  all_goals {
    have hlen : (sortNodesByFScore g queue).length = queue.length := sortByKey_length _ _
    rw [hq] at hlen
    simp at hlen
    omega
  }

/-- `aStar` (pathfinding.ts 37-58). -/
def aStar (g : Grid) (startRC endRC : Nat × Nat) : Grid × List (Nat × Nat) :=
  let s := getNode g startRC.1 startRC.2
  let e := getNode g endRC.1 endRC.2
  let g0 := setNode g startRC.1 startRC.2
    { s with distance := some 0, fScore := some (heuristic s e) }
  aStarLoop g0 (allCoords g0) endRC e []

/-!
### Grid mutation tools and BFS (PathfindingVisualizer.tsx)
-/

/-- `handleCellClick`, tool 'wall' (lines 72-79): no-op on start/end cells,
otherwise flip `isWall`. -/
def toggleWall (g : Grid) (row col : Nat) : Grid :=
  let cell := getNode g row col
  if cell.isStart ∨ cell.isEnd then g
  else setNode g row col { cell with isWall := !cell.isWall }

/-- `handleCellClick`, tool 'start' (lines 80-96): no-op on walls, otherwise
clear the old holder (found by its flag) and set the clicked cell. -/
def setStart (g : Grid) (row col : Nat) : Grid :=
  let cell := getNode g row col
  if cell.isWall then g
  else
    let g1 := match g.flatten.find? (fun c => c.isStart) with
      | some old => setNode g old.row old.col { old with isStart := false }
      | none => g
    setNode g1 row col { cell with isStart := true }

/-- `handleCellClick`, tool 'end' (lines 97-113). -/
def setEnd (g : Grid) (row col : Nat) : Grid :=
  let cell := getNode g row col
  if cell.isWall then g
  else
    let g1 := match g.flatten.find? (fun c => c.isEnd) with
      | some old => setNode g old.row old.col { old with isEnd := false }
      | none => g
    setNode g1 row col { cell with isEnd := true }

/-- `clearWalls` (lines 168-177). -/
def clearWalls (g : Grid) : Grid :=
  g.map (fun r => r.map (fun c => { c with isWall := false }))

/-- `clearPath` (lines 156-166): resets only `isVisited` and `isInPath`. -/
def clearPath (g : Grid) : Grid :=
  g.map (fun r => r.map (fun c => { c with isVisited := false, isInPath := false }))

/-- State of the BFS of PathfindingVisualizer.tsx (lines 431-515): the FIFO
queue, the visited set (marked at enqueue time) and the `previous` map. -/
structure BfsState where
  queue : List (Nat × Nat)
  visitedSet : List (Nat × Nat)
  prevMap : (Nat × Nat) → Option (Nat × Nat)

/-- The four neighbour offsets, in source order (up, down, left, right),
before the bounds check; JS indices may be negative, hence `Int`. -/
def bfsCandidates (r c : Nat) : List (Int × Int) :=
  [((r : Int) - 1, (c : Int)), ((r : Int) + 1, (c : Int)),
   ((r : Int), (c : Int) - 1), ((r : Int), (c : Int) + 1)]

/-- The neighbour loop body of bfsAlgorithm (lines 485-511): bounds check,
skip walls and already-visited cells, mark visited, record the predecessor,
enqueue. -/
def bfsProcessNeighbor (rows cols : Nat) (g : Grid) (cur : Nat × Nat)
    (st : BfsState) (cand : Int × Int) : BfsState :=
  if 0 ≤ cand.1 ∧ cand.1 < (rows : Int) ∧ 0 ≤ cand.2 ∧ cand.2 < (cols : Int) then
    let p : Nat × Nat := (cand.1.toNat, cand.2.toNat)
    if (getNode g p.1 p.2).isWall ∨ p ∈ st.visitedSet then st
    else
      { queue := st.queue ++ [p],
        visitedSet := st.visitedSet ++ [p],
        prevMap := fun q => if q = p then some cur else st.prevMap q }
  else st

def bfsStep (rows cols : Nat) (g : Grid) (cur : Nat × Nat) (st : BfsState) : BfsState :=
  (bfsCandidates cur.1 cur.2).foldl (bfsProcessNeighbor rows cols g cur) st

/-- The while loop of bfsAlgorithm (lines 448-512), fuelled; returns the
dequeued end cell and the predecessor map when the end is found. -/
def bfsLoop (rows cols : Nat) (g : Grid) :
    Nat → BfsState → Option ((Nat × Nat) × ((Nat × Nat) → Option (Nat × Nat)))
  | 0, _ => none
  | fuel+1, st =>
    match st.queue with
    | [] => none
    | cur :: qrest =>
      if (getNode g cur.1 cur.2).isEnd then some (cur, st.prevMap)
      else bfsLoop rows cols g fuel (bfsStep rows cols g cur { st with queue := qrest })

/-- The path reconstruction of bfsAlgorithm (lines 454-474): walking the
`previous` chain from the end, each non-start predecessor is marked
`isInPath`; the list is the marks in emission order.  Note that neither the
end cell nor the start cell is ever marked. -/
def bfsMarks (g : Grid) (prevMap : (Nat × Nat) → Option (Nat × Nat)) :
    Nat → (Nat × Nat) → List (Nat × Nat)
  | 0, _ => []
  | fuel+1, cell =>
    if (getNode g cell.1 cell.2).isStart then []
    else
      match prevMap cell with
      | some prev =>
        (if (getNode g prev.1 prev.2).isStart then [] else [prev])
          ++ bfsMarks g prevMap fuel prev
      | none => []

/-- `bfsAlgorithm` (PathfindingVisualizer.tsx lines 431-515), reduced to its
observable output: the cells marked `isInPath`, in order.  The source's fixed
`GRID_ROWS`/`GRID_COLS` constants are the grid's own dimensions. -/
def bfsAlgorithm (g : Grid) : List (Nat × Nat) :=
  match g.flatten.find? (fun c => c.isStart), g.flatten.find? (fun c => c.isEnd) with
  | some s, some _ =>
    let rows := g.length
    let cols := gridCols g
    let st0 : BfsState := ⟨[(s.row, s.col)], [(s.row, s.col)], fun _ => none⟩
    match bfsLoop rows cols g (rows * cols + 1) st0 with
    | some (endCell, pm) => bfsMarks g pm (rows * cols + 1) endCell
    | none => []
  | _, _ => []

/-- One freshly initialised cell of `initializeGrid`
(PathfindingVisualizer.tsx 42-62). -/
def mkCell (i j : Nat) (s e : Nat × Nat) (walls : List (Nat × Nat)) : PNode :=
  { row := i, col := j, isStart := (i, j) = s, isEnd := (i, j) = e,
    distance := none, isVisited := false, isWall := decide ((i, j) ∈ walls),
    isBlock := false, previousNode := none, fScore := none, isInPath := false }

/-- A freshly initialised grid in the shape of `initializeGrid`
(PathfindingVisualizer.tsx 42-62), with the start/end positions and the wall
set as parameters. -/
def mkGrid (rows cols : Nat) (s e : Nat × Nat) (walls : List (Nat × Nat)) : Grid :=
  (List.range rows).map (fun i => (List.range cols).map (fun j => mkCell i j s e walls))

/-! ### Order facts about the stable sort -/

theorem dLe_refl (x : Distance) : dLe x x = true := by
  cases x <;> simp [dLe]

theorem dLe_total (x y : Distance) (h : ¬ dLe x y = true) : dLe y x = true := by
  cases x <;> cases y <;> simp [dLe] at * <;> omega

theorem dLe_trans (x y z : Distance) (h1 : dLe x y = true) (h2 : dLe y z = true) :
    dLe x z = true := by
  cases x <;> cases y <;> cases z <;> simp [dLe] at * <;> omega

theorem insertByKey_perm {α : Type} (key : α → Distance) (x : α) :
    ∀ l : List α, (insertByKey key x l).Perm (x :: l) := by
  intro l
  induction l with
  | nil => exact List.Perm.refl _
  | cons y ys ih =>
    rw [insertByKey]
    split
    · exact List.Perm.refl _
    · exact (ih.cons y).trans (List.Perm.swap x y ys)

theorem sortByKey_perm {α : Type} (key : α → Distance) (l : List α) :
    (sortByKey key l).Perm l := by
  induction l with
  | nil => exact List.Perm.refl _
  | cons y ys ih =>
    show (insertByKey key y (sortByKey key ys)).Perm (y :: ys)
    exact (insertByKey_perm key y _).trans (ih.cons y)

theorem insertByKey_pairwise {α : Type} (key : α → Distance) (x : α) :
    ∀ l : List α, l.Pairwise (fun a b => dLe (key a) (key b) = true) →
    (insertByKey key x l).Pairwise (fun a b => dLe (key a) (key b) = true) := by
  intro l
  induction l with
  | nil =>
    intro _
    simp [insertByKey]
  | cons y ys ih =>
    intro h
    rw [List.pairwise_cons] at h
    rw [insertByKey]
    split
    · rename_i hxy
      rw [List.pairwise_cons]
      constructor
      · intro b hb
        rcases List.mem_cons.mp hb with h1 | h1
        · rw [h1]
          exact hxy
        · exact dLe_trans _ _ _ hxy (h.1 b h1)
      · rw [List.pairwise_cons]
        exact h
    · rename_i hxy
      rw [List.pairwise_cons]
      constructor
      · intro b hb
        have hb2 : b ∈ x :: ys := (insertByKey_perm key x ys).mem_iff.mp hb
        rcases List.mem_cons.mp hb2 with h1 | h1
        · rw [h1]
          exact dLe_total _ _ hxy
        · exact h.1 b h1
      · exact ih h.2

theorem sortByKey_pairwise {α : Type} (key : α → Distance) (l : List α) :
    (sortByKey key l).Pairwise (fun a b => dLe (key a) (key b) = true) := by
  induction l with
  | nil => simp [sortByKey]
  | cons y ys ih =>
    show (insertByKey key y (sortByKey key ys)).Pairwise _
    exact insertByKey_pairwise key y _ ih

/-- The first element of the sorted queue has a minimal key among all queue
members. -/
theorem sortByKey_head_min {α : Type} (key : α → Distance) (l : List α) (u : α)
    (rest : List α) (h : sortByKey key l = u :: rest) :
    ∀ v ∈ l, dLe (key u) (key v) = true := by
  intro v hv
  have hperm := sortByKey_perm key l
  rw [h] at hperm
  have hv2 : v ∈ u :: rest := hperm.symm.mem_iff.mp hv
  rcases List.mem_cons.mp hv2 with h1 | h1
  · rw [h1]
    exact dLe_refl _
  · have hp := sortByKey_pairwise key l
    rw [h, List.pairwise_cons] at hp
    exact hp.1 v h1

/-! ### Grid access lemmas -/

theorem getD_set_self_g {α : Type} (l : List α) (i : Nat) (v d : α) (h : i < l.length) :
    (l.set i v).getD i d = v := by
  rw [List.getD_eq_getElem _ _ (by simp [h])]
  simp [List.getElem_set, h]

theorem getD_set_ne_g {α : Type} (l : List α) (i k : Nat) (v d : α) (h : i ≠ k) :
    (l.set i v).getD k d = l.getD k d := by
  rcases Nat.lt_or_ge k l.length with hk | hk
  · rw [List.getD_eq_getElem _ _ (by simp [hk]), List.getD_eq_getElem _ _ hk]
    simp [List.getElem_set, h]
  · rw [List.getD_eq_default _ _ (by simp [hk]), List.getD_eq_default _ _ hk]

theorem setNode_length (g : Grid) (r c : Nat) (v : PNode) :
    (setNode g r c v).length = g.length := by
  simp [setNode]

theorem setNode_row_length (g : Grid) (r c r' : Nat) (v : PNode) :
    ((setNode g r c v).getD r' []).length = (g.getD r' []).length := by
  unfold setNode
  by_cases h : r = r'
  · subst h
    rcases Nat.lt_or_ge r g.length with hr | hr
    · rw [getD_set_self_g _ _ _ _ hr]
      simp
    · rw [List.set_eq_of_length_le hr]
  · rw [getD_set_ne_g _ _ _ _ _ h]

theorem getNode_setNode_self (g : Grid) (r c : Nat) (v : PNode) (hr : r < g.length)
    (hc : c < (g.getD r []).length) : getNode (setNode g r c v) r c = v := by
  unfold getNode setNode
  rw [getD_set_self_g _ _ _ _ hr]
  rw [getD_set_self_g _ _ _ _ hc]

theorem getNode_setNode_ne (g : Grid) (r c r' c' : Nat) (v : PNode)
    (h : ¬ (r' = r ∧ c' = c)) : getNode (setNode g r c v) r' c' = getNode g r' c' := by
  unfold getNode setNode
  by_cases hr : r' = r
  · subst hr
    have hc : ¬ c = c' := fun he => h ⟨rfl, he.symm⟩
    rcases Nat.lt_or_ge r' g.length with h2 | h2
    · rw [getD_set_self_g _ _ _ _ h2]
      rw [getD_set_ne_g _ _ _ _ _ hc]
    · rw [List.set_eq_of_length_le h2]
  · rw [getD_set_ne_g _ _ _ _ _ (fun he => hr he.symm)]

theorem find?_unique {α : Type} (p : α → Bool) (x : α) :
    ∀ l : List α, x ∈ l → p x = true → (∀ y ∈ l, p y = true → y = x) →
    l.find? p = some x := by
  intro l
  induction l with
  | nil => intro h; simp at h
  | cons a t ih =>
    intro hmem hp huniq
    by_cases ha : p a = true
    · rw [List.find?_cons_of_pos _ ha]
      rw [huniq a (by simp) ha]
    · rw [List.find?_cons_of_neg _ ha]
      rcases List.mem_cons.mp hmem with h1 | h1
      · rw [h1] at hp
        exact absurd hp ha
      · exact ih h1 hp (fun y hy hpy => huniq y (by simp [hy]) hpy)

theorem getNode_mem_flatten (g : Grid) (r c : Nat) (hr : r < g.length)
    (hc : c < (g.getD r []).length) : getNode g r c ∈ g.flatten := by
  rw [List.mem_flatten]
  refine ⟨g.getD r [], ?_, ?_⟩
  · rw [List.getD_eq_getElem _ _ hr]
    exact List.getElem_mem hr
  · unfold getNode
    rw [List.getD_eq_getElem _ _ hc]
    exact List.getElem_mem hc

theorem mem_flatten_getNode (g : Grid) (y : PNode) (h : y ∈ g.flatten) :
    ∃ r c, r < g.length ∧ c < (g.getD r []).length ∧ y = getNode g r c := by
  rw [List.mem_flatten] at h
  obtain ⟨row, hrow, hy⟩ := h
  rw [List.mem_iff_getElem] at hrow hy
  obtain ⟨r, hr, herow⟩ := hrow
  obtain ⟨c, hc, hec⟩ := hy
  refine ⟨r, c, hr, ?_, ?_⟩
  · rw [List.getD_eq_getElem _ _ hr, herow]
    exact hc
  · unfold getNode
    have h1 : g.getD r [] = row := by
      rw [List.getD_eq_getElem _ _ hr]
      exact herow
    rw [h1, List.getD_eq_getElem _ _ hc]
    exact hec.symm

theorem mem_allCoords (g : Grid) (r c : Nat) :
    (r, c) ∈ allCoords g ↔ r < g.length ∧ c < (g.getD r []).length := by
  unfold allCoords
  simp [List.mem_flatMap]

theorem getNode_gridMap (f : PNode → PNode) (g : Grid) (r c : Nat) (hr : r < g.length)
    (hc : c < (g.getD r []).length) :
    getNode (g.map (fun row => row.map f)) r c = f (getNode g r c) := by
  unfold getNode
  have h1 : ((g.map (fun row => row.map f)).getD r []) = (g.getD r []).map f := by
    rw [List.getD_eq_getElem _ _ (by simp [hr]), List.getD_eq_getElem _ _ hr, List.getElem_map]
  rw [h1, List.getD_eq_getElem _ _ (by simp only [List.length_map]; exact hc),
    List.getD_eq_getElem _ _ hc, List.getElem_map]

theorem clearPath_getNode (g : Grid) (r c : Nat) (hr : r < g.length)
    (hc : c < (g.getD r []).length) :
    getNode (clearPath g) r c
      = { getNode g r c with isVisited := false, isInPath := false } :=
  getNode_gridMap _ g r c hr hc

theorem clearWalls_getNode (g : Grid) (r c : Nat) (hr : r < g.length)
    (hc : c < (g.getD r []).length) :
    getNode (clearWalls g) r c = { getNode g r c with isWall := false } :=
  getNode_gridMap _ g r c hr hc

theorem toggleWall_flags (g : Grid) (row col : Nat) (hrow : row < g.length)
    (hcol : col < (g.getD row []).length) :
    ∀ r c, (getNode (toggleWall g row col) r c).isStart = (getNode g r c).isStart ∧
      (getNode (toggleWall g row col) r c).isEnd = (getNode g r c).isEnd := by
  intro r c
  by_cases hcond : (getNode g row col).isStart = true ∨ (getNode g row col).isEnd = true
  · have he : toggleWall g row col = g := by
      unfold toggleWall
      rw [if_pos hcond]
    rw [he]
    exact ⟨rfl, rfl⟩
  · have he : toggleWall g row col
        = setNode g row col { getNode g row col with isWall := !(getNode g row col).isWall } := by
      unfold toggleWall
      rw [if_neg hcond]
    rw [he]
    by_cases hrc : r = row ∧ c = col
    · obtain ⟨h1, h2⟩ := hrc
      subst h1
      subst h2
      rw [getNode_setNode_self g r c _ hrow hcol]
      exact ⟨rfl, rfl⟩
    · rw [getNode_setNode_ne g row col r c _ hrc]
      exact ⟨rfl, rfl⟩

/-! ### Start/end bookkeeping: coherence and uniqueness of the flags -/

/-- The rows of the two grids have identical shape, hence the same coordinate
set. -/
theorem allCoords_congr (g1 g2 : Grid) (h1 : g1.length = g2.length)
    (h2 : ∀ i, (g1.getD i []).length = (g2.getD i []).length) :
    allCoords g1 = allCoords g2 := by
  unfold allCoords
  rw [h1]
  have key : ∀ l : List Nat,
      (l.flatMap (fun i => (List.range (g1.getD i []).length).map (fun j => (i, j))))
        = l.flatMap (fun i => (List.range (g2.getD i []).length).map (fun j => (i, j))) := by
    intro l
    induction l with
    | nil => rfl
    | cons a t ih => simp only [List.flatMap_cons, ih, h2 a]
  exact key _

/-- A cell-wise map leaves every row's `getD` as the mapped row. -/
theorem gridMap_row (f : PNode → PNode) (g : Grid) (r : Nat) :
    (g.map (fun row => row.map f)).getD r [] = (g.getD r []).map f := by
  rcases Nat.lt_or_ge r g.length with hr | hr
  · rw [List.getD_eq_getElem _ _ (by simpa using hr), List.getD_eq_getElem _ _ hr,
      List.getElem_map]
  · rw [List.getD_eq_default _ _ (by simpa using hr), List.getD_eq_default _ _ hr]
    rfl

theorem allCoords_gridMap (f : PNode → PNode) (g : Grid) :
    allCoords (g.map (fun row => row.map f)) = allCoords g := by
  apply allCoords_congr
  · simp
  · intro i
    rw [gridMap_row]
    simp

theorem allCoords_setNode (g : Grid) (r c : Nat) (v : PNode) :
    allCoords (setNode g r c v) = allCoords g :=
  allCoords_congr _ _ (setNode_length g r c v) (fun i => setNode_row_length g r c i v)

/-- Every cell records its own coordinates, as `initializeGrid` guarantees and
every operation of the visualizer preserves; the `find?`-based mutation of
`handleCellClick` writes back through these fields. -/
def Coherent (g : Grid) : Prop :=
  ∀ p ∈ allCoords g, (getNode g p.1 p.2).row = p.1 ∧ (getNode g p.1 p.2).col = p.2

/-- The cell at `q` is the one and only cell with `isStart = true`. -/
def OnlyStartAt (g : Grid) (q : Nat × Nat) : Prop :=
  ∀ p ∈ allCoords g, ((getNode g p.1 p.2).isStart = true ↔ p = q)

/-- The cell at `q` is the one and only cell with `isEnd = true`. -/
def OnlyEndAt (g : Grid) (q : Nat × Nat) : Prop :=
  ∀ p ∈ allCoords g, ((getNode g p.1 p.2).isEnd = true ↔ p = q)

/-- Exactly one cell of the grid has `isStart = true`. -/
def UniqueStart (g : Grid) : Prop := ∃ p ∈ allCoords g, OnlyStartAt g p

/-- Exactly one cell of the grid has `isEnd = true`. -/
def UniqueEnd (g : Grid) : Prop := ∃ p ∈ allCoords g, OnlyEndAt g p

instance (g : Grid) : Decidable (Coherent g) := by unfold Coherent; infer_instance

instance (g : Grid) (q : Nat × Nat) : Decidable (OnlyStartAt g q) := by
  unfold OnlyStartAt; infer_instance

instance (g : Grid) (q : Nat × Nat) : Decidable (OnlyEndAt g q) := by
  unfold OnlyEndAt; infer_instance

instance (g : Grid) : Decidable (UniqueStart g) := by unfold UniqueStart; infer_instance

instance (g : Grid) : Decidable (UniqueEnd g) := by unfold UniqueEnd; infer_instance

/-- With a unique start flag, `find?` over the flattened grid returns exactly
the cell holding it. -/
theorem find?_isStart (g : Grid) (sp : Nat × Nat) (hsp : sp ∈ allCoords g)
    (hstart : OnlyStartAt g sp) :
    g.flatten.find? (fun c => c.isStart) = some (getNode g sp.1 sp.2) := by
  obtain ⟨hr, hc⟩ := (mem_allCoords g sp.1 sp.2).mp hsp
  apply find?_unique
  · exact getNode_mem_flatten g sp.1 sp.2 hr hc
  · exact (hstart sp hsp).mpr rfl
  · intro y hy hpy
    obtain ⟨r, c, hr2, hc2, hyeq⟩ := mem_flatten_getNode g y hy
    have hmem : (r, c) ∈ allCoords g := (mem_allCoords g r c).mpr ⟨hr2, hc2⟩
    have heq : (r, c) = sp := (hstart (r, c) hmem).mp (by rw [← hyeq]; exact hpy)
    have e1 : r = sp.1 := congrArg Prod.fst heq
    have e2 : c = sp.2 := congrArg Prod.snd heq
    rw [hyeq, e1, e2]

theorem find?_isEnd (g : Grid) (ep : Nat × Nat) (hep : ep ∈ allCoords g)
    (hend : OnlyEndAt g ep) :
    g.flatten.find? (fun c => c.isEnd) = some (getNode g ep.1 ep.2) := by
  obtain ⟨hr, hc⟩ := (mem_allCoords g ep.1 ep.2).mp hep
  apply find?_unique
  · exact getNode_mem_flatten g ep.1 ep.2 hr hc
  · exact (hend ep hep).mpr rfl
  · intro y hy hpy
    obtain ⟨r, c, hr2, hc2, hyeq⟩ := mem_flatten_getNode g y hy
    have hmem : (r, c) ∈ allCoords g := (mem_allCoords g r c).mpr ⟨hr2, hc2⟩
    have heq : (r, c) = ep := (hend (r, c) hmem).mp (by rw [← hyeq]; exact hpy)
    have e1 : r = ep.1 := congrArg Prod.fst heq
    have e2 : c = ep.2 := congrArg Prod.snd heq
    rw [hyeq, e1, e2]

/-- Resolving the `find?` and the wall test turns `setStart` into two writes:
clear the old holder, then set the clicked cell (read from the original
grid). -/
theorem setStart_eq (g : Grid) (row col : Nat) (sp : Nat × Nat)
    (hcoh : Coherent g) (hsp : sp ∈ allCoords g) (hstart : OnlyStartAt g sp)
    (hnw : (getNode g row col).isWall = false) :
    setStart g row col
      = setNode (setNode g sp.1 sp.2 { getNode g sp.1 sp.2 with isStart := false })
          row col { getNode g row col with isStart := true } := by
  have hfind := find?_isStart g sp hsp hstart
  obtain ⟨hrowP, hcolP⟩ := hcoh sp hsp
  unfold setStart
  simp only [hfind, hnw, Bool.false_eq_true, if_false, hrowP, hcolP]

theorem setEnd_eq (g : Grid) (row col : Nat) (ep : Nat × Nat)
    (hcoh : Coherent g) (hep : ep ∈ allCoords g) (hend : OnlyEndAt g ep)
    (hnw : (getNode g row col).isWall = false) :
    setEnd g row col
      = setNode (setNode g ep.1 ep.2 { getNode g ep.1 ep.2 with isEnd := false })
          row col { getNode g row col with isEnd := true } := by
  have hfind := find?_isEnd g ep hep hend
  obtain ⟨hrowP, hcolP⟩ := hcoh ep hep
  unfold setEnd
  simp only [hfind, hnw, Bool.false_eq_true, if_false, hrowP, hcolP]

theorem setStart_wall (g : Grid) (row col : Nat)
    (hw : (getNode g row col).isWall = true) : setStart g row col = g := by
  unfold setStart
  simp only [hw, if_true]

theorem setEnd_wall (g : Grid) (row col : Nat)
    (hw : (getNode g row col).isWall = true) : setEnd g row col = g := by
  unfold setEnd
  simp only [hw, if_true]

theorem allCoords_toggleWall (g : Grid) (row col : Nat) :
    allCoords (toggleWall g row col) = allCoords g := by
  by_cases hcond : (getNode g row col).isStart = true ∨ (getNode g row col).isEnd = true
  · have he : toggleWall g row col = g := by
      unfold toggleWall
      rw [if_pos hcond]
    rw [he]
  · have he : toggleWall g row col
        = setNode g row col { getNode g row col with isWall := !(getNode g row col).isWall } := by
      unfold toggleWall
      rw [if_neg hcond]
    rw [he, allCoords_setNode]

/-- Cell-by-cell description of `setStart` on a coherent grid with a unique
start at `sp` and a non-wall target: the clicked cell gains the flag, the old
holder loses it, everything else is untouched. -/
theorem setStart_getNode (g : Grid) (row col : Nat) (sp : Nat × Nat)
    (hcoh : Coherent g) (hsp : sp ∈ allCoords g) (hstart : OnlyStartAt g sp)
    (ht : (row, col) ∈ allCoords g) (hnw : (getNode g row col).isWall = false) :
    ∀ p ∈ allCoords g,
      getNode (setStart g row col) p.1 p.2
        = if p = (row, col) then { getNode g row col with isStart := true }
          else if p = sp then { getNode g sp.1 sp.2 with isStart := false }
          else getNode g p.1 p.2 := by
  intro p hp
  obtain ⟨hrT, hcT⟩ := (mem_allCoords g row col).mp ht
  obtain ⟨hrS, hcS⟩ := (mem_allCoords g sp.1 sp.2).mp hsp
  rw [setStart_eq g row col sp hcoh hsp hstart hnw]
  by_cases h1 : p = (row, col)
  · rw [if_pos h1, h1]
    have hr1 : row < (setNode g sp.1 sp.2 { getNode g sp.1 sp.2 with isStart := false }).length := by
      rw [setNode_length]
      exact hrT
    have hc1 : col < ((setNode g sp.1 sp.2
        { getNode g sp.1 sp.2 with isStart := false }).getD row []).length := by
      rw [setNode_row_length]
      exact hcT
    exact getNode_setNode_self _ row col _ hr1 hc1
  · rw [if_neg h1]
    have hne1 : ¬ (p.1 = row ∧ p.2 = col) := by
      intro hand
      apply h1
      cases p
      simp_all
    rw [getNode_setNode_ne _ row col p.1 p.2 _ hne1]
    by_cases h2 : p = sp
    · rw [if_pos h2, h2]
      exact getNode_setNode_self _ sp.1 sp.2 _ hrS hcS
    · rw [if_neg h2]
      have hne2 : ¬ (p.1 = sp.1 ∧ p.2 = sp.2) := by
        intro hand
        apply h2
        cases p
        cases sp
        simp_all
      exact getNode_setNode_ne _ sp.1 sp.2 p.1 p.2 _ hne2

theorem setEnd_getNode (g : Grid) (row col : Nat) (ep : Nat × Nat)
    (hcoh : Coherent g) (hep : ep ∈ allCoords g) (hend : OnlyEndAt g ep)
    (ht : (row, col) ∈ allCoords g) (hnw : (getNode g row col).isWall = false) :
    ∀ p ∈ allCoords g,
      getNode (setEnd g row col) p.1 p.2
        = if p = (row, col) then { getNode g row col with isEnd := true }
          else if p = ep then { getNode g ep.1 ep.2 with isEnd := false }
          else getNode g p.1 p.2 := by
  intro p hp
  obtain ⟨hrT, hcT⟩ := (mem_allCoords g row col).mp ht
  obtain ⟨hrS, hcS⟩ := (mem_allCoords g ep.1 ep.2).mp hep
  rw [setEnd_eq g row col ep hcoh hep hend hnw]
  by_cases h1 : p = (row, col)
  · rw [if_pos h1, h1]
    have hr1 : row < (setNode g ep.1 ep.2 { getNode g ep.1 ep.2 with isEnd := false }).length := by
      rw [setNode_length]
      exact hrT
    have hc1 : col < ((setNode g ep.1 ep.2
        { getNode g ep.1 ep.2 with isEnd := false }).getD row []).length := by
      rw [setNode_row_length]
      exact hcT
    exact getNode_setNode_self _ row col _ hr1 hc1
  · rw [if_neg h1]
    have hne1 : ¬ (p.1 = row ∧ p.2 = col) := by
      intro hand
      apply h1
      cases p
      simp_all
    rw [getNode_setNode_ne _ row col p.1 p.2 _ hne1]
    by_cases h2 : p = ep
    · rw [if_pos h2, h2]
      exact getNode_setNode_self _ ep.1 ep.2 _ hrS hcS
    · rw [if_neg h2]
      have hne2 : ¬ (p.1 = ep.1 ∧ p.2 = ep.2) := by
        intro hand
        apply h2
        cases p
        cases ep
        simp_all
      exact getNode_setNode_ne _ ep.1 ep.2 p.1 p.2 _ hne2

theorem allCoords_setStart (g : Grid) (row col : Nat) (sp : Nat × Nat)
    (hcoh : Coherent g) (hsp : sp ∈ allCoords g) (hstart : OnlyStartAt g sp)
    (hnw : (getNode g row col).isWall = false) :
    allCoords (setStart g row col) = allCoords g := by
  rw [setStart_eq g row col sp hcoh hsp hstart hnw, allCoords_setNode, allCoords_setNode]

theorem allCoords_setEnd (g : Grid) (row col : Nat) (ep : Nat × Nat)
    (hcoh : Coherent g) (hep : ep ∈ allCoords g) (hend : OnlyEndAt g ep)
    (hnw : (getNode g row col).isWall = false) :
    allCoords (setEnd g row col) = allCoords g := by
  rw [setEnd_eq g row col ep hcoh hep hend hnw, allCoords_setNode, allCoords_setNode]

theorem setStart_onlyStart (g : Grid) (row col : Nat) (sp : Nat × Nat)
    (hcoh : Coherent g) (hsp : sp ∈ allCoords g) (hstart : OnlyStartAt g sp)
    (ht : (row, col) ∈ allCoords g) (hnw : (getNode g row col).isWall = false) :
    OnlyStartAt (setStart g row col) (row, col) := by
  intro p hp
  rw [allCoords_setStart g row col sp hcoh hsp hstart hnw] at hp
  rw [setStart_getNode g row col sp hcoh hsp hstart ht hnw p hp]
  by_cases h1 : p = (row, col)
  · rw [if_pos h1]
    simp [h1]
  · rw [if_neg h1]
    by_cases h2 : p = sp
    · rw [if_pos h2]
      simp [h1]
    · rw [if_neg h2]
      show (getNode g p.1 p.2).isStart = true ↔ p = (row, col)
      rw [hstart p hp]
      exact iff_of_false h2 h1

theorem setStart_onlyEnd (g : Grid) (row col : Nat) (sp ep : Nat × Nat)
    (hcoh : Coherent g) (hsp : sp ∈ allCoords g) (hstart : OnlyStartAt g sp)
    (hep : ep ∈ allCoords g) (hend : OnlyEndAt g ep)
    (ht : (row, col) ∈ allCoords g) (hnw : (getNode g row col).isWall = false) :
    OnlyEndAt (setStart g row col) ep := by
  intro p hp
  rw [allCoords_setStart g row col sp hcoh hsp hstart hnw] at hp
  rw [setStart_getNode g row col sp hcoh hsp hstart ht hnw p hp]
  by_cases h1 : p = (row, col)
  · rw [if_pos h1, h1]
    show (getNode g row col).isEnd = true ↔ (row, col) = ep
    exact hend (row, col) ht
  · rw [if_neg h1]
    by_cases h2 : p = sp
    · rw [if_pos h2, h2]
      show (getNode g sp.1 sp.2).isEnd = true ↔ sp = ep
      exact hend sp hsp
    · rw [if_neg h2]
      exact hend p hp

theorem setEnd_onlyEnd (g : Grid) (row col : Nat) (ep : Nat × Nat)
    (hcoh : Coherent g) (hep : ep ∈ allCoords g) (hend : OnlyEndAt g ep)
    (ht : (row, col) ∈ allCoords g) (hnw : (getNode g row col).isWall = false) :
    OnlyEndAt (setEnd g row col) (row, col) := by
  intro p hp
  rw [allCoords_setEnd g row col ep hcoh hep hend hnw] at hp
  rw [setEnd_getNode g row col ep hcoh hep hend ht hnw p hp]
  by_cases h1 : p = (row, col)
  · rw [if_pos h1]
    simp [h1]
  · rw [if_neg h1]
    by_cases h2 : p = ep
    · rw [if_pos h2]
      simp [h1]
    · rw [if_neg h2]
      show (getNode g p.1 p.2).isEnd = true ↔ p = (row, col)
      rw [hend p hp]
      exact iff_of_false h2 h1

theorem setEnd_onlyStart (g : Grid) (row col : Nat) (ep sp : Nat × Nat)
    (hcoh : Coherent g) (hep : ep ∈ allCoords g) (hend : OnlyEndAt g ep)
    (hsp : sp ∈ allCoords g) (hstart : OnlyStartAt g sp)
    (ht : (row, col) ∈ allCoords g) (hnw : (getNode g row col).isWall = false) :
    OnlyStartAt (setEnd g row col) sp := by
  intro p hp
  rw [allCoords_setEnd g row col ep hcoh hep hend hnw] at hp
  rw [setEnd_getNode g row col ep hcoh hep hend ht hnw p hp]
  by_cases h1 : p = (row, col)
  · rw [if_pos h1, h1]
    show (getNode g row col).isStart = true ↔ (row, col) = sp
    exact hstart (row, col) ht
  · rw [if_neg h1]
    by_cases h2 : p = ep
    · rw [if_pos h2, h2]
      show (getNode g ep.1 ep.2).isStart = true ↔ ep = sp
      exact hstart ep hep
    · rw [if_neg h2]
      exact hstart p hp

theorem clearWalls_onlyStart (g : Grid) (sp : Nat × Nat)
    (hstart : OnlyStartAt g sp) : OnlyStartAt (clearWalls g) sp := by
  intro p hp
  rw [show allCoords (clearWalls g) = allCoords g from allCoords_gridMap _ g] at hp
  obtain ⟨hr, hc⟩ := (mem_allCoords g p.1 p.2).mp hp
  rw [clearWalls_getNode g p.1 p.2 hr hc]
  show (getNode g p.1 p.2).isStart = true ↔ p = sp
  exact hstart p hp

theorem clearWalls_onlyEnd (g : Grid) (ep : Nat × Nat)
    (hend : OnlyEndAt g ep) : OnlyEndAt (clearWalls g) ep := by
  intro p hp
  rw [show allCoords (clearWalls g) = allCoords g from allCoords_gridMap _ g] at hp
  obtain ⟨hr, hc⟩ := (mem_allCoords g p.1 p.2).mp hp
  rw [clearWalls_getNode g p.1 p.2 hr hc]
  show (getNode g p.1 p.2).isEnd = true ↔ p = ep
  exact hend p hp

theorem toggleWall_onlyStart (g : Grid) (row col : Nat) (sp : Nat × Nat)
    (hrow : row < g.length) (hcol : col < (g.getD row []).length)
    (hstart : OnlyStartAt g sp) : OnlyStartAt (toggleWall g row col) sp := by
  intro p hp
  rw [allCoords_toggleWall] at hp
  rw [(toggleWall_flags g row col hrow hcol p.1 p.2).1]
  exact hstart p hp

theorem toggleWall_onlyEnd (g : Grid) (row col : Nat) (ep : Nat × Nat)
    (hrow : row < g.length) (hcol : col < (g.getD row []).length)
    (hend : OnlyEndAt g ep) : OnlyEndAt (toggleWall g row col) ep := by
  intro p hp
  rw [allCoords_toggleWall] at hp
  rw [(toggleWall_flags g row col hrow hcol p.1 p.2).2]
  exact hend p hp

/-- C9: on a coherent grid with exactly one start cell and exactly one end
cell, each grid mutation of `handleCellClick` and the toolbar (toggleWall,
clearWalls, setStart, setEnd) preserves the uniqueness of both flags; setStart
and setEnd leave the grid entirely unchanged when the clicked cell is a wall,
and otherwise the clicked cell becomes the one and only holder of the moved
flag (the previous holder is cleared). -/
theorem C9_grid_mutations_preserve_unique_flags (g : Grid) (row col : Nat)
    (hcoh : Coherent g) (hus : UniqueStart g) (hue : UniqueEnd g)
    (ht : (row, col) ∈ allCoords g) :
    (UniqueStart (toggleWall g row col) ∧ UniqueEnd (toggleWall g row col))
    ∧ (UniqueStart (clearWalls g) ∧ UniqueEnd (clearWalls g))
    ∧ (UniqueStart (setStart g row col) ∧ UniqueEnd (setStart g row col))
    ∧ (UniqueStart (setEnd g row col) ∧ UniqueEnd (setEnd g row col))
    ∧ ((getNode g row col).isWall = true → setStart g row col = g ∧ setEnd g row col = g)
    ∧ ((getNode g row col).isWall = false →
        OnlyStartAt (setStart g row col) (row, col)
        ∧ OnlyEndAt (setEnd g row col) (row, col)) := by
  obtain ⟨sp, hsp, hstart⟩ := hus
  obtain ⟨ep, hep, hend⟩ := hue
  obtain ⟨hrow, hcol⟩ := (mem_allCoords g row col).mp ht
  refine ⟨⟨⟨sp, ?_, ?_⟩, ⟨ep, ?_, ?_⟩⟩, ⟨⟨sp, ?_, ?_⟩, ⟨ep, ?_, ?_⟩⟩, ⟨?_, ?_⟩, ⟨?_, ?_⟩, ?_, ?_⟩
  · rw [allCoords_toggleWall]
    exact hsp
  · exact toggleWall_onlyStart g row col sp hrow hcol hstart
  · rw [allCoords_toggleWall]
    exact hep
  · exact toggleWall_onlyEnd g row col ep hrow hcol hend
  · unfold clearWalls
    rw [allCoords_gridMap]
    exact hsp
  · exact clearWalls_onlyStart g sp hstart
  · unfold clearWalls
    rw [allCoords_gridMap]
    exact hep
  · exact clearWalls_onlyEnd g ep hend
  · cases hw : (getNode g row col).isWall with
    | true =>
      rw [setStart_wall g row col hw]
      exact ⟨sp, hsp, hstart⟩
    | false =>
      refine ⟨(row, col), ?_, setStart_onlyStart g row col sp hcoh hsp hstart ht hw⟩
      rw [allCoords_setStart g row col sp hcoh hsp hstart hw]
      exact ht
  · cases hw : (getNode g row col).isWall with
    | true =>
      rw [setStart_wall g row col hw]
      exact ⟨ep, hep, hend⟩
    | false =>
      refine ⟨ep, ?_, setStart_onlyEnd g row col sp ep hcoh hsp hstart hep hend ht hw⟩
      rw [allCoords_setStart g row col sp hcoh hsp hstart hw]
      exact hep
  · cases hw : (getNode g row col).isWall with
    | true =>
      rw [setEnd_wall g row col hw]
      exact ⟨sp, hsp, hstart⟩
    | false =>
      refine ⟨sp, ?_, setEnd_onlyStart g row col ep sp hcoh hep hend hsp hstart ht hw⟩
      rw [allCoords_setEnd g row col ep hcoh hep hend hw]
      exact hsp
  · cases hw : (getNode g row col).isWall with
    | true =>
      rw [setEnd_wall g row col hw]
      exact ⟨ep, hep, hend⟩
    | false =>
      refine ⟨(row, col), ?_, setEnd_onlyEnd g row col ep hcoh hep hend ht hw⟩
      rw [allCoords_setEnd g row col ep hcoh hep hend hw]
      exact ht
  · intro hw
    exact ⟨setStart_wall g row col hw, setEnd_wall g row col hw⟩
  · intro hnw
    exact ⟨setStart_onlyStart g row col sp hcoh hsp hstart ht hnw,
      setEnd_onlyEnd g row col ep hcoh hep hend ht hnw⟩

/-- Witness for C9 at the 2 by 2 fresh grid with a wall at (1,0), start (0,0),
end (1,1), clicking (0,1). -/
theorem C9_grid_mutations_preserve_unique_flags_witness :
    (Coherent (mkGrid 2 2 (0, 0) (1, 1) [(1, 0)])
      ∧ UniqueStart (mkGrid 2 2 (0, 0) (1, 1) [(1, 0)])
      ∧ UniqueEnd (mkGrid 2 2 (0, 0) (1, 1) [(1, 0)])
      ∧ (0, 1) ∈ allCoords (mkGrid 2 2 (0, 0) (1, 1) [(1, 0)]))
    ∧ ((UniqueStart (toggleWall (mkGrid 2 2 (0, 0) (1, 1) [(1, 0)]) 0 1)
        ∧ UniqueEnd (toggleWall (mkGrid 2 2 (0, 0) (1, 1) [(1, 0)]) 0 1))
      ∧ (UniqueStart (clearWalls (mkGrid 2 2 (0, 0) (1, 1) [(1, 0)]))
        ∧ UniqueEnd (clearWalls (mkGrid 2 2 (0, 0) (1, 1) [(1, 0)])))
      ∧ (UniqueStart (setStart (mkGrid 2 2 (0, 0) (1, 1) [(1, 0)]) 0 1)
        ∧ UniqueEnd (setStart (mkGrid 2 2 (0, 0) (1, 1) [(1, 0)]) 0 1))
      ∧ (UniqueStart (setEnd (mkGrid 2 2 (0, 0) (1, 1) [(1, 0)]) 0 1)
        ∧ UniqueEnd (setEnd (mkGrid 2 2 (0, 0) (1, 1) [(1, 0)]) 0 1))
      ∧ ((getNode (mkGrid 2 2 (0, 0) (1, 1) [(1, 0)]) 0 1).isWall = true →
          setStart (mkGrid 2 2 (0, 0) (1, 1) [(1, 0)]) 0 1 = mkGrid 2 2 (0, 0) (1, 1) [(1, 0)]
          ∧ setEnd (mkGrid 2 2 (0, 0) (1, 1) [(1, 0)]) 0 1 = mkGrid 2 2 (0, 0) (1, 1) [(1, 0)])
      ∧ ((getNode (mkGrid 2 2 (0, 0) (1, 1) [(1, 0)]) 0 1).isWall = false →
          OnlyStartAt (setStart (mkGrid 2 2 (0, 0) (1, 1) [(1, 0)]) 0 1) (0, 1)
          ∧ OnlyEndAt (setEnd (mkGrid 2 2 (0, 0) (1, 1) [(1, 0)]) 0 1) (0, 1))) :=
  ⟨by decide,
    C9_grid_mutations_preserve_unique_flags (mkGrid 2 2 (0, 0) (1, 1) [(1, 0)]) 0 1
      (by decide) (by decide) (by decide) (by decide)⟩

/-- A one-cell grid whose cell carries search residue: a finite distance, a
back-pointer, and both transient marks. -/
def c5grid : Grid :=
  setNode (mkGrid 1 1 (0, 0) (0, 0) []) 0 0
    { row := 0, col := 0, isStart := true, isEnd := true, distance := some 5,
      isVisited := true, isWall := false, isBlock := false,
      previousNode := some (0, 0), fScore := none, isInPath := true }

/-- C5 counterexample: after `clearPath` the cell's `distance` is still 5 and
its `previous` back-reference still set, so the operation does not reset
`distance`/`previous` to their initial values (`Infinity`/`null`) as claimed;
only `isVisited` and `isInPath` are reset. -/
theorem C5_clearPath_counterexample :
    (getNode (clearPath c5grid) 0 0).distance = some 5
    ∧ (getNode (clearPath c5grid) 0 0).previousNode = some (0, 0)
    ∧ ¬ ((getNode (clearPath c5grid) 0 0).distance = none
        ∧ (getNode (clearPath c5grid) 0 0).previousNode = none) := by decide

/-- C5 amended: `clearPath` resets every cell's `isVisited` and `isInPath`
flags to false and leaves every other field — including `distance` and the
`previous` back-reference — exactly as it was (in particular `isWall`,
`isStart` and `isEnd` are untouched). -/
theorem C5_clearPath_resets_only_visited_and_path (g : Grid) (r c : Nat)
    (hr : r < g.length) (hc : c < (g.getD r []).length) :
    (getNode (clearPath g) r c).isVisited = false
    ∧ (getNode (clearPath g) r c).isInPath = false
    ∧ (getNode (clearPath g) r c).distance = (getNode g r c).distance
    ∧ (getNode (clearPath g) r c).previousNode = (getNode g r c).previousNode
    ∧ (getNode (clearPath g) r c).isWall = (getNode g r c).isWall
    ∧ (getNode (clearPath g) r c).isStart = (getNode g r c).isStart
    ∧ (getNode (clearPath g) r c).isEnd = (getNode g r c).isEnd := by
  rw [clearPath_getNode g r c hr hc]
  exact ⟨rfl, rfl, rfl, rfl, rfl, rfl, rfl⟩

/-- Witness for the amended C5 at the concrete residue-carrying grid. -/
theorem C5_clearPath_resets_only_visited_and_path_witness :
    (getNode (clearPath c5grid) 0 0).isVisited = false
    ∧ (getNode (clearPath c5grid) 0 0).isInPath = false
    ∧ (getNode (clearPath c5grid) 0 0).distance = (getNode c5grid 0 0).distance
    ∧ (getNode (clearPath c5grid) 0 0).previousNode = (getNode c5grid 0 0).previousNode
    ∧ (getNode (clearPath c5grid) 0 0).isWall = (getNode c5grid 0 0).isWall
    ∧ (getNode (clearPath c5grid) 0 0).isStart = (getNode c5grid 0 0).isStart
    ∧ (getNode (clearPath c5grid) 0 0).isEnd = (getNode c5grid 0 0).isEnd :=
  C5_clearPath_resets_only_visited_and_path c5grid 0 0 (by decide) (by decide)

/-- C6 counterexample: the token `12abc` is not an integer, yet the parse
succeeds with its digit prefix `12` — no validation error of any kind is
raised — contradicting "returns a validation error on any non-numeric
token". -/
theorem C6_handleInputVector_counterexample :
    handleInputVector "12abc".toList = Except.ok [12]
    ∧ ¬ (∃ e : InputError, handleInputVector "12abc".toList = Except.error e)
    ∧ ¬ (∀ c ∈ "12abc".toList, isDigitChar c = true) := by
  refine ⟨by rfl, ?_, by decide⟩
  rintro ⟨e, h⟩
  rw [show handleInputVector "12abc".toList = Except.ok [12] from rfl] at h
  exact absurd h (by simp)

/-- C6 amended: a comma-separated string whose (trimmed, non-empty) tokens are
all digit runs with values in [1, 100], at most 100 of them, parses to those
values in input order.  `parseInt` reads the longest leading digit run, so a
token with trailing non-digits (such as `12abc`) parses as its numeric prefix
instead of erroring; a token errors with `invalidNumber` exactly when it has
no leading digit, and with `outOfRange` when its parsed value lies outside
[1, 100]; `45, 23, 67` parses to [45, 23, 67] and `101,2` errors. -/
theorem C6_handleInputVector_amended (s : List Char)
    (hall : ∀ t ∈ tokensOf s, t ≠ [] ∧ (∀ c ∈ t, isDigitChar c = true) ∧
      1 ≤ digitsVal t ∧ digitsVal t ≤ 100)
    (hne : tokensOf s ≠ []) (hlen : (tokensOf s).length ≤ 100) :
    handleInputVector s = Except.ok ((tokensOf s).map (fun t => (digitsVal t : Int)))
    ∧ (∀ t, jsParseInt t = none → parseToken t = Except.error InputError.invalidNumber)
    ∧ (∀ t v, jsParseInt t = some v → (v < 1 ∨ 100 < v) →
        parseToken t = Except.error InputError.outOfRange)
    ∧ handleInputVector "45, 23, 67".toList = Except.ok [45, 23, 67]
    ∧ handleInputVector "101,2".toList = Except.error InputError.outOfRange
    ∧ handleInputVector "12abc".toList = Except.ok [12] := by
  refine ⟨handleInputVector_ok s hall hne hlen, ?_, ?_, by rfl, by rfl, by rfl⟩
  · intro t ht
    unfold parseToken
    rw [ht]
  · intro t v ht hv
    unfold parseToken
    rw [ht]
    simp only [if_pos hv]

/-- Witness for the amended C6 at the input `45, 23, 67`. -/
theorem C6_handleInputVector_amended_witness :
    handleInputVector "45, 23, 67".toList
        = Except.ok ((tokensOf "45, 23, 67".toList).map (fun t => (digitsVal t : Int)))
    ∧ (∀ t, jsParseInt t = none → parseToken t = Except.error InputError.invalidNumber)
    ∧ (∀ t v, jsParseInt t = some v → (v < 1 ∨ 100 < v) →
        parseToken t = Except.error InputError.outOfRange)
    ∧ handleInputVector "45, 23, 67".toList = Except.ok [45, 23, 67]
    ∧ handleInputVector "101,2".toList = Except.error InputError.outOfRange
    ∧ handleInputVector "12abc".toList = Except.ok [12] :=
  C6_handleInputVector_amended "45, 23, 67".toList (by decide) (by decide) (by decide)

theorem splitCommas_ne_nil : ∀ s : List Char, splitCommas s ≠ [] := by
  intro s
  cases s with
  | nil => simp [splitCommas]
  | cons c rest =>
    rw [splitCommas]
    by_cases hc : c = ','
    · simp [hc]
    · rw [if_neg hc]
      cases h : splitCommas rest with
      | nil => simp
      | cons t ts => simp

theorem splitCommas_append_comma : ∀ s : List Char,
    splitCommas (s ++ [',']) = splitCommas s ++ [[]] := by
  intro s
  induction s with
  | nil => rfl
  | cons c rest ih =>
    show splitCommas (c :: (rest ++ [','])) = splitCommas (c :: rest) ++ [[]]
    rw [splitCommas, splitCommas]
    by_cases hc : c = ','
    · rw [if_pos hc, if_pos hc, ih]
      rfl
    · rw [if_neg hc, if_neg hc, ih]
      cases h : splitCommas rest with
      | nil => exact absurd h (splitCommas_ne_nil rest)
      | cons t ts => rfl

theorem tokensOf_leading_comma (s : List Char) : tokensOf (',' :: s) = tokensOf s := by
  unfold tokensOf
  rw [show splitCommas (',' :: s) = [] :: splitCommas s from rfl]
  rfl

theorem tokensOf_trailing_comma (s : List Char) : tokensOf (s ++ [',']) = tokensOf s := by
  unfold tokensOf
  rw [splitCommas_append_comma, List.map_append, List.filter_append]
  simp [trimChars]

/-- C10: empty tokens produced by consecutive, leading or trailing commas are
silently filtered out rather than rejected — `1,,2,` parses to [1, 2] — and
the emptiness error (`noNumbers`, "Please enter at least one number") is
raised exactly when no non-empty token remains after the filter. -/
theorem C10_empty_tokens_discarded :
    handleInputVector "1,,2,".toList = Except.ok [1, 2]
    ∧ "1,,2,".toList ≠ []
    ∧ (∀ s : List Char, tokensOf (',' :: s) = tokensOf s)
    ∧ (∀ s : List Char, tokensOf (s ++ [',']) = tokensOf s)
    ∧ (∀ s : List Char,
        handleInputVector s = Except.error InputError.noNumbers ↔ tokensOf s = []) :=
  ⟨by rfl, by decide, tokensOf_leading_comma, tokensOf_trailing_comma,
    handleInputVector_noNumbers_iff⟩

/-- C1: each of the four sorting algorithms, run on any finite integer
sequence, terminates in a permutation of the input (same length, same
multiset) that is sorted in non-decreasing order. -/
theorem C1_sorting_algorithms_sort (l : List Int) :
    ((bubbleSort l).Perm l ∧ (bubbleSort l).Sorted (· ≤ ·)
      ∧ (bubbleSort l).length = l.length)
    ∧ ((insertionSort l).Perm l ∧ (insertionSort l).Sorted (· ≤ ·)
      ∧ (insertionSort l).length = l.length)
    ∧ ((mergeSort l).Perm l ∧ (mergeSort l).Sorted (· ≤ ·)
      ∧ (mergeSort l).length = l.length)
    ∧ ((quickSort l).Perm l ∧ (quickSort l).Sorted (· ≤ ·)
      ∧ (quickSort l).length = l.length) :=
  ⟨⟨(bubbleSort_perm_sorted l).1, (bubbleSort_perm_sorted l).2,
      (bubbleSort_perm_sorted l).1.length_eq⟩,
    ⟨(insertionSort_perm_sorted l).1, (insertionSort_perm_sorted l).2,
      (insertionSort_perm_sorted l).1.length_eq⟩,
    ⟨(mergeSort_perm_sorted l).1, (mergeSort_perm_sorted l).2,
      (mergeSort_perm_sorted l).1.length_eq⟩,
    ⟨(quickSort_perm_sorted l).1, (quickSort_perm_sorted l).2,
      (quickSort_perm_sorted l).1.length_eq⟩⟩

/-- C7: on an already non-decreasing sequence every sorting algorithm returns
the sequence unchanged; in particular re-running an algorithm on its own
output (which is sorted by C1's lemmas) is the identity.  For bubble sort the
absence of mutations is explicit: the first full pass scans without a single
swap (its swapped flag stays false and the array is returned as it was), so
the early exit fires immediately. -/
theorem C7_sorting_idempotent (l : List Int) (hs : l.Sorted (· ≤ ·)) :
    bubbleSort l = l ∧ insertionSort l = l ∧ mergeSort l = l ∧ quickSort l = l
    ∧ (l ≠ [] → bubblePass l 0 (l.length - 1) false = (l, false)) := by
  refine ⟨List.eq_of_perm_of_sorted (bubbleSort_perm_sorted l).1
      (bubbleSort_perm_sorted l).2 hs,
    List.eq_of_perm_of_sorted (insertionSort_perm_sorted l).1
      (insertionSort_perm_sorted l).2 hs,
    List.eq_of_perm_of_sorted (mergeSort_perm_sorted l).1
      (mergeSort_perm_sorted l).2 hs,
    List.eq_of_perm_of_sorted (quickSort_perm_sorted l).1
      (quickSort_perm_sorted l).2 hs, ?_⟩
  intro hne
  have hlen : 0 < l.length := List.length_pos.mpr hne
  exact bubblePass_of_sorted l 0 (l.length - 1) (by omega) (getD_mono_of_sorted l hs)

/-- Witness for C7 at the sorted list [1, 2, 3]. -/
theorem C7_sorting_idempotent_witness :
    bubbleSort [1, 2, 3] = [1, 2, 3] ∧ insertionSort [1, 2, 3] = [1, 2, 3]
    ∧ mergeSort [1, 2, 3] = [1, 2, 3] ∧ quickSort [1, 2, 3] = [1, 2, 3]
    ∧ (([1, 2, 3] : List Int) ≠ [] →
        bubblePass [1, 2, 3] 0 (([1, 2, 3] : List Int).length - 1) false
          = ([1, 2, 3], false)) :=
  C7_sorting_idempotent [1, 2, 3] (by decide)

/-- Two diagonal neighbour cells used to separate the two heuristics. -/
def c3a : PNode :=
  { row := 0, col := 0, isStart := true, isEnd := false, distance := none,
    isVisited := false, isWall := false, isBlock := false, previousNode := none,
    fScore := none, isInPath := false }

def c3b : PNode := { c3a with row := 1, col := 1, isStart := false, isEnd := true }

/-- C3 counterexample: for the diagonal pair (0,0) and (1,1) the Manhattan
distance is 2, but the heuristic of PathfindingVisualizer.tsx (used by its
aStarAlgorithm) is the Euclidean sqrt(2) and so does not return the Manhattan
distance. -/
theorem C3_heuristic_counterexample :
    heuristic c3a c3b = 2 ∧ heuristicTSX c3a c3b ≠ ((heuristic c3a c3b : Nat) : ℝ) := by
  have h1 : heuristic c3a c3b = 2 := by decide
  refine ⟨h1, ?_⟩
  rw [h1]
  have harg : (((c3a.row : Int) - (c3b.row : Int)).natAbs
      * ((c3a.row : Int) - (c3b.row : Int)).natAbs
      + ((c3a.col : Int) - (c3b.col : Int)).natAbs
      * ((c3a.col : Int) - (c3b.col : Int)).natAbs) = 2 := by decide
  have he : heuristicTSX c3a c3b = Real.sqrt 2 := by
    unfold heuristicTSX
    rw [harg]
    norm_num
  rw [he]
  intro hcontra
  have h2 : Real.sqrt 2 < 2 := by
    have h4 : Real.sqrt (2 : ℝ) < Real.sqrt (4 : ℝ) :=
      Real.sqrt_lt_sqrt (by norm_num) (by norm_num)
    have h5 : Real.sqrt (4 : ℝ) = 2 := by
      rw [show (4 : ℝ) = 2 ^ 2 by norm_num, Real.sqrt_sq (by norm_num)]
    rw [h5] at h4
    exact h4
  rw [hcontra] at h2
  norm_num at h2

/-- C3 amended: the heuristic of pathfinding.ts is exactly the Manhattan
distance, and the A* of pathfinding.ts orders its frontier by fScore — the
head of the sorted frontier always has a minimal fScore — where each
relaxation fires only on strict improvement and writes
fScore = tentative distance + Manhattan heuristic.  The heuristic of
PathfindingVisualizer.tsx, by contrast, is the Euclidean distance, which
differs from Manhattan on diagonal pairs (see the counterexample). -/
theorem C3_aStar_manhattan_amended :
    (∀ a b : PNode, heuristic a b = manhattan (a.row, a.col) (b.row, b.col))
    ∧ (∀ (g : Grid) (l : List (Nat × Nat)) (u : Nat × Nat) (rest : List (Nat × Nat)),
        sortNodesByFScore g l = u :: rest →
        ∀ v ∈ l, dLe (getNode g u.1 u.2).fScore (getNode g v.1 v.2).fScore = true)
    ∧ (∀ (g : Grid) (src : Nat × Nat) (nodeDist : Distance) (endNode : PNode)
        (p : Nat × Nat),
        (dLt (dSucc nodeDist) (getNode g p.1 p.2).distance = true →
          aStarRelax g src nodeDist endNode p
            = setNode g p.1 p.2
                { getNode g p.1 p.2 with
                    distance := dSucc nodeDist,
                    fScore := dAdd (dSucc nodeDist) (heuristic (getNode g p.1 p.2) endNode),
                    previousNode := some src })
        ∧ (dLt (dSucc nodeDist) (getNode g p.1 p.2).distance = false →
          aStarRelax g src nodeDist endNode p = g)) := by
  refine ⟨fun a b => rfl, ?_, ?_⟩
  · intro g l u rest h v hv
    unfold sortNodesByFScore at h
    exact sortByKey_head_min _ l u rest h v hv
  · intro g src nodeDist endNode p
    constructor
    · intro h
      unfold aStarRelax
      rw [if_pos h]
    · intro h
      unfold aStarRelax
      rw [if_neg (by simp [h])]

/-! ### Fresh-grid facts -/

theorem mkGrid_length (rows cols : Nat) (s e : Nat × Nat) (walls : List (Nat × Nat)) :
    (mkGrid rows cols s e walls).length = rows := by
  simp [mkGrid]

theorem mkGrid_row (rows cols : Nat) (s e : Nat × Nat) (walls : List (Nat × Nat))
    (r : Nat) (hr : r < rows) :
    (mkGrid rows cols s e walls).getD r []
      = (List.range cols).map (fun j => mkCell r j s e walls) := by
  unfold mkGrid
  rw [List.getD_eq_getElem _ _ (by simpa using hr), List.getElem_map, List.getElem_range]

theorem mkGrid_row_length (rows cols : Nat) (s e : Nat × Nat) (walls : List (Nat × Nat))
    (r : Nat) (hr : r < rows) :
    ((mkGrid rows cols s e walls).getD r []).length = cols := by
  rw [mkGrid_row rows cols s e walls r hr]
  simp

theorem mkGrid_getNode (rows cols : Nat) (s e : Nat × Nat) (walls : List (Nat × Nat))
    (r c : Nat) (hr : r < rows) (hc : c < cols) :
    getNode (mkGrid rows cols s e walls) r c = mkCell r c s e walls := by
  unfold getNode
  rw [mkGrid_row rows cols s e walls r hr,
    List.getD_eq_getElem _ _ (by simpa using hc), List.getElem_map, List.getElem_range]

theorem mem_allCoords_mkGrid (rows cols : Nat) (s e : Nat × Nat)
    (walls : List (Nat × Nat)) (r c : Nat) :
    (r, c) ∈ allCoords (mkGrid rows cols s e walls) ↔ r < rows ∧ c < cols := by
  rw [mem_allCoords, mkGrid_length]
  constructor
  · rintro ⟨h1, h2⟩
    rw [mkGrid_row_length rows cols s e walls r h1] at h2
    exact ⟨h1, h2⟩
  · rintro ⟨h1, h2⟩
    rw [mkGrid_row_length rows cols s e walls r h1]
    exact ⟨h1, h2⟩

/-! ### Unfolding the search loops -/

theorem dijkstraLoop_zero (g : Grid) (queue : List (Nat × Nat)) (endRC : Nat × Nat)
    (trace : List (Nat × Nat)) (events : List RelaxEvent) :
    dijkstraLoop 0 g queue endRC trace events = (g, trace, events) := rfl

theorem dijkstraLoop_succ (fuel : Nat) (g : Grid) (queue : List (Nat × Nat))
    (endRC : Nat × Nat) (trace : List (Nat × Nat)) (events : List RelaxEvent) :
    dijkstraLoop (fuel + 1) g queue endRC trace events
      = match sortNodesByDistance g queue with
        | [] => (g, trace, events)
        | u :: rest =>
          if (getNode g u.1 u.2).isWall ∨ (getNode g u.1 u.2).isBlock then
            dijkstraLoop fuel g rest endRC trace events
          else if (getNode g u.1 u.2).distance = none then (g, trace, events)
          else if u = endRC then
            (setNode g u.1 u.2 { getNode g u.1 u.2 with isVisited := true },
              trace ++ [u], events)
          else
            dijkstraLoop fuel
              (updateNeighbors
                (setNode g u.1 u.2 { getNode g u.1 u.2 with isVisited := true }) u.1 u.2).1
              rest endRC (trace ++ [u])
              (events ++ (updateNeighbors
                (setNode g u.1 u.2 { getNode g u.1 u.2 with isVisited := true }) u.1 u.2).2) :=
  rfl

theorem dijkstraLoop_nil (fuel : Nat) (g : Grid) (queue : List (Nat × Nat))
    (endRC : Nat × Nat) (trace : List (Nat × Nat)) (events : List RelaxEvent)
    (hq : sortNodesByDistance g queue = []) :
    dijkstraLoop (fuel + 1) g queue endRC trace events = (g, trace, events) := by
  rw [dijkstraLoop_succ, hq]

theorem dijkstraLoop_cons (fuel : Nat) (g : Grid) (queue : List (Nat × Nat))
    (endRC : Nat × Nat) (trace : List (Nat × Nat)) (events : List RelaxEvent)
    (u : Nat × Nat) (rest : List (Nat × Nat))
    (hq : sortNodesByDistance g queue = u :: rest) :
    dijkstraLoop (fuel + 1) g queue endRC trace events
      = if (getNode g u.1 u.2).isWall ∨ (getNode g u.1 u.2).isBlock then
          dijkstraLoop fuel g rest endRC trace events
        else if (getNode g u.1 u.2).distance = none then (g, trace, events)
        else if u = endRC then
          (setNode g u.1 u.2 { getNode g u.1 u.2 with isVisited := true },
            trace ++ [u], events)
        else
          dijkstraLoop fuel
            (updateNeighbors
              (setNode g u.1 u.2 { getNode g u.1 u.2 with isVisited := true }) u.1 u.2).1
            rest endRC (trace ++ [u])
            (events ++ (updateNeighbors
              (setNode g u.1 u.2 { getNode g u.1 u.2 with isVisited := true }) u.1 u.2).2) := by
  rw [dijkstraLoop_succ, hq]

theorem pathChain_succ_none (g : Grid) (fuel : Nat) (u : Nat × Nat)
    (h : (getNode g u.1 u.2).previousNode = none) :
    pathChain g (fuel + 1) u = [u] := by
  rw [pathChain, h]

theorem pathChain_succ_some (g : Grid) (fuel : Nat) (u p : Nat × Nat)
    (h : (getNode g u.1 u.2).previousNode = some p) :
    pathChain g (fuel + 1) u = pathChain g fuel p ++ [u] := by
  rw [pathChain, h]

/-- When the start is the only finitely-distanced member of the queue, it is
dequeued first. -/
theorem sorted_queue_head_start (g : Grid) (s : Nat × Nat) (queue : List (Nat × Nat))
    (hs : s ∈ queue) (hfin : (getNode g s.1 s.2).distance = some 0)
    (hothers : ∀ p ∈ queue, p ≠ s → (getNode g p.1 p.2).distance = none) :
    ∃ rest, sortNodesByDistance g queue = s :: rest := by
  cases hsort : sortNodesByDistance g queue with
  | nil =>
    have hp : (sortNodesByDistance g queue).Perm queue := sortByKey_perm _ _
    rw [hsort] at hp
    have : queue = [] := List.Perm.eq_nil hp.symm
    rw [this] at hs
    simp at hs
  | cons u rest =>
    refine ⟨rest, ?_⟩
    have humem : u ∈ queue := by
      have hp : (sortNodesByDistance g queue).Perm queue := sortByKey_perm _ _
      rw [hsort] at hp
      exact hp.mem_iff.mp (by simp)
    by_cases hus : u = s
    · rw [hus]
    · have hnone := hothers u humem hus
      have hsort2 : sortByKey (fun p => (getNode g p.1 p.2).distance) queue = u :: rest := hsort
      have hmin := sortByKey_head_min (fun p => (getNode g p.1 p.2).distance) queue u rest hsort2
      have hdle : dLe (getNode g u.1 u.2).distance (getNode g s.1 s.2).distance = true :=
        hmin s hs
      rw [hnone, hfin] at hdle
      exact absurd hdle (by simp [dLe])

/-- On a grid where the start is the only cell with a finite distance (namely
0) and is not a wall, the Dijkstra loop with the start as target dequeues the
start, marks it visited, and returns at once: one Visit, no relax events. -/
theorem dijkstra_trivial_loop (g0 : Grid) (s : Nat × Nat)
    (hs : s ∈ allCoords g0)
    (hfin : (getNode g0 s.1 s.2).distance = some 0)
    (hwall : (getNode g0 s.1 s.2).isWall = false)
    (hblock : (getNode g0 s.1 s.2).isBlock = false)
    (hothers : ∀ p ∈ allCoords g0, p ≠ s → (getNode g0 p.1 p.2).distance = none) :
    dijkstraLoop (allCoords g0).length g0 (allCoords g0) s [] []
      = (setNode g0 s.1 s.2 { getNode g0 s.1 s.2 with isVisited := true }, [s], []) := by
  obtain ⟨rest, hsort⟩ := sorted_queue_head_start g0 s (allCoords g0) hs hfin hothers
  have hne : allCoords g0 ≠ [] := by
    intro hnil
    rw [hnil] at hs
    simp at hs
  have hpos : 0 < (allCoords g0).length := List.length_pos.mpr hne
  obtain ⟨m, hm⟩ : ∃ m, (allCoords g0).length = m + 1 :=
    ⟨(allCoords g0).length - 1, by omega⟩
  rw [hm, dijkstraLoop_cons m g0 (allCoords g0) s [] [] s rest hsort]
  rw [if_neg (by simp [hwall, hblock]), if_neg (by simp [hfin]), if_pos rfl]
  rfl

/-- `dijkstra` run with start = end on any grid whose only finitely-distanced
cell is the (non-wall) start: the visited trace is exactly the start cell, no
relaxation happens, and the reconstructed path is the single start cell. -/
theorem dijkstra_trivial (G : Grid) (s : Nat × Nat)
    (hr : s.1 < G.length) (hc : s.2 < (G.getD s.1 []).length)
    (hwall : (getNode G s.1 s.2).isWall = false)
    (hblock : (getNode G s.1 s.2).isBlock = false)
    (hprev : (getNode G s.1 s.2).previousNode = none)
    (hothers : ∀ p ∈ allCoords G, p ≠ s → (getNode G p.1 p.2).distance = none) :
    (dijkstra G s s).2.1 = [s] ∧ (dijkstra G s s).2.2 = []
    ∧ getNodesInShortestPathOrder (dijkstra G s s).1 s = [s] := by
  have hunfold : dijkstra G s s
      = dijkstraLoop
          (allCoords (setNode G s.1 s.2 { getNode G s.1 s.2 with distance := some 0 })).length
          (setNode G s.1 s.2 { getNode G s.1 s.2 with distance := some 0 })
          (allCoords (setNode G s.1 s.2 { getNode G s.1 s.2 with distance := some 0 }))
          s [] [] := rfl
  have hn0 : getNode (setNode G s.1 s.2 { getNode G s.1 s.2 with distance := some 0 }) s.1 s.2
      = { getNode G s.1 s.2 with distance := some 0 } :=
    getNode_setNode_self G s.1 s.2 _ hr hc
  have hsmem : s ∈ allCoords (setNode G s.1 s.2
      { getNode G s.1 s.2 with distance := some 0 }) := by
    rw [allCoords_setNode]
    exact (mem_allCoords G s.1 s.2).mpr ⟨hr, hc⟩
  have hfin : (getNode (setNode G s.1 s.2 { getNode G s.1 s.2 with distance := some 0 })
      s.1 s.2).distance = some 0 := by
    rw [hn0]
  have hwall0 : (getNode (setNode G s.1 s.2 { getNode G s.1 s.2 with distance := some 0 })
      s.1 s.2).isWall = false := by
    rw [hn0]
    exact hwall
  have hblock0 : (getNode (setNode G s.1 s.2 { getNode G s.1 s.2 with distance := some 0 })
      s.1 s.2).isBlock = false := by
    rw [hn0]
    exact hblock
  have hothers0 : ∀ p ∈ allCoords (setNode G s.1 s.2
      { getNode G s.1 s.2 with distance := some 0 }), p ≠ s →
      (getNode (setNode G s.1 s.2 { getNode G s.1 s.2 with distance := some 0 })
        p.1 p.2).distance = none := by
    intro p hp hne
    rw [allCoords_setNode] at hp
    have hg : getNode (setNode G s.1 s.2 { getNode G s.1 s.2 with distance := some 0 }) p.1 p.2
        = getNode G p.1 p.2 := by
      apply getNode_setNode_ne
      intro hand
      apply hne
      cases p
      cases s
      simp_all
    rw [hg]
    exact hothers p hp hne
  have h0 := dijkstra_trivial_loop _ s hsmem hfin hwall0 hblock0 hothers0
  rw [hunfold, h0]
  refine ⟨rfl, rfl, ?_⟩
  have hr0 : s.1 < (setNode G s.1 s.2
      { getNode G s.1 s.2 with distance := some 0 }).length := by
    rw [setNode_length]
    exact hr
  have hc0 : s.2 < ((setNode G s.1 s.2
      { getNode G s.1 s.2 with distance := some 0 }).getD s.1 []).length := by
    rw [setNode_row_length]
    exact hc
  have hprev2 : (getNode (setNode
      (setNode G s.1 s.2 { getNode G s.1 s.2 with distance := some 0 }) s.1 s.2
      { getNode (setNode G s.1 s.2 { getNode G s.1 s.2 with distance := some 0 }) s.1 s.2
          with isVisited := true }) s.1 s.2).previousNode = none := by
    rw [getNode_setNode_self _ s.1 s.2 _ hr0 hc0, hn0]
    exact hprev
  unfold getNodesInShortestPathOrder
  exact pathChain_succ_none _ _ s hprev2

theorem bfsLoop_succ (rows cols : Nat) (g : Grid) (fuel : Nat) (st : BfsState) :
    bfsLoop rows cols g (fuel + 1) st
      = match st.queue with
        | [] => none
        | cur :: qrest =>
          if (getNode g cur.1 cur.2).isEnd then some (cur, st.prevMap)
          else bfsLoop rows cols g fuel (bfsStep rows cols g cur { st with queue := qrest }) :=
  rfl

theorem bfsMarks_start (g : Grid) (pm : (Nat × Nat) → Option (Nat × Nat)) (fuel : Nat)
    (cell : Nat × Nat) (h : (getNode g cell.1 cell.2).isStart = true) :
    bfsMarks g pm (fuel + 1) cell = [] := by
  rw [bfsMarks, if_pos h]

theorem mkGrid_onlyStart (rows cols : Nat) (s e : Nat × Nat) (walls : List (Nat × Nat))
    (hs1 : s.1 < rows) (hs2 : s.2 < cols) :
    OnlyStartAt (mkGrid rows cols s e walls) s := by
  intro p hp
  obtain ⟨a, b⟩ := p
  rw [mem_allCoords_mkGrid] at hp
  rw [mkGrid_getNode rows cols s e walls a b hp.1 hp.2]
  simp [mkCell]

theorem mkGrid_onlyEnd (rows cols : Nat) (s e : Nat × Nat) (walls : List (Nat × Nat))
    (he1 : e.1 < rows) (he2 : e.2 < cols) :
    OnlyEndAt (mkGrid rows cols s e walls) e := by
  intro p hp
  obtain ⟨a, b⟩ := p
  rw [mem_allCoords_mkGrid] at hp
  rw [mkGrid_getNode rows cols s e walls a b hp.1 hp.2]
  simp [mkCell]

/-- On a fresh grid with start = end, the visualizer's BFS finds the end at
the very first dequeue and its path reconstruction marks nothing (neither the
start nor the end cell is ever marked). -/
theorem bfs_start_eq_end (rows cols : Nat) (s : Nat × Nat) (walls : List (Nat × Nat))
    (hs1 : s.1 < rows) (hs2 : s.2 < cols) :
    bfsAlgorithm (mkGrid rows cols s s walls) = [] := by
  have hmem : s ∈ allCoords (mkGrid rows cols s s walls) :=
    (mem_allCoords_mkGrid rows cols s s walls s.1 s.2).mpr ⟨hs1, hs2⟩
  have hcell : getNode (mkGrid rows cols s s walls) s.1 s.2 = mkCell s.1 s.2 s s walls :=
    mkGrid_getNode rows cols s s walls s.1 s.2 hs1 hs2
  have hfindS : (mkGrid rows cols s s walls).flatten.find? (fun c => c.isStart)
      = some (getNode (mkGrid rows cols s s walls) s.1 s.2) :=
    find?_isStart _ s hmem (mkGrid_onlyStart rows cols s s walls hs1 hs2)
  have hfindE : (mkGrid rows cols s s walls).flatten.find? (fun c => c.isEnd)
      = some (getNode (mkGrid rows cols s s walls) s.1 s.2) :=
    find?_isEnd _ s hmem (mkGrid_onlyEnd rows cols s s walls hs1 hs2)
  have hrowcol : (getNode (mkGrid rows cols s s walls) s.1 s.2).row = s.1
      ∧ (getNode (mkGrid rows cols s s walls) s.1 s.2).col = s.2 := by
    rw [hcell]
    exact ⟨rfl, rfl⟩
  have hisEnd : (getNode (mkGrid rows cols s s walls) s.1 s.2).isEnd = true := by
    rw [hcell]
    simp [mkCell]
  have hisStart : (getNode (mkGrid rows cols s s walls) s.1 s.2).isStart = true := by
    rw [hcell]
    simp [mkCell]
  have hloop : bfsLoop (mkGrid rows cols s s walls).length
      (gridCols (mkGrid rows cols s s walls)) (mkGrid rows cols s s walls)
      ((mkGrid rows cols s s walls).length * gridCols (mkGrid rows cols s s walls) + 1)
      ⟨[(s.1, s.2)], [(s.1, s.2)], fun _ => none⟩
      = some ((s.1, s.2), fun _ => none) := by
    rw [bfsLoop_succ]
    show (if (getNode (mkGrid rows cols s s walls) s.1 s.2).isEnd = true
        then some ((s.1, s.2), fun _ => none) else _) = some ((s.1, s.2), fun _ => none)
    rw [if_pos hisEnd]
  unfold bfsAlgorithm
  rw [hfindS, hfindE]
  simp only [hrowcol.1, hrowcol.2]
  rw [hloop]
  exact bfsMarks_start _ _ _ (s.1, s.2) hisStart

/-- C8 counterexample: on the one-cell fresh grid with start = end, dijkstra
emits the visit trace [(0,0)] — the start cell is dequeued, marked visited and
pushed to the trace before the end test fires — so the Visit trace is not
empty as claimed. -/
theorem C8_start_eq_end_counterexample :
    (dijkstra (mkGrid 1 1 (0, 0) (0, 0) []) (0, 0) (0, 0)).2.1 = [(0, 0)]
    ∧ (dijkstra (mkGrid 1 1 (0, 0) (0, 0) []) (0, 0) (0, 0)).2.1 ≠ ([] : List (Nat × Nat)) := by
  decide

/-- C8 amended: on a fresh grid whose start cell equals its end cell (and is
not a wall), dijkstra terminates immediately with the one-element Visit trace
[start] — not an empty one — performs no relaxation, and reconstructs the
single-cell path [start]; the visualizer's BFS also stops at its first
dequeue but emits no PathMark at all (its reconstruction never marks the
start or end cell). -/
theorem C8_start_eq_end_amended (rows cols sr sc : Nat) (walls : List (Nat × Nat))
    (hr : sr < rows) (hc : sc < cols) (hw : (sr, sc) ∉ walls) :
    (dijkstra (mkGrid rows cols (sr, sc) (sr, sc) walls) (sr, sc) (sr, sc)).2.1 = [(sr, sc)]
    ∧ (dijkstra (mkGrid rows cols (sr, sc) (sr, sc) walls) (sr, sc) (sr, sc)).2.2 = []
    ∧ getNodesInShortestPathOrder
        (dijkstra (mkGrid rows cols (sr, sc) (sr, sc) walls) (sr, sc) (sr, sc)).1 (sr, sc)
      = [(sr, sc)]
    ∧ bfsAlgorithm (mkGrid rows cols (sr, sc) (sr, sc) walls) = [] := by
  have hcell : getNode (mkGrid rows cols (sr, sc) (sr, sc) walls) sr sc
      = mkCell sr sc (sr, sc) (sr, sc) walls :=
    mkGrid_getNode rows cols (sr, sc) (sr, sc) walls sr sc hr hc
  have hd := dijkstra_trivial (mkGrid rows cols (sr, sc) (sr, sc) walls) (sr, sc)
    (by rw [mkGrid_length]; exact hr)
    (by rw [mkGrid_row_length rows cols (sr, sc) (sr, sc) walls sr hr]; exact hc)
    (by rw [hcell]; simp [mkCell, hw])
    (by rw [hcell]; rfl)
    (by rw [hcell]; rfl)
    (by
      intro p hp hne
      obtain ⟨a, b⟩ := p
      rw [mem_allCoords_mkGrid] at hp
      rw [mkGrid_getNode rows cols (sr, sc) (sr, sc) walls a b hp.1 hp.2]
      rfl)
  exact ⟨hd.1, hd.2.1, hd.2.2, bfs_start_eq_end rows cols (sr, sc) walls hr hc⟩

/-- Witness for the amended C8 on the fresh 2 by 2 grid with start = end =
(0,0). -/
theorem C8_start_eq_end_amended_witness :
    (dijkstra (mkGrid 2 2 (0, 0) (0, 0) []) (0, 0) (0, 0)).2.1 = [(0, 0)]
    ∧ (dijkstra (mkGrid 2 2 (0, 0) (0, 0) []) (0, 0) (0, 0)).2.2 = []
    ∧ getNodesInShortestPathOrder
        (dijkstra (mkGrid 2 2 (0, 0) (0, 0) []) (0, 0) (0, 0)).1 (0, 0)
      = [(0, 0)]
    ∧ bfsAlgorithm (mkGrid 2 2 (0, 0) (0, 0) []) = [] :=
  C8_start_eq_end_amended 2 2 0 0 [] (by decide) (by decide) (by decide)

/-! ### The unconditional relaxation of updateNeighbors (pathfinding.ts 82-88) -/

theorem relaxList_grid_length : ∀ (ps : List (Nat × Nat)) (g : Grid) (src : Nat × Nat)
    (d : Distance), (relaxList g src d ps).1.length = g.length := by
  intro ps
  induction ps with
  | nil => intro g src d; rfl
  | cons p ps ih =>
    intro g src d
    rw [relaxList]
    rw [ih]
    exact setNode_length g p.1 p.2 _

theorem relaxList_row_length : ∀ (ps : List (Nat × Nat)) (g : Grid) (src : Nat × Nat)
    (d : Distance) (r : Nat),
    ((relaxList g src d ps).1.getD r []).length = (g.getD r []).length := by
  intro ps
  induction ps with
  | nil => intro g src d r; rfl
  | cons p ps ih =>
    intro g src d r
    rw [relaxList]
    rw [ih]
    exact setNode_row_length g p.1 p.2 r _

/-- Every recorded event writes `node.distance + 1`, and the events run over
exactly the processed neighbours in order — the write is unconditional. -/
theorem relaxList_events_targets : ∀ (ps : List (Nat × Nat)) (g : Grid) (src : Nat × Nat)
    (d : Distance),
    ((relaxList g src d ps).2.map (fun e => e.target) = ps)
    ∧ (∀ e ∈ (relaxList g src d ps).2, e.newDist = dSucc d) := by
  intro ps
  induction ps with
  | nil => intro g src d; exact ⟨rfl, by intro e he; simp [relaxList] at he⟩
  | cons p ps ih =>
    intro g src d
    rw [relaxList]
    constructor
    · show (⟨p, _, _, dSucc d⟩ :: (relaxList _ src d ps).2).map (fun e => e.target) = p :: ps
      rw [List.map_cons, (ih _ src d).1]
    · intro e he
      rcases List.mem_cons.mp he with h1 | h1
      · rw [h1]
      · exact (ih _ src d).2 e h1

/-- On pairwise-distinct in-bounds targets, `relaxList` is the pointwise
overwrite: each target's distance becomes `d + 1` and its back-pointer the
source; everything else is untouched. -/
theorem relaxList_getNode : ∀ (ps : List (Nat × Nat)) (g : Grid) (src : Nat × Nat)
    (d : Distance), ps.Pairwise (· ≠ ·) →
    (∀ p ∈ ps, p.1 < g.length ∧ p.2 < (g.getD p.1 []).length) →
    ∀ r c, getNode (relaxList g src d ps).1 r c
      = if (r, c) ∈ ps
        then { getNode g r c with distance := dSucc d, previousNode := some src }
        else getNode g r c := by
  intro ps
  induction ps with
  | nil =>
    intro g src d _ _ r c
    simp [relaxList]
  | cons p ps ih =>
    intro g src d hdist hbound r c
    rw [relaxList]
    rw [List.pairwise_cons] at hdist
    have hb := hbound p (by simp)
    have htail : ∀ q ∈ ps,
        q.1 < (setNode g p.1 p.2 { getNode g p.1 p.2 with distance := dSucc d, previousNode := some src }).length
        ∧ q.2 < ((setNode g p.1 p.2 { getNode g p.1 p.2 with distance := dSucc d, previousNode := some src }).getD q.1 []).length := by
      intro q hq
      rw [setNode_length, setNode_row_length]
      exact hbound q (by simp [hq])
    rw [ih _ src d hdist.2 htail r c]
    by_cases hmem : (r, c) ∈ ps
    · rw [if_pos hmem, if_pos (by simp [hmem])]
      have hne : p ≠ (r, c) := hdist.1 (r, c) hmem
      rw [getNode_setNode_ne g p.1 p.2 r c _ (by
        intro hand
        apply hne
        cases p
        simp_all)]
    · rw [if_neg hmem]
      by_cases hp : (r, c) = p
      · rw [if_pos (by simp [hp])]
        have e1 : r = p.1 := congrArg Prod.fst hp
        have e2 : c = p.2 := congrArg Prod.snd hp
        subst e1
        subst e2
        exact getNode_setNode_self g p.1 p.2 _ hb.1 hb.2
      · rw [if_neg (by simp [hmem, hp])]
        rw [getNode_setNode_ne g p.1 p.2 r c _ (by
          intro hand
          apply hp
          cases p
          simp_all)]

/-- On pairwise-distinct in-bounds targets the recorded events read each
target's state from the grid as it was before the whole pass. -/
theorem relaxList_events : ∀ (ps : List (Nat × Nat)) (g : Grid) (src : Nat × Nat)
    (d : Distance), ps.Pairwise (· ≠ ·) →
    (∀ p ∈ ps, p.1 < g.length ∧ p.2 < (g.getD p.1 []).length) →
    (relaxList g src d ps).2
      = ps.map (fun p => ⟨p, (getNode g p.1 p.2).isWall, (getNode g p.1 p.2).distance,
          dSucc d⟩) := by
  intro ps
  induction ps with
  | nil => intro g src d _ _; rfl
  | cons p ps ih =>
    intro g src d hdist hbound
    rw [relaxList, List.map_cons]
    rw [List.pairwise_cons] at hdist
    have hb := hbound p (by simp)
    have htail : ∀ q ∈ ps,
        q.1 < (setNode g p.1 p.2 { getNode g p.1 p.2 with distance := dSucc d, previousNode := some src }).length
        ∧ q.2 < ((setNode g p.1 p.2 { getNode g p.1 p.2 with distance := dSucc d, previousNode := some src }).getD q.1 []).length := by
      intro q hq
      rw [setNode_length, setNode_row_length]
      exact hbound q (by simp [hq])
    rw [ih _ src d hdist.2 htail]
    show _ :: List.map _ ps = _ :: List.map _ ps
    congr 1
    apply List.map_congr_left
    intro q hq
    have hq2 : getNode
        (setNode g p.1 p.2 { getNode g p.1 p.2 with distance := dSucc d, previousNode := some src })
        q.1 q.2 = getNode g q.1 q.2 := by
      apply getNode_setNode_ne
      intro hand
      apply hdist.1 q hq
      cases p
      cases q
      simp_all
    rw [hq2]

theorem getNeighbors_pairwise (g : Grid) (r c : Nat) :
    (getNeighbors g r c).Pairwise (· ≠ ·) := by
  unfold getNeighbors
  apply List.Pairwise.sublist (List.filter_sublist _)
  generalize g.length - 1 = R
  generalize gridCols g - 1 = W
  by_cases h1 : 0 < r <;> by_cases h2 : r < R <;>
    by_cases h3 : 0 < c <;> by_cases h4 : c < W <;>
    simp [h1, h2, h3, h4, Prod.ext_iff] <;>
    first
      | omega
      | (intros; omega)
      | (constructor <;> (intros; omega))

/-- Every member of `getNeighbors` is an in-bounds, not-yet-visited cell whose
coordinate sum differs from the centre's by exactly one. -/
theorem getNeighbors_spec (g : Grid) (r c : Nat) (hr : r < g.length) (hc : c < gridCols g)
    (p : Nat × Nat) (hp : p ∈ getNeighbors g r c) :
    p.1 < g.length ∧ p.2 < gridCols g
    ∧ (getNode g p.1 p.2).isVisited = false
    ∧ (p.1 + p.2 + 1 = r + c ∨ p.1 + p.2 = r + c + 1) := by
  unfold getNeighbors at hp
  rw [List.mem_filter] at hp
  obtain ⟨hmem, hvis⟩ := hp
  have hv : (getNode g p.1 p.2).isVisited = false := by
    simpa using hvis
  have hsplit : ∀ (cond : Prop) (inst : Decidable cond) (x : Nat × Nat),
      p ∈ (if cond then [x] else []) → cond ∧ p = x := by
    intro cond inst x h
    by_cases hcond : cond
    · rw [if_pos hcond] at h
      exact ⟨hcond, by simpa using h⟩
    · rw [if_neg hcond] at h
      simp at h
  rcases List.mem_append.mp hmem with hm123 | hm4
  · rcases List.mem_append.mp hm123 with hm12 | hm3
    · rcases List.mem_append.mp hm12 with hm1 | hm2
      · obtain ⟨hcond, hpx⟩ := hsplit _ _ _ hm1
        subst hpx
        exact ⟨by omega, hc, hv, by omega⟩
      · obtain ⟨hcond, hpx⟩ := hsplit _ _ _ hm2
        subst hpx
        exact ⟨by omega, hc, hv, by omega⟩
    · obtain ⟨hcond, hpx⟩ := hsplit _ _ _ hm3
      subst hpx
      exact ⟨hr, by omega, hv, by omega⟩
  · obtain ⟨hcond, hpx⟩ := hsplit _ _ _ hm4
    subst hpx
    exact ⟨hr, by omega, hv, by omega⟩

/-- Loop invariant for dijkstra's relaxations: the grid is rectangular, every
unvisited non-wall cell is still queued, every finite distance has the parity
of its cell's coordinate sum relative to the start's (unit steps flip both in
lock-step), queued coordinates are in bounds, and no cell is a block. -/
structure DInv (β : Nat) (g : Grid) (queue : List (Nat × Nat)) : Prop where
  rect : ∀ r, r < g.length → (g.getD r []).length = gridCols g
  complete : ∀ r c, r < g.length → c < gridCols g →
    (getNode g r c).isVisited = false → (getNode g r c).isWall = false → (r, c) ∈ queue
  parity : ∀ r c k, r < g.length → c < gridCols g →
    (getNode g r c).distance = some k → (k + r + c) % 2 = β % 2
  qbound : ∀ p ∈ queue, p.1 < g.length ∧ p.2 < gridCols g
  noblock : ∀ r c, r < g.length → c < gridCols g → (getNode g r c).isBlock = false

/-- One non-trivial iteration of the dijkstra loop (dequeue `u`, mark it
visited, relax all its neighbours) preserves the invariant on the remaining
queue, and every event it records on a non-wall target does not increase that
target's distance. -/
theorem dijkstra_step_inv (β : Nat) (g g1 : Grid) (queue rest : List (Nat × Nat))
    (u : Nat × Nat)
    (hg1 : g1 = setNode g u.1 u.2 { getNode g u.1 u.2 with isVisited := true })
    (hinv : DInv β g queue) (hsort : sortNodesByDistance g queue = u :: rest)
    (k : Nat) (hk : (getNode g u.1 u.2).distance = some k) :
    DInv β (updateNeighbors g1 u.1 u.2).1 rest
    ∧ ∀ e ∈ (updateNeighbors g1 u.1 u.2).2, e.wall = false →
        dLe e.newDist e.oldDist = true := by
  have hperm : (u :: rest).Perm queue := by
    have hp : (sortNodesByDistance g queue).Perm queue := by
      show (sortByKey (fun q => (getNode g q.1 q.2).distance) queue).Perm queue
      exact sortByKey_perm _ _
    rw [hsort] at hp
    exact hp
  have humem : u ∈ queue := hperm.subset (List.mem_cons_self u rest)
  have hub := hinv.qbound u humem
  have hrest_sub : ∀ q ∈ rest, q ∈ queue := fun q hq => hperm.subset (by simp [hq])
  have hqueue_mem : ∀ q ∈ queue, q = u ∨ q ∈ rest := by
    intro q hq
    have := hperm.symm.subset hq
    simpa using this
  have hg1len : g1.length = g.length := by
    rw [hg1]
    exact setNode_length _ _ _ _
  have hg1row : ∀ r, (g1.getD r []).length = (g.getD r []).length := by
    intro r
    rw [hg1]
    exact setNode_row_length _ _ _ _ _
  have hg1cols : gridCols g1 = gridCols g := hg1row 0
  have hrowlen_u : u.2 < (g.getD u.1 []).length := by
    rw [hinv.rect u.1 hub.1]
    exact hub.2
  have hg1u : getNode g1 u.1 u.2 = { getNode g u.1 u.2 with isVisited := true } := by
    rw [hg1]
    exact getNode_setNode_self g u.1 u.2 _ hub.1 hrowlen_u
  have hg1ne : ∀ r c, ¬ (r = u.1 ∧ c = u.2) → getNode g1 r c = getNode g r c := by
    intro r c h
    rw [hg1]
    exact getNode_setNode_ne g u.1 u.2 r c _ h
  have hnspec : ∀ p ∈ getNeighbors g1 u.1 u.2,
      p.1 < g.length ∧ p.2 < gridCols g
      ∧ (getNode g1 p.1 p.2).isVisited = false
      ∧ (p.1 + p.2 + 1 = u.1 + u.2 ∨ p.1 + p.2 = u.1 + u.2 + 1) := by
    intro p hp
    have hsp := getNeighbors_spec g1 u.1 u.2 (by rw [hg1len]; exact hub.1)
      (by rw [hg1cols]; exact hub.2) p hp
    rw [hg1len, hg1cols] at hsp
    exact hsp
  have hnne : ∀ p ∈ getNeighbors g1 u.1 u.2, ¬ (p.1 = u.1 ∧ p.2 = u.2) := by
    intro p hp hand
    have hv := (hnspec p hp).2.2.1
    rw [hand.1, hand.2, hg1u] at hv
    simp at hv
  have hnbound : ∀ p ∈ getNeighbors g1 u.1 u.2,
      p.1 < g1.length ∧ p.2 < (g1.getD p.1 []).length := by
    intro p hp
    obtain ⟨h1, h2, _, _⟩ := hnspec p hp
    refine ⟨by rw [hg1len]; exact h1, ?_⟩
    rw [hg1row p.1, hinv.rect p.1 h1]
    exact h2
  have hdist1 : (getNode g1 u.1 u.2).distance = some k := by
    rw [hg1u]
    exact hk
  have hevents : (updateNeighbors g1 u.1 u.2).2
      = (getNeighbors g1 u.1 u.2).map
          (fun p => ⟨p, (getNode g1 p.1 p.2).isWall, (getNode g1 p.1 p.2).distance,
            dSucc (some k)⟩) := by
    show (relaxList g1 (u.1, u.2) (getNode g1 u.1 u.2).distance
      (getNeighbors g1 u.1 u.2)).2 = _
    rw [hdist1]
    exact relaxList_events _ _ _ _ (getNeighbors_pairwise g1 u.1 u.2) hnbound
  have hgrid : ∀ r c, getNode (updateNeighbors g1 u.1 u.2).1 r c
      = if (r, c) ∈ getNeighbors g1 u.1 u.2
        then { getNode g1 r c with distance := dSucc (some k), previousNode := some (u.1, u.2) }
        else getNode g1 r c := by
    intro r c
    show getNode (relaxList g1 (u.1, u.2) (getNode g1 u.1 u.2).distance
      (getNeighbors g1 u.1 u.2)).1 r c = _
    rw [hdist1]
    exact relaxList_getNode _ _ _ _ (getNeighbors_pairwise g1 u.1 u.2) hnbound r c
  have hglen : (updateNeighbors g1 u.1 u.2).1.length = g.length := by
    show (relaxList g1 (u.1, u.2) (getNode g1 u.1 u.2).distance
      (getNeighbors g1 u.1 u.2)).1.length = g.length
    rw [relaxList_grid_length]
    exact hg1len
  have hgrow : ∀ r, ((updateNeighbors g1 u.1 u.2).1.getD r []).length = (g.getD r []).length := by
    intro r
    show ((relaxList g1 (u.1, u.2) (getNode g1 u.1 u.2).distance
      (getNeighbors g1 u.1 u.2)).1.getD r []).length = (g.getD r []).length
    rw [relaxList_row_length]
    exact hg1row r
  have hgcols : gridCols (updateNeighbors g1 u.1 u.2).1 = gridCols g := hgrow 0
  have hpar_u := hinv.parity u.1 u.2 k hub.1 hub.2 hk
  constructor
  · refine ⟨?_, ?_, ?_, ?_, ?_⟩
    · intro r hr2
      rw [hglen] at hr2
      rw [hgrow r, hgcols]
      exact hinv.rect r hr2
    · intro r c h1 h2 h3 h4
      rw [hglen] at h1
      rw [hgcols] at h2
      rw [hgrid r c] at h3 h4
      have hvis1 : (getNode g1 r c).isVisited = false := by
        by_cases hin : (r, c) ∈ getNeighbors g1 u.1 u.2
        · rw [if_pos hin] at h3
          exact h3
        · rw [if_neg hin] at h3
          exact h3
      have hwall1 : (getNode g1 r c).isWall = false := by
        by_cases hin : (r, c) ∈ getNeighbors g1 u.1 u.2
        · rw [if_pos hin] at h4
          exact h4
        · rw [if_neg hin] at h4
          exact h4
      have hne_u : ¬ (r = u.1 ∧ c = u.2) := by
        intro hand
        rw [hand.1, hand.2, hg1u] at hvis1
        simp at hvis1
      rw [hg1ne r c hne_u] at hvis1 hwall1
      have hq := hinv.complete r c h1 h2 hvis1 hwall1
      rcases hqueue_mem _ hq with heq | hmem
      · exfalso
        apply hne_u
        exact ⟨congrArg Prod.fst heq, congrArg Prod.snd heq⟩
      · exact hmem
    · intro r c k' h1 h2 hk'
      rw [hglen] at h1
      rw [hgcols] at h2
      rw [hgrid r c] at hk'
      by_cases hin : (r, c) ∈ getNeighbors g1 u.1 u.2
      · rw [if_pos hin] at hk'
        have hk2 : some (k + 1) = some k' := hk'
        have hkk : k' = k + 1 := by
          injection hk2 with h
          exact h.symm
        have hadj := (hnspec (r, c) hin).2.2.2
        omega
      · rw [if_neg hin] at hk'
        by_cases hru : r = u.1 ∧ c = u.2
        · rw [hru.1, hru.2, hg1u] at hk'
          have hk2 : (getNode g u.1 u.2).distance = some k' := hk'
          rw [hk] at hk2
          have : k = k' := by
            injection hk2 with h
          rw [hru.1, hru.2]
          omega
        · rw [hg1ne r c hru] at hk'
          exact hinv.parity r c k' h1 h2 hk'
    · intro p hp
      rw [hglen, hgcols]
      exact hinv.qbound p (hrest_sub p hp)
    · intro r c h1 h2
      rw [hglen] at h1
      rw [hgcols] at h2
      rw [hgrid r c]
      by_cases hin : (r, c) ∈ getNeighbors g1 u.1 u.2
      · rw [if_pos hin]
        show (getNode g1 r c).isBlock = false
        by_cases hru : r = u.1 ∧ c = u.2
        · rw [hru.1, hru.2, hg1u]
          show (getNode g u.1 u.2).isBlock = false
          exact hinv.noblock u.1 u.2 hub.1 hub.2
        · rw [hg1ne r c hru]
          exact hinv.noblock r c h1 h2
      · rw [if_neg hin]
        by_cases hru : r = u.1 ∧ c = u.2
        · rw [hru.1, hru.2, hg1u]
          show (getNode g u.1 u.2).isBlock = false
          exact hinv.noblock u.1 u.2 hub.1 hub.2
        · rw [hg1ne r c hru]
          exact hinv.noblock r c h1 h2
  · intro e he hwall
    rw [hevents] at he
    obtain ⟨p, hpns, rfl⟩ := List.mem_map.mp he
    obtain ⟨hpb1, hpb2, hpv, hpadj⟩ := hnspec p hpns
    have hpne := hnne p hpns
    have hg1p : getNode g1 p.1 p.2 = getNode g p.1 p.2 := hg1ne p.1 p.2 hpne
    have hpw : (getNode g p.1 p.2).isWall = false := by
      rw [← hg1p]
      exact hwall
    show dLe (dSucc (some k)) ((getNode g1 p.1 p.2).distance) = true
    rw [hg1p]
    cases hm : (getNode g p.1 p.2).distance with
    | none => rfl
    | some m =>
      have hpvg : (getNode g p.1 p.2).isVisited = false := by
        rw [← hg1p]
        exact hpv
      have hpq : (p.1, p.2) ∈ queue := hinv.complete p.1 p.2 hpb1 hpb2 hpvg hpw
      have hsort2 : sortByKey (fun q => (getNode g q.1 q.2).distance) queue = u :: rest := hsort
      have hmin2 : dLe (getNode g u.1 u.2).distance (getNode g p.1 p.2).distance = true :=
        sortByKey_head_min _ queue u rest hsort2 (p.1, p.2) hpq
      rw [hk, hm] at hmin2
      have hkm : k ≤ m := by simpa [dLe] using hmin2
      have hpar_p := hinv.parity p.1 p.2 m hpb1 hpb2 hm
      show dLe (some (k + 1)) (some m) = true
      have hlt : k + 1 ≤ m := by omega
      simpa [dLe] using hlt

/-- Under the invariant, every relaxation event the dijkstra loop ever records
on a non-wall target does not increase that target's tentative distance. -/
theorem dijkstraLoop_events_dLe (β : Nat) :
    ∀ (fuel : Nat) (g : Grid) (queue : List (Nat × Nat)) (endRC : Nat × Nat)
      (trace : List (Nat × Nat)) (events : List RelaxEvent),
      DInv β g queue →
      (∀ e ∈ events, e.wall = false → dLe e.newDist e.oldDist = true) →
      ∀ e ∈ (dijkstraLoop fuel g queue endRC trace events).2.2,
        e.wall = false → dLe e.newDist e.oldDist = true := by
  intro fuel
  induction fuel with
  | zero =>
    intro g queue endRC trace events hinv hev e he
    exact hev e he
  | succ fuel ih =>
    intro g queue endRC trace events hinv hev
    cases hsort : sortNodesByDistance g queue with
    | nil =>
      rw [dijkstraLoop_nil fuel g queue endRC trace events hsort]
      exact hev
    | cons u rest =>
      rw [dijkstraLoop_cons fuel g queue endRC trace events u rest hsort]
      have hperm : (u :: rest).Perm queue := by
        have hp : (sortNodesByDistance g queue).Perm queue := by
          show (sortByKey (fun q => (getNode g q.1 q.2).distance) queue).Perm queue
          exact sortByKey_perm _ _
        rw [hsort] at hp
        exact hp
      have humem : u ∈ queue := hperm.subset (List.mem_cons_self u rest)
      have hub := hinv.qbound u humem
      have hrest_sub : ∀ q ∈ rest, q ∈ queue := fun q hq => hperm.subset (by simp [hq])
      by_cases hwb : (getNode g u.1 u.2).isWall = true ∨ (getNode g u.1 u.2).isBlock = true
      · rw [if_pos hwb]
        have huwall : (getNode g u.1 u.2).isWall = true := by
          rcases hwb with h | h
          · exact h
          · rw [hinv.noblock u.1 u.2 hub.1 hub.2] at h
            exact absurd h (by simp)
        refine ih g rest endRC trace events ⟨hinv.rect, ?_, hinv.parity, ?_, hinv.noblock⟩ hev
        · intro r c h1 h2 h3 h4
          have hq := hinv.complete r c h1 h2 h3 h4
          have hq2 : (r, c) ∈ u :: rest := hperm.symm.subset hq
          rcases List.mem_cons.mp hq2 with heq | hmem
          · exfalso
            have e1 : r = u.1 := congrArg Prod.fst heq
            have e2 : c = u.2 := congrArg Prod.snd heq
            rw [e1, e2, huwall] at h4
            exact absurd h4 (by simp)
          · exact hmem
        · intro p hp
          exact hinv.qbound p (hrest_sub p hp)
      · rw [if_neg hwb]
        by_cases hdnone : (getNode g u.1 u.2).distance = none
        · rw [if_pos hdnone]
          exact hev
        · rw [if_neg hdnone]
          by_cases hend : u = endRC
          · rw [if_pos hend]
            exact hev
          · rw [if_neg hend]
            obtain ⟨k, hk⟩ : ∃ k, (getNode g u.1 u.2).distance = some k := by
              cases hd : (getNode g u.1 u.2).distance with
              | none => exact absurd hd hdnone
              | some k => exact ⟨k, rfl⟩
            obtain ⟨hinv2, hnew⟩ := dijkstra_step_inv β g
              (setNode g u.1 u.2 { getNode g u.1 u.2 with isVisited := true })
              queue rest u rfl hinv hsort k hk
            refine ih _ rest endRC _ _ hinv2 ?_
            intro e he hwall
            rcases List.mem_append.mp he with h1 | h1
            · exact hev e h1 hwall
            · exact hnew e h1 hwall

/-- The state dijkstra starts from on a fresh grid satisfies the loop
invariant: only the start has a (zero) distance, nothing is visited or a
block, and every cell is queued. -/
theorem dijkstra_initial_inv (rows cols sr sc : Nat) (e : Nat × Nat)
    (walls : List (Nat × Nat)) (hr : sr < rows) (hc : sc < cols) :
    DInv (sr + sc)
      (setNode (mkGrid rows cols (sr, sc) e walls) sr sc
        { getNode (mkGrid rows cols (sr, sc) e walls) sr sc with distance := some 0 })
      (allCoords (setNode (mkGrid rows cols (sr, sc) e walls) sr sc
        { getNode (mkGrid rows cols (sr, sc) e walls) sr sc with distance := some 0 })) := by
  have hlen : (setNode (mkGrid rows cols (sr, sc) e walls) sr sc
      { getNode (mkGrid rows cols (sr, sc) e walls) sr sc with distance := some 0 }).length
      = rows := by
    rw [setNode_length, mkGrid_length]
  have hrow : ∀ r, r < rows → ((setNode (mkGrid rows cols (sr, sc) e walls) sr sc
      { getNode (mkGrid rows cols (sr, sc) e walls) sr sc with distance := some 0 }).getD
        r []).length = cols := by
    intro r hr2
    rw [setNode_row_length, mkGrid_row_length rows cols _ _ _ r hr2]
  have hcols : gridCols (setNode (mkGrid rows cols (sr, sc) e walls) sr sc
      { getNode (mkGrid rows cols (sr, sc) e walls) sr sc with distance := some 0 })
      = cols := hrow 0 (by omega)
  have hget : ∀ r c, r < rows → c < cols → ¬ (r = sr ∧ c = sc) →
      getNode (setNode (mkGrid rows cols (sr, sc) e walls) sr sc
        { getNode (mkGrid rows cols (sr, sc) e walls) sr sc with distance := some 0 }) r c
      = mkCell r c (sr, sc) e walls := by
    intro r c h1 h2 hne
    rw [getNode_setNode_ne _ _ _ _ _ _ hne, mkGrid_getNode rows cols _ _ _ r c h1 h2]
  have hgs : getNode (setNode (mkGrid rows cols (sr, sc) e walls) sr sc
      { getNode (mkGrid rows cols (sr, sc) e walls) sr sc with distance := some 0 }) sr sc
      = { mkCell sr sc (sr, sc) e walls with distance := some 0 } := by
    rw [getNode_setNode_self _ sr sc _ (by rw [mkGrid_length]; exact hr)
      (by rw [mkGrid_row_length rows cols _ _ _ sr hr]; exact hc)]
    rw [mkGrid_getNode rows cols _ _ _ sr sc hr hc]
  refine ⟨?_, ?_, ?_, ?_, ?_⟩
  · intro r hr2
    rw [hlen] at hr2
    rw [hrow r hr2, hcols]
  · intro r c h1 h2 _ _
    rw [hlen] at h1
    rw [hcols] at h2
    rw [mem_allCoords]
    refine ⟨by rw [hlen]; exact h1, ?_⟩
    rw [hrow r h1]
    exact h2
  · intro r c k h1 h2 hk
    rw [hlen] at h1
    rw [hcols] at h2
    by_cases hne : r = sr ∧ c = sc
    · rw [hne.1, hne.2, hgs] at hk
      have hk2 : some 0 = some k := hk
      have : k = 0 := by
        injection hk2 with h
        exact h.symm
      rw [hne.1, hne.2, this]
      omega
    · rw [hget r c h1 h2 hne] at hk
      exact absurd hk (by simp [mkCell])
  · intro p hp
    rw [mem_allCoords] at hp
    rw [hlen, hcols]
    obtain ⟨h1, h2⟩ := hp
    rw [hlen] at h1
    rw [hrow p.1 h1] at h2
    exact ⟨h1, h2⟩
  · intro r c h1 h2
    rw [hlen] at h1
    rw [hcols] at h2
    by_cases hne : r = sr ∧ c = sc
    · rw [hne.1, hne.2, hgs]
      rfl
    · rw [hget r c h1 h2 hne]
      rfl

/-- C2 counterexample: in the dijkstra run on the fresh 2 by 2 grid from
(0,0) to (1,1), the cell (1,1) — not a wall, not visited — is relaxed a
second time with a new distance (2) that is *not* strictly smaller than its
current tentative distance (2): its distance and previous pointer are
overwritten although the strict-improvement condition fails. -/
theorem C2_strict_improvement_counterexample :
    (⟨(1, 1), false, some 2, some 2⟩ : RelaxEvent)
        ∈ (dijkstra (mkGrid 2 2 (0, 0) (1, 1) []) (0, 0) (1, 1)).2.2
    ∧ dLt (some 2) (some 2) = false := by decide

/-- C2 amended: `updateNeighbors` of pathfinding.ts overwrites every examined
neighbour unconditionally — each recorded event targets exactly one neighbour
in order, with new distance `node.distance + 1`, whether or not that is an
improvement (the tsx `dijkstraAlgorithm` variant, by contrast, guards its
update with a strict `<`).  Nevertheless, in a dijkstra run on a fresh grid a
relaxation never increases a non-wall neighbour's tentative distance: the new
value is at most the old one. -/
theorem C2_relaxation_amended (rows cols sr sc : Nat) (endRC : Nat × Nat)
    (walls : List (Nat × Nat)) (hr : sr < rows) (hc : sc < cols) :
    (∀ e ∈ (dijkstra (mkGrid rows cols (sr, sc) endRC walls) (sr, sc) endRC).2.2,
        e.wall = false → dLe e.newDist e.oldDist = true)
    ∧ (∀ (g : Grid) (r c : Nat),
        (updateNeighbors g r c).2.map (fun e => e.target) = getNeighbors g r c
        ∧ ∀ e ∈ (updateNeighbors g r c).2,
            e.newDist = dSucc (getNode g r c).distance) := by
  constructor
  · have hinv := dijkstra_initial_inv rows cols sr sc endRC walls hr hc
    intro e he hwall
    have huf : dijkstra (mkGrid rows cols (sr, sc) endRC walls) (sr, sc) endRC
        = dijkstraLoop
            (allCoords (setNode (mkGrid rows cols (sr, sc) endRC walls) sr sc
              { getNode (mkGrid rows cols (sr, sc) endRC walls) sr sc
                  with distance := some 0 })).length
            (setNode (mkGrid rows cols (sr, sc) endRC walls) sr sc
              { getNode (mkGrid rows cols (sr, sc) endRC walls) sr sc
                  with distance := some 0 })
            (allCoords (setNode (mkGrid rows cols (sr, sc) endRC walls) sr sc
              { getNode (mkGrid rows cols (sr, sc) endRC walls) sr sc
                  with distance := some 0 }))
            endRC [] [] := rfl
    rw [huf] at he
    exact dijkstraLoop_events_dLe (sr + sc) _ _ _ _ _ _ hinv
      (by intro e' he'; simp at he') e he hwall
  · intro g r c
    exact ⟨(relaxList_events_targets _ _ _ _).1, (relaxList_events_targets _ _ _ _).2⟩

/-- Witness for the amended C2 on the fresh 2 by 2 grid. -/
theorem C2_relaxation_amended_witness :
    (∀ e ∈ (dijkstra (mkGrid 2 2 (0, 0) (1, 1) []) (0, 0) (1, 1)).2.2,
        e.wall = false → dLe e.newDist e.oldDist = true)
    ∧ (∀ (g : Grid) (r c : Nat),
        (updateNeighbors g r c).2.map (fun e => e.target) = getNeighbors g r c
        ∧ ∀ e ∈ (updateNeighbors g r c).2,
            e.newDist = dSucc (getNode g r c).distance) :=
  C2_relaxation_amended 2 2 0 0 (1, 1) [] (by decide) (by decide)

/-!
### Wall-free grids: Dijkstra and BFS path lengths

On a fresh rectangular grid without walls, the shortest-path structure is
governed by the Manhattan distance from the start.  `Adj` is 4-directional
adjacency on coordinates and `mdist` a subtraction-friendly form of the
Manhattan distance.
-/

def Adj (a b : Nat × Nat) : Prop :=
  (a.1 + 1 = b.1 ∧ a.2 = b.2) ∨ (b.1 + 1 = a.1 ∧ a.2 = b.2)
  ∨ (a.1 = b.1 ∧ a.2 + 1 = b.2) ∨ (a.1 = b.1 ∧ b.2 + 1 = a.2)

def mdist (s p : Nat × Nat) : Nat :=
  (p.1 - s.1) + (s.1 - p.1) + (p.2 - s.2) + (s.2 - p.2)

theorem mdist_eq_manhattan (s p : Nat × Nat) : mdist s p = manhattan s p := by
  unfold mdist manhattan
  omega

theorem mdist_self (s : Nat × Nat) : mdist s s = 0 := by
  unfold mdist
  omega

theorem mdist_eq_zero (s p : Nat × Nat) (h : mdist s p = 0) : p.1 = s.1 ∧ p.2 = s.2 := by
  unfold mdist at h
  omega

theorem adj_mdist (s a b : Nat × Nat) (h : Adj a b) :
    mdist s b = mdist s a + 1 ∨ mdist s a = mdist s b + 1 := by
  unfold Adj at h
  unfold mdist
  rcases h with ⟨h1, h2⟩ | ⟨h1, h2⟩ | ⟨h1, h2⟩ | ⟨h1, h2⟩ <;> omega

theorem adj_symm (a b : Nat × Nat) (h : Adj a b) : Adj b a := by
  unfold Adj at h ⊢
  tauto

/-- Every non-start cell has an in-bounds neighbour one step closer to the
start. -/
theorem exists_toward (rows cols : Nat) (s p : Nat × Nat)
    (hs1 : s.1 < rows) (hs2 : s.2 < cols) (hp1 : p.1 < rows) (hp2 : p.2 < cols)
    (hne : ¬ (p.1 = s.1 ∧ p.2 = s.2)) :
    ∃ q : Nat × Nat, q.1 < rows ∧ q.2 < cols ∧ Adj q p ∧ mdist s q + 1 = mdist s p := by
  rcases Nat.lt_trichotomy s.1 p.1 with h1 | h1 | h1
  · refine ⟨(p.1 - 1, p.2), by omega, hp2, ?_, ?_⟩
    · left
      exact ⟨by omega, rfl⟩
    · unfold mdist
      omega
  · rcases Nat.lt_trichotomy s.2 p.2 with h2 | h2 | h2
    · refine ⟨(p.1, p.2 - 1), hp1, by omega, ?_, ?_⟩
      · right
        right
        left
        exact ⟨rfl, by omega⟩
      · unfold mdist
        omega
    · exact absurd ⟨h1.symm, h2.symm⟩ hne
    · refine ⟨(p.1, p.2 + 1), hp1, by omega, ?_, ?_⟩
      · right
        right
        right
        exact ⟨rfl, by omega⟩
      · unfold mdist
        omega
  · refine ⟨(p.1 + 1, p.2), by omega, hp2, ?_, ?_⟩
    · right
      left
      exact ⟨by omega, rfl⟩
    · unfold mdist
      omega

/-- Along the L-shaped staircase from the start towards any target cell there
is an in-bounds cell at every intermediate distance. -/
theorem exists_cell_at_level (rows cols : Nat) (s e : Nat × Nat)
    (hs1 : s.1 < rows) (hs2 : s.2 < cols) (he1 : e.1 < rows) (he2 : e.2 < cols) :
    ∀ t, t ≤ mdist s e → ∃ x : Nat × Nat, x.1 < rows ∧ x.2 < cols ∧ mdist s x = t := by
  intro t ht
  by_cases hrow : t ≤ (e.1 - s.1) + (s.1 - e.1)
  · by_cases hdir : s.1 ≤ e.1
    · refine ⟨(s.1 + t, s.2), by omega, hs2, ?_⟩
      unfold mdist
      omega
    · refine ⟨(s.1 - t, s.2), by omega, hs2, ?_⟩
      unfold mdist
      omega
  · have hrest : t - ((e.1 - s.1) + (s.1 - e.1)) ≤ (e.2 - s.2) + (s.2 - e.2) := by
      unfold mdist at ht
      omega
    by_cases hdir : s.2 ≤ e.2
    · refine ⟨(e.1, s.2 + (t - ((e.1 - s.1) + (s.1 - e.1)))), he1, by omega, ?_⟩
      unfold mdist
      omega
    · refine ⟨(e.1, s.2 - (t - ((e.1 - s.1) + (s.1 - e.1)))), he1, by omega, ?_⟩
      unfold mdist
      omega

theorem bool_eq_false (b : Bool) (h : ¬ b = true) : b = false := by
  cases b with
  | false => rfl
  | true => exact absurd rfl h

theorem getNeighbors_adj (g : Grid) (r c : Nat) (p : Nat × Nat)
    (hp : p ∈ getNeighbors g r c) : Adj (r, c) p := by
  unfold getNeighbors at hp
  rw [List.mem_filter] at hp
  obtain ⟨hmem, _⟩ := hp
  have hsplit : ∀ (cond : Prop) (inst : Decidable cond) (x : Nat × Nat),
      p ∈ (if cond then [x] else []) → cond ∧ p = x := by
    intro cond inst x h
    by_cases hcond : cond
    · rw [if_pos hcond] at h
      exact ⟨hcond, by simpa using h⟩
    · rw [if_neg hcond] at h
      simp at h
  unfold Adj
  rcases List.mem_append.mp hmem with hm123 | hm4
  · rcases List.mem_append.mp hm123 with hm12 | hm3
    · rcases List.mem_append.mp hm12 with hm1 | hm2
      · obtain ⟨hcond, hpx⟩ := hsplit _ _ _ hm1
        subst hpx
        right
        left
        exact ⟨by omega, rfl⟩
      · obtain ⟨hcond, hpx⟩ := hsplit _ _ _ hm2
        subst hpx
        left
        exact ⟨rfl, rfl⟩
    · obtain ⟨hcond, hpx⟩ := hsplit _ _ _ hm3
      subst hpx
      right
      right
      right
      exact ⟨rfl, by omega⟩
  · obtain ⟨hcond, hpx⟩ := hsplit _ _ _ hm4
    subst hpx
    right
    right
    left
    exact ⟨rfl, rfl⟩

theorem mem_getNeighbors_of_adj (g : Grid) (r c : Nat) (hr : r < g.length)
    (hc : c < gridCols g) (p : Nat × Nat) (hadj : Adj (r, c) p)
    (hp1 : p.1 < g.length) (hp2 : p.2 < gridCols g)
    (hv : (getNode g p.1 p.2).isVisited = false) : p ∈ getNeighbors g r c := by
  unfold getNeighbors
  rw [List.mem_filter]
  refine ⟨?_, by simp [hv]⟩
  rcases hadj with ⟨h1, h2⟩ | ⟨h1, h2⟩ | ⟨h1, h2⟩ | ⟨h1, h2⟩
  · have hpe : p = (r + 1, c) := by
      cases p
      simp_all
    have hx : p ∈ (if r < g.length - 1 then [(r + 1, c)] else []) := by
      rw [if_pos (by omega), hpe]
      simp
    exact List.mem_append.mpr (Or.inl (List.mem_append.mpr
      (Or.inl (List.mem_append.mpr (Or.inr hx)))))
  · have hpe : p = (r - 1, c) := by
      cases p
      simp_all
      omega
    have hx : p ∈ (if 0 < r then [(r - 1, c)] else []) := by
      rw [if_pos (by omega), hpe]
      simp
    exact List.mem_append.mpr (Or.inl (List.mem_append.mpr
      (Or.inl (List.mem_append.mpr (Or.inl hx)))))
  · have hpe : p = (r, c + 1) := by
      cases p
      simp_all
    have hx : p ∈ (if c < gridCols g - 1 then [(r, c + 1)] else []) := by
      rw [if_pos (by omega), hpe]
      simp
    exact List.mem_append.mpr (Or.inr hx)
  · have hpe : p = (r, c - 1) := by
      cases p
      simp_all
      omega
    have hx : p ∈ (if 0 < c then [(r, c - 1)] else []) := by
      rw [if_pos (by omega), hpe]
      simp
    exact List.mem_append.mpr (Or.inl (List.mem_append.mpr (Or.inr hx)))

/-- Loop invariant for dijkstra on a wall-free fresh grid with start `s`:
distances that exist are exact Manhattan distances, visited cells form a
downward-closed set with exact distances, unvisited cells on the frontier are
already exactly labelled, and back-pointers step one level towards the
start. -/
structure WInv (s : Nat × Nat) (g : Grid) (queue : List (Nat × Nat)) : Prop where
  rect : ∀ r, r < g.length → (g.getD r []).length = gridCols g
  sb1 : s.1 < g.length
  sb2 : s.2 < gridCols g
  nowall : ∀ r c, r < g.length → c < gridCols g →
    (getNode g r c).isWall = false ∧ (getNode g r c).isBlock = false
  complete : ∀ r c, r < g.length → c < gridCols g →
    (getNode g r c).isVisited = false → (r, c) ∈ queue
  qbound : ∀ p ∈ queue, p.1 < g.length ∧ p.2 < gridCols g
  dexact : ∀ r c k, r < g.length → c < gridCols g →
    (getNode g r c).distance = some k → k = mdist s (r, c)
  closure : ∀ r c r' c', r < g.length → c < gridCols g → r' < g.length → c' < gridCols g →
    (getNode g r c).isVisited = true → mdist s (r', c') < mdist s (r, c) →
    (getNode g r' c').isVisited = true
  vdist : ∀ r c, r < g.length → c < gridCols g → (getNode g r c).isVisited = true →
    (getNode g r c).distance = some (mdist s (r, c))
  frontier : ∀ r c, r < g.length → c < gridCols g → (getNode g r c).isVisited = false →
    (∃ y : Nat × Nat, y.1 < g.length ∧ y.2 < gridCols g ∧
      (getNode g y.1 y.2).isVisited = true ∧ Adj y (r, c)) →
    (getNode g r c).distance = some (mdist s (r, c))
  sdist : (getNode g s.1 s.2).distance = some 0
  prevP : ∀ r c, r < g.length → c < gridCols g →
    ∀ p, (getNode g r c).previousNode = some p →
      p.1 < g.length ∧ p.2 < gridCols g ∧ mdist s p + 1 = mdist s (r, c)
      ∧ (getNode g p.1 p.2).isVisited = true
  sprev : (getNode g s.1 s.2).previousNode = none
  prevex : ∀ r c, r < g.length → c < gridCols g → ¬ (r = s.1 ∧ c = s.2) →
    (getNode g r c).distance ≠ none → (getNode g r c).previousNode ≠ none

/-- If any in-bounds cell is still unvisited, the head of the sorted queue has
exact finite distance and every strictly closer cell is already visited. -/
theorem winv_head (s : Nat × Nat) (g : Grid) (queue : List (Nat × Nat))
    (u : Nat × Nat) (rest : List (Nat × Nat)) (hinv : WInv s g queue)
    (hsort : sortNodesByDistance g queue = u :: rest)
    (x : Nat × Nat) (hx1 : x.1 < g.length) (hx2 : x.2 < gridCols g)
    (hxv : (getNode g x.1 x.2).isVisited = false) :
    (getNode g u.1 u.2).distance = some (mdist s u)
    ∧ ∀ r c, r < g.length → c < gridCols g → mdist s (r, c) < mdist s u →
        (getNode g r c).isVisited = true := by
  have hperm : (u :: rest).Perm queue := by
    have hp : (sortNodesByDistance g queue).Perm queue := by
      show (sortByKey (fun q => (getNode g q.1 q.2).distance) queue).Perm queue
      exact sortByKey_perm _ _
    rw [hsort] at hp
    exact hp
  have humem : u ∈ queue := hperm.subset (List.mem_cons_self u rest)
  have hub := hinv.qbound u humem
  obtain ⟨n, hnS, hmin⟩ := (Nat.lt_wfRel.wf).has_min
    {n | ∃ y : Nat × Nat, y.1 < g.length ∧ y.2 < gridCols g
      ∧ (getNode g y.1 y.2).isVisited = false ∧ mdist s y = n}
    ⟨mdist s x, x, hx1, hx2, hxv, rfl⟩
  obtain ⟨x0, hx01, hx02, hx0v, hx0m⟩ := hnS
  have hx0d : (getNode g x0.1 x0.2).distance = some (mdist s x0) := by
    by_cases hx0s : x0.1 = s.1 ∧ x0.2 = s.2
    · have hm0 : mdist s x0 = 0 := by
        unfold mdist
        omega
      rw [hm0, hx0s.1, hx0s.2]
      exact hinv.sdist
    · obtain ⟨q, hq1, hq2, hqadj, hqm⟩ := exists_toward g.length (gridCols g) s x0
        hinv.sb1 hinv.sb2 hx01 hx02 hx0s
    
      have hqvis : (getNode g q.1 q.2).isVisited = true := by
        by_cases hqv : (getNode g q.1 q.2).isVisited = true
        · exact hqv
        · exact absurd (by omega : mdist s q < n)
            (hmin (mdist s q) ⟨q, hq1, hq2, bool_eq_false _ hqv, rfl⟩)
      have hadj2 : Adj q (x0.1, x0.2) := hqadj
      exact hinv.frontier x0.1 x0.2 hx01 hx02 hx0v ⟨q, hq1, hq2, hqvis, hadj2⟩
  have hx0q : (x0.1, x0.2) ∈ queue := hinv.complete x0.1 x0.2 hx01 hx02 hx0v
  have hsort2 : sortByKey (fun q => (getNode g q.1 q.2).distance) queue = u :: rest := hsort
  have hmin2 : dLe (getNode g u.1 u.2).distance
      (getNode g (x0.1, x0.2).1 (x0.1, x0.2).2).distance = true :=
    sortByKey_head_min _ queue u rest hsort2 (x0.1, x0.2) hx0q
  have hx0d2 : (getNode g (x0.1, x0.2).1 (x0.1, x0.2).2).distance = some (mdist s x0) := hx0d
  rw [hx0d2] at hmin2
  cases hdu : (getNode g u.1 u.2).distance with
  | none =>
    rw [hdu] at hmin2
    exact absurd hmin2 (by simp [dLe])
  | some k =>
    have hk : k = mdist s (u.1, u.2) := hinv.dexact u.1 u.2 k hub.1 hub.2 hdu
    rw [Prod.mk.eta] at hk
    rw [hdu] at hmin2
    have hkle : k ≤ mdist s x0 := by simpa [dLe] using hmin2
    constructor
    · rw [hk]
    · intro r c h1 h2 hlt
      by_cases hv : (getNode g r c).isVisited = true
      · exact hv
      · exact absurd (by omega : mdist s (r, c) < n)
          (hmin (mdist s (r, c)) ⟨(r, c), h1, h2, bool_eq_false _ hv, rfl⟩)

/-- One main iteration of the dijkstra loop on a wall-free grid preserves the
invariant on the remaining queue. -/
theorem winv_step (s : Nat × Nat) (g g1 : Grid) (queue rest : List (Nat × Nat))
    (u : Nat × Nat)
    (hg1 : g1 = setNode g u.1 u.2 { getNode g u.1 u.2 with isVisited := true })
    (hinv : WInv s g queue) (hsort : sortNodesByDistance g queue = u :: rest)
    (hud : (getNode g u.1 u.2).distance = some (mdist s u))
    (hclose : ∀ r c, r < g.length → c < gridCols g → mdist s (r, c) < mdist s u →
        (getNode g r c).isVisited = true) :
    (WInv s (updateNeighbors g1 u.1 u.2).1 rest)
    ∧ (updateNeighbors g1 u.1 u.2).1.length = g.length
    ∧ gridCols (updateNeighbors g1 u.1 u.2).1 = gridCols g
    ∧ (∀ r c, (getNode (updateNeighbors g1 u.1 u.2).1 r c).isVisited = true
        ↔ ((r = u.1 ∧ c = u.2) ∨ (getNode g r c).isVisited = true)) := by
  have hperm : (u :: rest).Perm queue := by
    have hp : (sortNodesByDistance g queue).Perm queue := by
      show (sortByKey (fun q => (getNode g q.1 q.2).distance) queue).Perm queue
      exact sortByKey_perm _ _
    rw [hsort] at hp
    exact hp
  have humem : u ∈ queue := hperm.subset (List.mem_cons_self u rest)
  have hub := hinv.qbound u humem
  have hrest_sub : ∀ q ∈ rest, q ∈ queue := fun q hq => hperm.subset (by simp [hq])
  have hqueue_mem : ∀ q ∈ queue, q = u ∨ q ∈ rest := by
    intro q hq
    have := hperm.symm.subset hq
    simpa using this
  have hg1len : g1.length = g.length := by
    rw [hg1]
    exact setNode_length _ _ _ _
  have hg1row : ∀ r, (g1.getD r []).length = (g.getD r []).length := by
    intro r
    rw [hg1]
    exact setNode_row_length _ _ _ _ _
  have hg1cols : gridCols g1 = gridCols g := hg1row 0
  have hrowlen_u : u.2 < (g.getD u.1 []).length := by
    rw [hinv.rect u.1 hub.1]
    exact hub.2
  have hg1u : getNode g1 u.1 u.2 = { getNode g u.1 u.2 with isVisited := true } := by
    rw [hg1]
    exact getNode_setNode_self g u.1 u.2 _ hub.1 hrowlen_u
  have hg1ne : ∀ r c, ¬ (r = u.1 ∧ c = u.2) → getNode g1 r c = getNode g r c := by
    intro r c h
    rw [hg1]
    exact getNode_setNode_ne g u.1 u.2 r c _ h
  have hnspec : ∀ p ∈ getNeighbors g1 u.1 u.2,
      p.1 < g.length ∧ p.2 < gridCols g
      ∧ (getNode g1 p.1 p.2).isVisited = false
      ∧ (p.1 + p.2 + 1 = u.1 + u.2 ∨ p.1 + p.2 = u.1 + u.2 + 1) := by
    intro p hp
    have hsp := getNeighbors_spec g1 u.1 u.2 (by rw [hg1len]; exact hub.1)
      (by rw [hg1cols]; exact hub.2) p hp
    rw [hg1len, hg1cols] at hsp
    exact hsp
  have hnne : ∀ p ∈ getNeighbors g1 u.1 u.2, ¬ (p.1 = u.1 ∧ p.2 = u.2) := by
    intro p hp hand
    have hv := (hnspec p hp).2.2.1
    rw [hand.1, hand.2, hg1u] at hv
    simp at hv
  have hnbound : ∀ p ∈ getNeighbors g1 u.1 u.2,
      p.1 < g1.length ∧ p.2 < (g1.getD p.1 []).length := by
    intro p hp
    obtain ⟨h1, h2, _, _⟩ := hnspec p hp
    refine ⟨by rw [hg1len]; exact h1, ?_⟩
    rw [hg1row p.1, hinv.rect p.1 h1]
    exact h2
  have hnvisg : ∀ p ∈ getNeighbors g1 u.1 u.2, (getNode g p.1 p.2).isVisited = false := by
    intro p hp
    have := (hnspec p hp).2.2.1
    rw [hg1ne p.1 p.2 (hnne p hp)] at this
    exact this
  have hns_m : ∀ p ∈ getNeighbors g1 u.1 u.2, mdist s p = mdist s u + 1 := by
    intro p hp
    have hadj : Adj (u.1, u.2) p := getNeighbors_adj g1 u.1 u.2 p hp
    have hmm : mdist s p = mdist s (u.1, u.2) + 1 ∨ mdist s (u.1, u.2) = mdist s p + 1 :=
      adj_mdist s (u.1, u.2) p hadj
    rw [Prod.mk.eta] at hmm
    rcases hmm with h | h
    · exact h
    · exfalso
      have hvp := hclose p.1 p.2 (hnspec p hp).1 (hnspec p hp).2.1
        (by rw [Prod.mk.eta]; omega)
      rw [hnvisg p hp] at hvp
      exact absurd hvp (by simp)
  have hdist1 : (getNode g1 u.1 u.2).distance = some (mdist s u) := by
    rw [hg1u]
    exact hud
  have hgrid : ∀ r c, getNode (updateNeighbors g1 u.1 u.2).1 r c
      = if (r, c) ∈ getNeighbors g1 u.1 u.2
        then
          { getNode g1 r c with distance := dSucc (some (mdist s u)), previousNode := some (u.1, u.2) }
        else getNode g1 r c := by
    intro r c
    show getNode (relaxList g1 (u.1, u.2) (getNode g1 u.1 u.2).distance
      (getNeighbors g1 u.1 u.2)).1 r c = _
    rw [hdist1]
    exact relaxList_getNode _ _ _ _ (getNeighbors_pairwise g1 u.1 u.2) hnbound r c
  have hglen : (updateNeighbors g1 u.1 u.2).1.length = g.length := by
    show (relaxList g1 (u.1, u.2) (getNode g1 u.1 u.2).distance
      (getNeighbors g1 u.1 u.2)).1.length = g.length
    rw [relaxList_grid_length]
    exact hg1len
  have hgrow : ∀ r, ((updateNeighbors g1 u.1 u.2).1.getD r []).length
      = (g.getD r []).length := by
    intro r
    show ((relaxList g1 (u.1, u.2) (getNode g1 u.1 u.2).distance
      (getNeighbors g1 u.1 u.2)).1.getD r []).length = (g.getD r []).length
    rw [relaxList_row_length]
    exact hg1row r
  have hgcols : gridCols (updateNeighbors g1 u.1 u.2).1 = gridCols g := hgrow 0
  have hfields : ∀ r c,
      ((getNode (updateNeighbors g1 u.1 u.2).1 r c).isVisited = true
        ↔ ((r = u.1 ∧ c = u.2) ∨ (getNode g r c).isVisited = true))
      ∧ (getNode (updateNeighbors g1 u.1 u.2).1 r c).distance
          = (if (r, c) ∈ getNeighbors g1 u.1 u.2 then some (mdist s u + 1)
             else (getNode g r c).distance)
      ∧ (getNode (updateNeighbors g1 u.1 u.2).1 r c).previousNode
          = (if (r, c) ∈ getNeighbors g1 u.1 u.2 then some (u.1, u.2)
             else (getNode g r c).previousNode)
      ∧ (getNode (updateNeighbors g1 u.1 u.2).1 r c).isWall = (getNode g r c).isWall
      ∧ (getNode (updateNeighbors g1 u.1 u.2).1 r c).isBlock = (getNode g r c).isBlock := by
    intro r c
    rw [hgrid r c]
    by_cases hin : (r, c) ∈ getNeighbors g1 u.1 u.2
    · have hne := hnne (r, c) hin
      rw [if_pos hin, if_pos hin, if_pos hin, hg1ne r c hne]
      refine ⟨?_, rfl, rfl, rfl, rfl⟩
      constructor
      · intro h
        exact Or.inr h
      · rintro (hand | h)
        · exact absurd hand hne
        · exact h
    · rw [if_neg hin, if_neg hin, if_neg hin]
      by_cases hru : r = u.1 ∧ c = u.2
      · rw [hru.1, hru.2, hg1u]
        refine ⟨?_, rfl, rfl, rfl, rfl⟩
        constructor
        · intro _
          exact Or.inl ⟨rfl, rfl⟩
        · intro _
          rfl
      · rw [hg1ne r c hru]
        refine ⟨?_, rfl, rfl, rfl, rfl⟩
        constructor
        · intro h
          exact Or.inr h
        · rintro (hand | h)
          · exact absurd hand hru
          · exact h
  have hsnotin : ¬ ((s.1, s.2) ∈ getNeighbors g1 u.1 u.2) := by
    intro hin
    have := hns_m (s.1, s.2) hin
    have hzero : mdist s (s.1, s.2) = 0 := by
      unfold mdist
      omega
    omega
  refine ⟨⟨?_, ?_, ?_, ?_, ?_, ?_, ?_, ?_, ?_, ?_, ?_, ?_, ?_, ?_⟩,
    hglen, hgcols, fun r c => (hfields r c).1⟩
  · intro r hr2
    rw [hglen] at hr2
    rw [hgrow r, hgcols]
    exact hinv.rect r hr2
  · rw [hglen]
    exact hinv.sb1
  · rw [hgcols]
    exact hinv.sb2
  · intro r c h1 h2
    rw [hglen] at h1
    rw [hgcols] at h2
    rw [(hfields r c).2.2.2.1, (hfields r c).2.2.2.2]
    exact hinv.nowall r c h1 h2
  · intro r c h1 h2 h3
    rw [hglen] at h1
    rw [hgcols] at h2
    have hnv : ¬ ((r = u.1 ∧ c = u.2) ∨ (getNode g r c).isVisited = true) := by
      intro hor
      have := (hfields r c).1.mpr hor
      rw [h3] at this
      exact absurd this (by simp)
    have hnand : ¬ (r = u.1 ∧ c = u.2) := fun hand => hnv (Or.inl hand)
    have hnvis : (getNode g r c).isVisited = false :=
      bool_eq_false _ (fun h => hnv (Or.inr h))
    have hq := hinv.complete r c h1 h2 hnvis
    rcases hqueue_mem _ hq with heq | hmem
    · exfalso
      exact hnand ⟨congrArg Prod.fst heq, congrArg Prod.snd heq⟩
    · exact hmem
  · intro p hp
    rw [hglen, hgcols]
    exact hinv.qbound p (hrest_sub p hp)
  · intro r c k h1 h2 hk
    rw [hglen] at h1
    rw [hgcols] at h2
    rw [(hfields r c).2.1] at hk
    by_cases hin : (r, c) ∈ getNeighbors g1 u.1 u.2
    · rw [if_pos hin] at hk
      have hkk : mdist s u + 1 = k := by
        injection hk
      rw [← hkk, hns_m (r, c) hin]
    · rw [if_neg hin] at hk
      exact hinv.dexact r c k h1 h2 hk
  · intro r c r' c' h1 h2 h3 h4 hv hlt
    rw [hglen] at h1 h3
    rw [hgcols] at h2 h4
    rw [(hfields r' c').1]
    rcases (hfields r c).1.mp hv with hru | hvg
    · right
      apply hclose r' c' h3 h4
      have : mdist s (r, c) = mdist s u := by
        rw [hru.1, hru.2, Prod.mk.eta]
      omega
    · right
      exact hinv.closure r c r' c' h1 h2 h3 h4 hvg hlt
  · intro r c h1 h2 hv
    rw [hglen] at h1
    rw [hgcols] at h2
    rw [(hfields r c).2.1]
    rcases (hfields r c).1.mp hv with hru | hvg
    · have hnotin : ¬ ((r, c) ∈ getNeighbors g1 u.1 u.2) := by
        intro hin
        exact hnne (r, c) hin hru
      rw [if_neg hnotin, hru.1, hru.2]
      have : mdist s (u.1, u.2) = mdist s u := by
        rw [Prod.mk.eta]
      rw [this]
      exact hud
    · have hnotin : ¬ ((r, c) ∈ getNeighbors g1 u.1 u.2) := by
        intro hin
        have := hnvisg (r, c) hin
        rw [hvg] at this
        exact absurd this (by simp)
      rw [if_neg hnotin]
      exact hinv.vdist r c h1 h2 hvg
  · intro r c h1 h2 hv hex
    rw [hglen] at h1
    rw [hgcols] at h2
    rw [(hfields r c).2.1]
    by_cases hin : (r, c) ∈ getNeighbors g1 u.1 u.2
    · rw [if_pos hin, hns_m (r, c) hin]
    · rw [if_neg hin]
      have hnv : ¬ ((r = u.1 ∧ c = u.2) ∨ (getNode g r c).isVisited = true) := by
        intro hor
        have := (hfields r c).1.mpr hor
        rw [hv] at this
        exact absurd this (by simp)
      have hnand : ¬ (r = u.1 ∧ c = u.2) := fun hand => hnv (Or.inl hand)
      have hnvis : (getNode g r c).isVisited = false :=
        bool_eq_false _ (fun h => hnv (Or.inr h))
      obtain ⟨y, hy1, hy2, hyv, hyadj⟩ := hex
      rw [hglen] at hy1
      rw [hgcols] at hy2
      rcases (hfields y.1 y.2).1.mp hyv with hyu | hyvg
      · exfalso
        apply hin
        have hadj2 : Adj (u.1, u.2) (r, c) := by
          unfold Adj at hyadj ⊢
          obtain ⟨e1, e2⟩ := hyu
          rcases hyadj with ⟨a1, a2⟩ | ⟨a1, a2⟩ | ⟨a1, a2⟩ | ⟨a1, a2⟩ <;> omega
        apply mem_getNeighbors_of_adj g1 u.1 u.2 (by rw [hg1len]; exact hub.1)
          (by rw [hg1cols]; exact hub.2) (r, c) hadj2
          (by rw [hg1len]; exact h1) (by rw [hg1cols]; exact h2)
        rw [hg1ne r c hnand]
        exact hnvis
      · exact hinv.frontier r c h1 h2 hnvis ⟨y, hy1, hy2, hyvg, hyadj⟩
  · rw [(hfields s.1 s.2).2.1, if_neg hsnotin]
    exact hinv.sdist
  · intro r c h1 h2 p hp
    rw [hglen] at h1
    rw [hgcols] at h2
    rw [(hfields r c).2.2.1] at hp
    by_cases hin : (r, c) ∈ getNeighbors g1 u.1 u.2
    · rw [if_pos hin] at hp
      have hpu : (u.1, u.2) = p := by
        injection hp
      rw [← hpu]
      refine ⟨by rw [hglen]; exact hub.1, by rw [hgcols]; exact hub.2, ?_, ?_⟩
      · have : mdist s (u.1, u.2) = mdist s u := by
          rw [Prod.mk.eta]
        rw [this, hns_m (r, c) hin]
      · rw [(hfields u.1 u.2).1]
        exact Or.inl ⟨rfl, rfl⟩
    · rw [if_neg hin] at hp
      obtain ⟨hb1, hb2, hm, hvp⟩ := hinv.prevP r c h1 h2 p hp
      refine ⟨by rw [hglen]; exact hb1, by rw [hgcols]; exact hb2, hm, ?_⟩
      rw [(hfields p.1 p.2).1]
      exact Or.inr hvp
  · rw [(hfields s.1 s.2).2.2.1, if_neg hsnotin]
    exact hinv.sprev
  · intro r c h1 h2 hne hd
    rw [hglen] at h1
    rw [hgcols] at h2
    rw [(hfields r c).2.1] at hd
    rw [(hfields r c).2.2.1]
    by_cases hin : (r, c) ∈ getNeighbors g1 u.1 u.2
    · rw [if_pos hin]
      simp
    · rw [if_neg hin] at hd ⊢
      exact hinv.prevex r c h1 h2 hne hd

/-- What the final grid of a successful wall-free dijkstra run guarantees:
back-pointers step one Manhattan level down with exactly-labelled sources, the
start has none, every reached non-start cell has one, and the end is reached
with its exact distance. -/
def Cfin (s e : Nat × Nat) (g : Grid) : Prop :=
  (∀ r c, r < g.length → c < gridCols g →
    ∀ p, (getNode g r c).previousNode = some p →
      p.1 < g.length ∧ p.2 < gridCols g ∧ mdist s p + 1 = mdist s (r, c)
      ∧ (getNode g p.1 p.2).distance = some (mdist s p))
  ∧ (getNode g s.1 s.2).previousNode = none
  ∧ (∀ r c, r < g.length → c < gridCols g → ¬ (r = s.1 ∧ c = s.2) →
      (getNode g r c).distance ≠ none → (getNode g r c).previousNode ≠ none)
  ∧ (getNode g e.1 e.2).distance = some (mdist s e)

/-- Walking the back-pointer chain from a reached cell at Manhattan level `n`
yields `n + 1` cells. -/
theorem pathChain_length (s : Nat × Nat) (g : Grid)
    (hc1 : ∀ r c, r < g.length → c < gridCols g →
      ∀ p, (getNode g r c).previousNode = some p →
        p.1 < g.length ∧ p.2 < gridCols g ∧ mdist s p + 1 = mdist s (r, c)
        ∧ (getNode g p.1 p.2).distance = some (mdist s p))
    (hc2 : (getNode g s.1 s.2).previousNode = none)
    (hc3 : ∀ r c, r < g.length → c < gridCols g → ¬ (r = s.1 ∧ c = s.2) →
      (getNode g r c).distance ≠ none → (getNode g r c).previousNode ≠ none) :
    ∀ (n fuel : Nat) (x : Nat × Nat), x.1 < g.length → x.2 < gridCols g →
      mdist s x = n → n ≤ fuel →
      (getNode g x.1 x.2).distance = some (mdist s x) →
      (pathChain g fuel x).length = n + 1 := by
  intro n
  induction n with
  | zero =>
    intro fuel x hx1 hx2 hm hf hd
    have hxs := mdist_eq_zero s x hm
    have hxprev : (getNode g x.1 x.2).previousNode = none := by
      rw [hxs.1, hxs.2]
      exact hc2
    cases fuel with
    | zero => rfl
    | succ f =>
      rw [pathChain_succ_none g f x hxprev]
      rfl
  | succ m ih =>
    intro fuel x hx1 hx2 hm hf hd
    have hxs : ¬ (x.1 = s.1 ∧ x.2 = s.2) := by
      intro hand
      have h0 : mdist s x = 0 := by
        unfold mdist
        omega
      omega
    have hdne : (getNode g x.1 x.2).distance ≠ none := by
      rw [hd]
      simp
    have hpne := hc3 x.1 x.2 hx1 hx2 hxs hdne
    cases hp : (getNode g x.1 x.2).previousNode with
    | none => exact absurd hp hpne
    | some p =>
      obtain ⟨hp1, hp2, hpm, hpd⟩ := hc1 x.1 x.2 hx1 hx2 p hp
      rw [Prod.mk.eta] at hpm
      obtain ⟨f, rfl⟩ : ∃ f, fuel = f + 1 := ⟨fuel - 1, by omega⟩
      rw [pathChain_succ_some g f x p hp, List.length_append]
      have hpm2 : mdist s p = m := by omega
      rw [ih f p hp1 hp2 hpm2 (by omega) hpd]
      simp

/-- While the end cell is still unvisited, the wall-free dijkstra loop keeps
running until it dequeues the end, and the grid it returns satisfies `Cfin`
with unchanged dimensions. -/
theorem dijkstraLoop_reaches (s e : Nat × Nat) :
    ∀ (fuel : Nat) (g : Grid) (queue : List (Nat × Nat)) (trace : List (Nat × Nat))
      (events : List RelaxEvent),
      WInv s g queue → queue.length ≤ fuel →
      e.1 < g.length → e.2 < gridCols g →
      (getNode g e.1 e.2).isVisited = false →
      Cfin s e (dijkstraLoop fuel g queue e trace events).1
      ∧ (dijkstraLoop fuel g queue e trace events).1.length = g.length
      ∧ gridCols (dijkstraLoop fuel g queue e trace events).1 = gridCols g := by
  intro fuel
  induction fuel with
  | zero =>
    intro g queue trace events hinv hlen he1 he2 hev
    have hq := hinv.complete e.1 e.2 he1 he2 hev
    have hqe : queue = [] := List.length_eq_zero.mp (by omega)
    rw [hqe] at hq
    simp at hq
  | succ fuel ih =>
    intro g queue trace events hinv hlen he1 he2 hev
    cases hsort : sortNodesByDistance g queue with
    | nil =>
      have hq := hinv.complete e.1 e.2 he1 he2 hev
      have hperm : (sortNodesByDistance g queue).Perm queue := by
        show (sortByKey (fun q => (getNode g q.1 q.2).distance) queue).Perm queue
        exact sortByKey_perm _ _
      rw [hsort] at hperm
      have hqe : queue = [] := List.Perm.eq_nil hperm.symm
      rw [hqe] at hq
      simp at hq
    | cons u rest =>
      rw [dijkstraLoop_cons fuel g queue e trace events u rest hsort]
      obtain ⟨hud, hclose⟩ := winv_head s g queue u rest hinv hsort (e.1, e.2) he1 he2 hev
      have hperm : (u :: rest).Perm queue := by
        have hp : (sortNodesByDistance g queue).Perm queue := by
          show (sortByKey (fun q => (getNode g q.1 q.2).distance) queue).Perm queue
          exact sortByKey_perm _ _
        rw [hsort] at hp
        exact hp
      have humem : u ∈ queue := hperm.subset (List.mem_cons_self u rest)
      have hub := hinv.qbound u humem
      have hnw := hinv.nowall u.1 u.2 hub.1 hub.2
      rw [if_neg (by simp [hnw.1, hnw.2])]
      rw [if_neg (by simp [hud])]
      by_cases hend : u = e
      · rw [if_pos hend]
        have hrowlen_u : u.2 < (g.getD u.1 []).length := by
          rw [hinv.rect u.1 hub.1]
          exact hub.2
        have hg1u : getNode (setNode g u.1 u.2
            { getNode g u.1 u.2 with isVisited := true }) u.1 u.2
            = { getNode g u.1 u.2 with isVisited := true } :=
          getNode_setNode_self g u.1 u.2 _ hub.1 hrowlen_u
        have hsame : ∀ r c,
            ((getNode (setNode g u.1 u.2 { getNode g u.1 u.2 with isVisited := true })
              r c).previousNode = (getNode g r c).previousNode)
            ∧ ((getNode (setNode g u.1 u.2 { getNode g u.1 u.2 with isVisited := true })
              r c).distance = (getNode g r c).distance) := by
          intro r c
          by_cases hru : r = u.1 ∧ c = u.2
          · rw [hru.1, hru.2, hg1u]
            exact ⟨rfl, rfl⟩
          · rw [getNode_setNode_ne g u.1 u.2 r c _ hru]
            exact ⟨rfl, rfl⟩
        have hlen1 : (setNode g u.1 u.2
            { getNode g u.1 u.2 with isVisited := true }).length = g.length :=
          setNode_length _ _ _ _
        have hcols1 : gridCols (setNode g u.1 u.2
            { getNode g u.1 u.2 with isVisited := true }) = gridCols g :=
          setNode_row_length g u.1 u.2 0 _
        refine ⟨⟨?_, ?_, ?_, ?_⟩, hlen1, hcols1⟩
        · intro r c h1 h2 p hp
          rw [hlen1] at h1
          rw [hcols1] at h2
          rw [(hsame r c).1] at hp
          obtain ⟨hb1, hb2, hm, hvp⟩ := hinv.prevP r c h1 h2 p hp
          refine ⟨by rw [hlen1]; exact hb1, by rw [hcols1]; exact hb2, hm, ?_⟩
          rw [(hsame p.1 p.2).2]
          exact hinv.vdist p.1 p.2 hb1 hb2 hvp
        · rw [(hsame s.1 s.2).1]
          exact hinv.sprev
        · intro r c h1 h2 hne hd
          rw [hlen1] at h1
          rw [hcols1] at h2
          rw [(hsame r c).2] at hd
          rw [(hsame r c).1]
          exact hinv.prevex r c h1 h2 hne hd
        · rw [(hsame e.1 e.2).2, ← hend]
          exact hud
      · rw [if_neg hend]
        obtain ⟨hinv2, hglen2, hgcols2, hvis2⟩ := winv_step s g _ queue rest u rfl hinv
          hsort hud hclose
        have hrl : rest.length ≤ fuel := by
          have hsl : (sortNodesByDistance g queue).length = queue.length := by
            show (sortByKey (fun q => (getNode g q.1 q.2).distance) queue).length = _
            exact sortByKey_length _ _
          rw [hsort] at hsl
          simp at hsl
          omega
        have hevis : (getNode (updateNeighbors (setNode g u.1 u.2
            { getNode g u.1 u.2 with isVisited := true }) u.1 u.2).1 e.1 e.2).isVisited
            = false := by
          apply bool_eq_false
          intro hvt
          rcases (hvis2 e.1 e.2).mp hvt with hand | hv
          · exact hend (Prod.ext hand.1.symm hand.2.symm)
          · rw [hev] at hv
            exact absurd hv (by simp)
        obtain ⟨hc, hl, hcc⟩ := ih
          (updateNeighbors (setNode g u.1 u.2
            { getNode g u.1 u.2 with isVisited := true }) u.1 u.2).1
          rest (trace ++ [u])
          (events ++ (updateNeighbors (setNode g u.1 u.2
            { getNode g u.1 u.2 with isVisited := true }) u.1 u.2).2)
          hinv2 hrl (by rw [hglen2]; exact he1) (by rw [hgcols2]; exact he2) hevis
        exact ⟨hc, by rw [hl, hglen2], by rw [hcc, hgcols2]⟩

/-- The starting state of dijkstra on a fresh wall-free grid satisfies the
wall-free invariant. -/
theorem winv_initial (rows cols : Nat) (s e : Nat × Nat)
    (hs1 : s.1 < rows) (hs2 : s.2 < cols) :
    WInv s
      (setNode (mkGrid rows cols s e []) s.1 s.2
        { getNode (mkGrid rows cols s e []) s.1 s.2 with distance := some 0 })
      (allCoords (setNode (mkGrid rows cols s e []) s.1 s.2
        { getNode (mkGrid rows cols s e []) s.1 s.2 with distance := some 0 })) := by
  have hlen : (setNode (mkGrid rows cols s e []) s.1 s.2
      { getNode (mkGrid rows cols s e []) s.1 s.2 with distance := some 0 }).length
      = rows := by
    rw [setNode_length, mkGrid_length]
  have hrow : ∀ r, r < rows → ((setNode (mkGrid rows cols s e []) s.1 s.2
      { getNode (mkGrid rows cols s e []) s.1 s.2 with distance := some 0 }).getD
        r []).length = cols := by
    intro r hr2
    rw [setNode_row_length, mkGrid_row_length rows cols _ _ _ r hr2]
  have hcols : gridCols (setNode (mkGrid rows cols s e []) s.1 s.2
      { getNode (mkGrid rows cols s e []) s.1 s.2 with distance := some 0 })
      = cols := hrow 0 (by omega)
  have hget : ∀ r c, r < rows → c < cols → ¬ (r = s.1 ∧ c = s.2) →
      getNode (setNode (mkGrid rows cols s e []) s.1 s.2
        { getNode (mkGrid rows cols s e []) s.1 s.2 with distance := some 0 }) r c
      = mkCell r c s e [] := by
    intro r c h1 h2 hne
    rw [getNode_setNode_ne _ _ _ _ _ _ hne, mkGrid_getNode rows cols _ _ _ r c h1 h2]
  have hgs : getNode (setNode (mkGrid rows cols s e []) s.1 s.2
      { getNode (mkGrid rows cols s e []) s.1 s.2 with distance := some 0 }) s.1 s.2
      = { mkCell s.1 s.2 s e [] with distance := some 0 } := by
    rw [getNode_setNode_self _ s.1 s.2 _ (by rw [mkGrid_length]; exact hs1)
      (by rw [mkGrid_row_length rows cols _ _ _ s.1 hs1]; exact hs2)]
    rw [mkGrid_getNode rows cols _ _ _ s.1 s.2 hs1 hs2]
  have hvisfalse : ∀ r c, r < rows → c < cols →
      (getNode (setNode (mkGrid rows cols s e []) s.1 s.2
        { getNode (mkGrid rows cols s e []) s.1 s.2 with distance := some 0 })
          r c).isVisited = false := by
    intro r c h1 h2
    by_cases hne : r = s.1 ∧ c = s.2
    · rw [hne.1, hne.2, hgs]
      rfl
    · rw [hget r c h1 h2 hne]
      rfl
  refine ⟨?_, ?_, ?_, ?_, ?_, ?_, ?_, ?_, ?_, ?_, ?_, ?_, ?_, ?_⟩
  · intro r hr2
    rw [hlen] at hr2
    rw [hrow r hr2, hcols]
  · rw [hlen]
    exact hs1
  · rw [hcols]
    exact hs2
  · intro r c h1 h2
    rw [hlen] at h1
    rw [hcols] at h2
    by_cases hne : r = s.1 ∧ c = s.2
    · rw [hne.1, hne.2, hgs]
      exact ⟨by simp [mkCell], rfl⟩
    · rw [hget r c h1 h2 hne]
      exact ⟨by simp [mkCell], rfl⟩
  · intro r c h1 h2 _
    rw [hlen] at h1
    rw [hcols] at h2
    rw [mem_allCoords]
    refine ⟨by rw [hlen]; exact h1, ?_⟩
    rw [hrow r h1]
    exact h2
  · intro p hp
    rw [mem_allCoords] at hp
    rw [hlen, hcols]
    obtain ⟨h1, h2⟩ := hp
    rw [hlen] at h1
    rw [hrow p.1 h1] at h2
    exact ⟨h1, h2⟩
  · intro r c k h1 h2 hk
    rw [hlen] at h1
    rw [hcols] at h2
    by_cases hne : r = s.1 ∧ c = s.2
    · rw [hne.1, hne.2, hgs] at hk
      have hk2 : some 0 = some k := hk
      have hk0 : k = 0 := by
        injection hk2 with h
        exact h.symm
      rw [hne.1, hne.2, hk0]
      unfold mdist
      omega
    · rw [hget r c h1 h2 hne] at hk
      exact absurd hk (by simp [mkCell])
  · intro r c r' c' h1 h2 h3 h4 hv _
    rw [hlen] at h1
    rw [hcols] at h2
    rw [hvisfalse r c h1 h2] at hv
    exact absurd hv (by simp)
  · intro r c h1 h2 hv
    rw [hlen] at h1
    rw [hcols] at h2
    rw [hvisfalse r c h1 h2] at hv
    exact absurd hv (by simp)
  · intro r c h1 h2 _ hex
    obtain ⟨y, hy1, hy2, hyv, _⟩ := hex
    rw [hlen] at hy1
    rw [hcols] at hy2
    rw [hvisfalse y.1 y.2 hy1 hy2] at hyv
    exact absurd hyv (by simp)
  · rw [hgs]
  · intro r c h1 h2 p hp
    rw [hlen] at h1
    rw [hcols] at h2
    by_cases hne : r = s.1 ∧ c = s.2
    · rw [hne.1, hne.2, hgs] at hp
      exact absurd hp (by simp [mkCell])
    · rw [hget r c h1 h2 hne] at hp
      exact absurd hp (by simp [mkCell])
  · rw [hgs]
    rfl
  · intro r c h1 h2 hne hd
    rw [hlen] at h1
    rw [hcols] at h2
    rw [hget r c h1 h2 hne] at hd
    exact absurd rfl hd

/-- On a fresh wall-free grid, dijkstra's reconstructed end-to-start chain has
exactly Manhattan-distance-plus-one cells. -/
theorem dijkstra_wallfree_path_len (rows cols : Nat) (s e : Nat × Nat)
    (hs1 : s.1 < rows) (hs2 : s.2 < cols) (he1 : e.1 < rows) (he2 : e.2 < cols) :
    (getNodesInShortestPathOrder (dijkstra (mkGrid rows cols s e []) s e).1 e).length
      = mdist s e + 1 := by
  have hinv := winv_initial rows cols s e hs1 hs2
  have hlen0 : (setNode (mkGrid rows cols s e []) s.1 s.2
      { getNode (mkGrid rows cols s e []) s.1 s.2 with distance := some 0 }).length
      = rows := by
    rw [setNode_length, mkGrid_length]
  have hrow0 : ∀ r, r < rows → ((setNode (mkGrid rows cols s e []) s.1 s.2
      { getNode (mkGrid rows cols s e []) s.1 s.2 with distance := some 0 }).getD
        r []).length = cols := by
    intro r hr2
    rw [setNode_row_length, mkGrid_row_length rows cols _ _ _ r hr2]
  have hcols0 : gridCols (setNode (mkGrid rows cols s e []) s.1 s.2
      { getNode (mkGrid rows cols s e []) s.1 s.2 with distance := some 0 })
      = cols := hrow0 0 (by omega)
  have hevis : (getNode (setNode (mkGrid rows cols s e []) s.1 s.2
      { getNode (mkGrid rows cols s e []) s.1 s.2 with distance := some 0 })
        e.1 e.2).isVisited = false := by
    by_cases hne : e.1 = s.1 ∧ e.2 = s.2
    · rw [hne.1, hne.2, getNode_setNode_self _ s.1 s.2 _ (by rw [mkGrid_length]; exact hs1)
        (by rw [mkGrid_row_length rows cols _ _ _ s.1 hs1]; exact hs2)]
      rw [mkGrid_getNode rows cols _ _ _ s.1 s.2 hs1 hs2]
      rfl
    · rw [getNode_setNode_ne _ _ _ _ _ _ hne,
        mkGrid_getNode rows cols _ _ _ e.1 e.2 he1 he2]
      rfl
  obtain ⟨⟨hc1, hc2, hc3, hc4⟩, hlf, hcf⟩ := dijkstraLoop_reaches s e
    (allCoords (setNode (mkGrid rows cols s e []) s.1 s.2
      { getNode (mkGrid rows cols s e []) s.1 s.2 with distance := some 0 })).length
    (setNode (mkGrid rows cols s e []) s.1 s.2
      { getNode (mkGrid rows cols s e []) s.1 s.2 with distance := some 0 })
    (allCoords (setNode (mkGrid rows cols s e []) s.1 s.2
      { getNode (mkGrid rows cols s e []) s.1 s.2 with distance := some 0 }))
    [] [] hinv (le_refl _) (by rw [hlen0]; exact he1) (by rw [hcols0]; exact he2) hevis
  have hunf : dijkstra (mkGrid rows cols s e []) s e
      = dijkstraLoop
          (allCoords (setNode (mkGrid rows cols s e []) s.1 s.2
            { getNode (mkGrid rows cols s e []) s.1 s.2 with distance := some 0 })).length
          (setNode (mkGrid rows cols s e []) s.1 s.2
            { getNode (mkGrid rows cols s e []) s.1 s.2 with distance := some 0 })
          (allCoords (setNode (mkGrid rows cols s e []) s.1 s.2
            { getNode (mkGrid rows cols s e []) s.1 s.2 with distance := some 0 }))
          e [] [] := rfl
  rw [hunf]
  unfold getNodesInShortestPathOrder
  apply pathChain_length s _ hc1 hc2 hc3 (mdist s e) _ e
    (by rw [hlf, hlen0]; exact he1) (by rw [hcf, hcols0]; exact he2) rfl ?_ hc4
  rw [hlf, hcf, hlen0, hcols0]
  obtain ⟨a, rfl⟩ : ∃ a, rows = a + 1 := ⟨rows - 1, by omega⟩
  obtain ⟨b, rfl⟩ : ∃ b, cols = b + 1 := ⟨cols - 1, by omega⟩
  have hmul : (a + 1) * (b + 1) = a * b + a + b + 1 := by ring
  unfold mdist
  omega

/-! ### BFS on a wall-free grid -/

theorem countP_congr2 {α : Type} (f h : α → Bool) :
    ∀ l : List α, (∀ x ∈ l, f x = h x) → l.countP f = l.countP h := by
  intro l
  induction l with
  | nil => intro _; rfl
  | cons a tl ih =>
    intro he
    rw [List.countP_cons, List.countP_cons, he a (by simp),
      ih (fun x hx => he x (by simp [hx]))]

theorem countP_append_one :
    ∀ (l : List (Nat × Nat)), l.Nodup → ∀ (V : List (Nat × Nat)) (p : Nat × Nat),
    p ∈ l → ¬ p ∈ V →
    l.countP (fun x => decide (¬ x ∈ V ++ [p])) + 1
      = l.countP (fun x => decide (¬ x ∈ V)) := by
  intro l
  induction l with
  | nil =>
    intro _ V p hp
    simp at hp
  | cons a tl ih =>
    intro hnd V p hp hpv
    have hnd2 := List.nodup_cons.mp hnd
    rw [List.countP_cons, List.countP_cons]
    by_cases hap : a = p
    · have h1 : decide (¬ a ∈ V ++ [p]) = false := by
        simp [hap]
      have h2 : decide (¬ a ∈ V) = true := by
        rw [hap]
        simp [hpv]
      rw [h1, h2]
      have hptl : ¬ p ∈ tl := by
        rw [← hap]
        exact hnd2.1
      have hcong : tl.countP (fun x => decide (¬ x ∈ V ++ [p]))
          = tl.countP (fun x => decide (¬ x ∈ V)) := by
        apply countP_congr2
        intro x hx
        have hxp : ¬ x = p := fun he => hptl (he ▸ hx)
        by_cases hxv : x ∈ V
        · simp [hxv]
        · simp [hxv, hxp]
      rw [hcong]
      simp
    · have heq : decide (¬ a ∈ V ++ [p]) = decide (¬ a ∈ V) := by
        by_cases hav : a ∈ V
        · simp [hav]
        · simp [hav, hap]
      have hptl : p ∈ tl := by
        rcases List.mem_cons.mp hp with h | h
        · exact absurd h.symm hap
        · exact h
      have := ih hnd2.2 V p hptl hpv
      rw [heq]
      omega

theorem countP_append_list :
    ∀ (new l V : List (Nat × Nat)), l.Nodup → new.Nodup →
    (∀ p ∈ new, p ∈ l ∧ ¬ p ∈ V) →
    l.countP (fun x => decide (¬ x ∈ V ++ new)) + new.length
      = l.countP (fun x => decide (¬ x ∈ V)) := by
  intro new
  induction new with
  | nil =>
    intro l V _ _ _
    simp
  | cons p ps ih =>
    intro l V hl hnew hmem
    have hnew2 := List.nodup_cons.mp hnew
    have hassoc : V ++ p :: ps = (V ++ [p]) ++ ps := by simp
    have h1 := ih l (V ++ [p]) hl hnew2.2 (by
      intro q hq
      refine ⟨(hmem q (by simp [hq])).1, ?_⟩
      intro hqv
      rcases List.mem_append.mp hqv with h | h
      · exact (hmem q (by simp [hq])).2 h
      · have : q = p := by simpa using h
        exact hnew2.1 (this ▸ hq))
    have h2 := countP_append_one l hl V p (hmem p (by simp)).1 (hmem p (by simp)).2
    rw [hassoc]
    simp only [List.length_cons]
    omega

theorem nodup_flatMap_pairs : ∀ (l : List Nat) (f : Nat → List (Nat × Nat)),
    (∀ i, (f i).Nodup) → (∀ i, ∀ x ∈ f i, x.1 = i) → l.Nodup →
    (l.flatMap f).Nodup := by
  intro l
  induction l with
  | nil =>
    intro f _ _ _
    simp
  | cons a tl ih =>
    intro f hfn hfst hnd
    have hnd2 := List.nodup_cons.mp hnd
    rw [List.flatMap_cons]
    apply List.Nodup.append (hfn a) (ih f hfn hfst hnd2.2)
    intro x hxa hxt
    rw [List.mem_flatMap] at hxt
    obtain ⟨i, hi, hxi⟩ := hxt
    have h1 : x.1 = a := hfst a x hxa
    have h2 : x.1 = i := hfst i x hxi
    exact hnd2.1 ((h1.symm.trans h2).symm ▸ hi)

theorem allCoords_nodup (g : Grid) : (allCoords g).Nodup := by
  unfold allCoords
  apply nodup_flatMap_pairs
  · intro i
    exact List.Nodup.map (fun a b h => congrArg Prod.snd h) (List.nodup_range _)
  · intro i x hx
    rw [List.mem_map] at hx
    obtain ⟨j, _, hj⟩ := hx
    rw [← hj]
  · exact List.nodup_range _

theorem sum_map_const_on : ∀ (l : List Nat) (h : Nat → Nat) (c : Nat),
    (∀ i ∈ l, h i = c) → (l.map h).sum = l.length * c := by
  intro l
  induction l with
  | nil =>
    intro h c _
    simp
  | cons a tl ih =>
    intro h c hc
    rw [List.map_cons, List.sum_cons, ih h c (fun i hi => hc i (by simp [hi])),
      hc a (by simp), List.length_cons]
    ring

theorem allCoords_length (g : Grid)
    (hrect : ∀ r, r < g.length → (g.getD r []).length = gridCols g) :
    (allCoords g).length = g.length * gridCols g := by
  unfold allCoords
  rw [List.length_flatMap]
  refine (sum_map_const_on _ _ (gridCols g) ?_).trans (by rw [List.length_range])
  intro i hi
  rw [List.mem_range] at hi
  simp only [Function.comp_apply, List.length_map, List.length_range]
  exact hrect i hi

/-- The number of in-bounds cells not yet in the BFS visited set; the
termination measure of the BFS loop is queue length plus this count. -/
def unvisCount (g : Grid) (st : BfsState) : Nat :=
  (allCoords g).countP (fun p => decide (¬ p ∈ st.visitedSet))

theorem adj_mem_candidates (u x : Nat × Nat) (h : Adj u x) :
    ((x.1 : Int), (x.2 : Int)) ∈ bfsCandidates u.1 u.2 := by
  unfold Adj at h
  simp only [bfsCandidates, List.mem_cons, List.not_mem_nil, or_false, Prod.mk.injEq]
  omega

theorem candidate_adj (u : Nat × Nat) (cand : Int × Int)
    (h : cand ∈ bfsCandidates u.1 u.2) (h1 : 0 ≤ cand.1) (h2 : 0 ≤ cand.2) :
    Adj u (cand.1.toNat, cand.2.toNat) := by
  simp only [bfsCandidates, List.mem_cons, List.not_mem_nil, or_false, Prod.mk.injEq] at h
  unfold Adj
  rcases h with ⟨e1, e2⟩ | ⟨e1, e2⟩ | ⟨e1, e2⟩ | ⟨e1, e2⟩ <;> omega

/-- Effect of the neighbour loop body folded over a candidate list: some list
`new` of fresh cells is appended to both the queue and the visited set, each
gets `cur` as predecessor, and every eligible candidate is picked up. -/
theorem bfsFold_spec (rows cols : Nat) (g : Grid) (cur : Nat × Nat) :
    ∀ (cands : List (Int × Int)) (st : BfsState),
    ∃ new : List (Nat × Nat),
      (List.foldl (bfsProcessNeighbor rows cols g cur) st cands).queue = st.queue ++ new
      ∧ (List.foldl (bfsProcessNeighbor rows cols g cur) st cands).visitedSet
          = st.visitedSet ++ new
      ∧ (∀ q, (List.foldl (bfsProcessNeighbor rows cols g cur) st cands).prevMap q
          = if q ∈ new then some cur else st.prevMap q)
      ∧ new.Nodup
      ∧ (∀ p ∈ new, ¬ p ∈ st.visitedSet ∧ (getNode g p.1 p.2).isWall = false
          ∧ ∃ c ∈ cands, 0 ≤ c.1 ∧ c.1 < (rows : Int) ∧ 0 ≤ c.2 ∧ c.2 < (cols : Int)
              ∧ p = (c.1.toNat, c.2.toNat))
      ∧ (∀ c ∈ cands, 0 ≤ c.1 → c.1 < (rows : Int) → 0 ≤ c.2 → c.2 < (cols : Int) →
          (getNode g c.1.toNat c.2.toNat).isWall = false →
          ¬ (c.1.toNat, c.2.toNat) ∈ st.visitedSet →
          (c.1.toNat, c.2.toNat) ∈ new) := by
  intro cands
  induction cands with
  | nil =>
    intro st
    exact ⟨[], by simp, by simp, by simp, List.nodup_nil, by simp, by simp⟩
  | cons c cs ih =>
    intro st
    rw [List.foldl_cons]
    by_cases hb : 0 ≤ c.1 ∧ c.1 < (rows : Int) ∧ 0 ≤ c.2 ∧ c.2 < (cols : Int)
    · by_cases hskip : (getNode g c.1.toNat c.2.toNat).isWall = true
          ∨ (c.1.toNat, c.2.toNat) ∈ st.visitedSet
      · have hpn : bfsProcessNeighbor rows cols g cur st c = st := by
          unfold bfsProcessNeighbor
          rw [if_pos hb]
          exact if_pos hskip
        rw [hpn]
        obtain ⟨new, hq, hv, hpm, hnd, hmem, hcomp⟩ := ih st
        refine ⟨new, hq, hv, hpm, hnd, ?_, ?_⟩
        · intro p hp
          obtain ⟨h1, h2, c2, hc2, hrest⟩ := hmem p hp
          exact ⟨h1, h2, c2, List.mem_cons_of_mem _ hc2, hrest⟩
        · intro c2 hc2 b1 b2 b3 b4 hwall hnmem
          rcases List.mem_cons.mp hc2 with he | he
          · exfalso
            subst he
            rcases hskip with h | h
            · rw [hwall] at h
              exact Bool.false_ne_true h
            · exact hnmem h
          · exact hcomp c2 he b1 b2 b3 b4 hwall hnmem
      · have hpn : bfsProcessNeighbor rows cols g cur st c
            = { queue := st.queue ++ [(c.1.toNat, c.2.toNat)], visitedSet := st.visitedSet ++ [(c.1.toNat, c.2.toNat)], prevMap := fun q => if q = (c.1.toNat, c.2.toNat) then some cur else st.prevMap q } := by
          unfold bfsProcessNeighbor
          rw [if_pos hb]
          exact if_neg hskip
        rw [hpn]
        obtain ⟨new2, hq, hv, hpm, hnd, hmem, hcomp⟩ := ih _
        refine ⟨(c.1.toNat, c.2.toNat) :: new2, ?_, ?_, ?_, ?_, ?_, ?_⟩
        · rw [hq]
          simp
        · rw [hv]
          simp
        · intro q
          rw [hpm q]
          by_cases h1 : q ∈ new2
          · rw [if_pos h1, if_pos (by simp [h1])]
          · rw [if_neg h1]
            show (if q = (c.1.toNat, c.2.toNat) then some cur else st.prevMap q)
              = if q ∈ (c.1.toNat, c.2.toNat) :: new2 then some cur else st.prevMap q
            by_cases h2 : q = (c.1.toNat, c.2.toNat)
            · rw [if_pos h2, if_pos (by simp [h2])]
            · rw [if_neg h2, if_neg (by simp [h1, h2])]
        · refine List.nodup_cons.mpr ⟨?_, hnd⟩
          intro hmem2
          have h1 := (hmem _ hmem2).1
          exact h1 (by simp)
        · intro p hp
          rcases List.mem_cons.mp hp with he | he
          · rw [he]
            exact ⟨fun h => hskip (Or.inr h), bool_eq_false _ (fun h => hskip (Or.inl h)),
              c, List.mem_cons_self _ _, hb.1, hb.2.1, hb.2.2.1, hb.2.2.2, rfl⟩
          · obtain ⟨h1, h2, c2, hc2, hrest⟩ := hmem p he
            refine ⟨?_, h2, c2, List.mem_cons_of_mem _ hc2, hrest⟩
            intro hmem3
            exact h1 (by simp [hmem3])
        · intro c2 hc2 b1 b2 b3 b4 hwall hnmem
          rcases List.mem_cons.mp hc2 with he | he
          · rw [he]
            exact List.mem_cons_self _ _
          · by_cases heq : (c2.1.toNat, c2.2.toNat) = (c.1.toNat, c.2.toNat)
            · rw [heq]
              exact List.mem_cons_self _ _
            · refine List.mem_cons_of_mem _ (hcomp c2 he b1 b2 b3 b4 hwall ?_)
              intro h3
              rcases List.mem_append.mp h3 with h | h
              · exact hnmem h
              · exact heq (by simpa using h)
    · have hpn : bfsProcessNeighbor rows cols g cur st c = st := by
        unfold bfsProcessNeighbor
        rw [if_neg hb]
      rw [hpn]
      obtain ⟨new, hq, hv, hpm, hnd, hmem, hcomp⟩ := ih st
      refine ⟨new, hq, hv, hpm, hnd, ?_, ?_⟩
      · intro p hp
        obtain ⟨h1, h2, c2, hc2, hrest⟩ := hmem p hp
        exact ⟨h1, h2, c2, List.mem_cons_of_mem _ hc2, hrest⟩
      · intro c2 hc2 b1 b2 b3 b4 hwall hnmem
        rcases List.mem_cons.mp hc2 with he | he
        · exfalso
          subst he
          exact hb ⟨b1, b2, b3, b4⟩
        · exact hcomp c2 he b1 b2 b3 b4 hwall hnmem

/-- Invariant of the BFS loop on a wall-free grid, with a ghost list `D` of
dequeued cells and the current frontier level `t`: the queue splits as a
level-`t` prefix `q1` and a level-`t+1` suffix `q2`, the visited set is
exactly `D` plus the queue, contains every cell of level at most `t` and no
cell beyond level `t+1`, every dequeued cell has had all its in-bounds
neighbours discovered, the end cell was never dequeued, and the predecessor
map steps down one level and is defined exactly on visited non-start cells. -/
structure BInv (g : Grid) (s e : Nat × Nat) (st : BfsState) (D : List (Nat × Nat))
    (t : Nat) (q1 q2 : List (Nat × Nat)) : Prop where
  qeq : st.queue = q1 ++ q2
  q1lvl : ∀ p ∈ q1, p.1 < g.length ∧ p.2 < gridCols g ∧ mdist s p = t
  q2lvl : ∀ p ∈ q2, p.1 < g.length ∧ p.2 < gridCols g ∧ mdist s p = t + 1
  vset : ∀ x : Nat × Nat, x ∈ st.visitedSet ↔ (x ∈ D ∨ x ∈ st.queue)
  dlvl : ∀ x ∈ D, x.1 < g.length ∧ x.2 < gridCols g ∧ mdist s x ≤ t
  dlow : ∀ x : Nat × Nat, x.1 < g.length → x.2 < gridCols g → mdist s x < t → x ∈ D
  vlow : ∀ x : Nat × Nat, x.1 < g.length → x.2 < gridCols g → mdist s x ≤ t →
    x ∈ st.visitedSet
  vhigh : ∀ x ∈ st.visitedSet, x.1 < g.length ∧ x.2 < gridCols g ∧ mdist s x ≤ t + 1
  hiq2 : ∀ x : Nat × Nat, x.1 < g.length → x.2 < gridCols g → mdist s x = t + 1 →
    (x ∈ st.visitedSet ↔ x ∈ q2)
  notend : ∀ x ∈ D, ¬ (x.1 = e.1 ∧ x.2 = e.2)
  dproc : ∀ y ∈ D, ∀ x : Nat × Nat, x.1 < g.length → x.2 < gridCols g → Adj y x →
    x ∈ st.visitedSet
  prevstep : ∀ x p : Nat × Nat, st.prevMap x = some p →
    mdist s p + 1 = mdist s x ∧ ¬ (x.1 = s.1 ∧ x.2 = s.2) ∧ x ∈ st.visitedSet
      ∧ p ∈ st.visitedSet
  sprev : st.prevMap (s.1, s.2) = none
  prevex : ∀ x ∈ st.visitedSet, ¬ (x.1 = s.1 ∧ x.2 = s.2) → st.prevMap x ≠ none

/-- When the level-`t` prefix of the queue is exhausted, every level-`t+1`
cell has already been discovered (via its dequeued toward-neighbour), so the
invariant can be restated one level up. -/
theorem binv_promote (g : Grid) (s e : Nat × Nat)
    (hs1 : s.1 < g.length) (hs2 : s.2 < gridCols g)
    (st : BfsState) (D : List (Nat × Nat)) (t : Nat) (q2 : List (Nat × Nat))
    (hinv : BInv g s e st D t [] q2) : BInv g s e st D (t+1) q2 [] := by
  refine ⟨?_, ?_, ?_, hinv.vset, ?_, ?_, ?_, ?_, ?_, hinv.notend, hinv.dproc,
    hinv.prevstep, hinv.sprev, hinv.prevex⟩
  · rw [hinv.qeq, List.nil_append, List.append_nil]
  · exact hinv.q2lvl
  · intro p hp
    exact absurd hp (List.not_mem_nil p)
  · intro x hx
    obtain ⟨h1, h2, h3⟩ := hinv.dlvl x hx
    exact ⟨h1, h2, by omega⟩
  · intro x hx1 hx2 hxm
    by_cases hlt : mdist s x < t
    · exact hinv.dlow x hx1 hx2 hlt
    · have hset := hinv.vlow x hx1 hx2 (by omega)
      rcases (hinv.vset x).mp hset with h | h
      · exact h
      · exfalso
        rw [hinv.qeq, List.nil_append] at h
        have := (hinv.q2lvl x h).2.2
        omega
  · intro x hx1 hx2 hxm
    by_cases hle : mdist s x ≤ t
    · exact hinv.vlow x hx1 hx2 hle
    · have hm : mdist s x = t + 1 := by omega
      have hne : ¬ (x.1 = s.1 ∧ x.2 = s.2) := by
        intro hc
        have hz : mdist s x = 0 := by
          unfold mdist
          omega
        omega
      obtain ⟨y, hy1, hy2, hyadj, hym⟩ :=
        exists_toward g.length (gridCols g) s x hs1 hs2 hx1 hx2 hne
      have hyset := hinv.vlow y hy1 hy2 (by omega)
      have hyD : y ∈ D := by
        rcases (hinv.vset y).mp hyset with h | h
        · exact h
        · exfalso
          rw [hinv.qeq, List.nil_append] at h
          have := (hinv.q2lvl y h).2.2
          omega
      exact hinv.dproc y hyD x hx1 hx2 hyadj
  · intro x hx
    obtain ⟨h1, h2, h3⟩ := hinv.vhigh x hx
    exact ⟨h1, h2, by omega⟩
  · intro x hx1 hx2 hxm
    constructor
    · intro hset
      have := (hinv.vhigh x hset).2.2
      omega
    · intro hx
      exact absurd hx (List.not_mem_nil x)

/-- With the invariant in force the queue can never empty out: iterating the
promotion shows every in-bounds cell would have been dequeued, including the
end cell, which `notend` forbids. -/
theorem binv_empty_absurd (g : Grid) (s e : Nat × Nat)
    (hs1 : s.1 < g.length) (hs2 : s.2 < gridCols g)
    (he1 : e.1 < g.length) (he2 : e.2 < gridCols g)
    (st : BfsState) (D : List (Nat × Nat)) (t : Nat) (q1 q2 : List (Nat × Nat))
    (hinv : BInv g s e st D t q1 q2) (hq : st.queue = []) : False := by
  have hqe := hinv.qeq
  rw [hq] at hqe
  obtain ⟨h1, h2⟩ := List.append_eq_nil.mp hqe.symm
  subst h1
  subst h2
  have hiter : ∀ k, BInv g s e st D (t + k) [] [] := by
    intro k
    induction k with
    | zero => exact hinv
    | succ n ihn => exact binv_promote g s e hs1 hs2 st D (t + n) [] ihn
  have hfin := hiter (mdist s e)
  have heset := hfin.vlow e he1 he2 (by omega)
  rcases (hfin.vset e).mp heset with h | h
  · exact hinv.notend e h ⟨rfl, rfl⟩
  · rw [hq] at h
    exact absurd h (List.not_mem_nil e)

/-- One BFS dequeue step preserves the invariant: the dequeued level-`t` cell
`cur` joins the ghost list, its fresh neighbours (all at level `t+1`) join the
queue and visited set with `cur` as predecessor, and the termination measure
(queue length plus undiscovered-cell count) drops by exactly one. -/
theorem binv_step (g : Grid) (s e : Nat × Nat)
    (hrect : ∀ r, r < g.length → (g.getD r []).length = gridCols g)
    (hnw : ∀ r c, r < g.length → c < gridCols g → (getNode g r c).isWall = false)
    (hs1 : s.1 < g.length) (hs2 : s.2 < gridCols g)
    (st : BfsState) (D : List (Nat × Nat)) (t : Nat)
    (cur : Nat × Nat) (q1t q2 : List (Nat × Nat))
    (hinv : BInv g s e st D t (cur :: q1t) q2)
    (hcurne : ¬ (cur.1 = e.1 ∧ cur.2 = e.2)) :
    ∃ new : List (Nat × Nat),
      BInv g s e (bfsStep g.length (gridCols g) g cur { st with queue := q1t ++ q2 })
        (D ++ [cur]) t q1t (q2 ++ new)
      ∧ (bfsStep g.length (gridCols g) g cur
            { st with queue := q1t ++ q2 }).queue.length
          + unvisCount g (bfsStep g.length (gridCols g) g cur
            { st with queue := q1t ++ q2 }) + 1
        = st.queue.length + unvisCount g st := by
  obtain ⟨hcb1, hcb2, hcm⟩ := hinv.q1lvl cur (List.mem_cons_self _ _)
  have hqst : st.queue = cur :: (q1t ++ q2) := by
    rw [hinv.qeq, List.cons_append]
  have hcurset : cur ∈ st.visitedSet := by
    rw [hinv.vset]
    right
    rw [hqst]
    exact List.mem_cons_self _ _
  obtain ⟨new, hq, hv, hpm, hnd, hmem, hcomp⟩ :=
    bfsFold_spec g.length (gridCols g) g cur (bfsCandidates cur.1 cur.2)
      { st with queue := q1t ++ q2 }
  have hstep : bfsStep g.length (gridCols g) g cur { st with queue := q1t ++ q2 }
      = List.foldl (bfsProcessNeighbor g.length (gridCols g) g cur)
        { st with queue := q1t ++ q2 } (bfsCandidates cur.1 cur.2) := rfl
  rw [hstep]
  have hnewmem : ∀ p ∈ new, ¬ p ∈ st.visitedSet ∧ p.1 < g.length ∧ p.2 < gridCols g
      ∧ Adj cur p ∧ mdist s p = t + 1 := by
    intro p hp
    obtain ⟨hns, hnwall, c, hc, hb1, hb2, hb3, hb4, hpe⟩ := hmem p hp
    subst hpe
    have hadj : Adj cur (c.1.toNat, c.2.toNat) := candidate_adj cur c hc hb1 hb3
    have hpb1 : c.1.toNat < g.length := by omega
    have hpb2 : c.2.toNat < gridCols g := by omega
    refine ⟨hns, hpb1, hpb2, hadj, ?_⟩
    rcases adj_mdist s cur (c.1.toNat, c.2.toNat) hadj with h | h
    · rw [h, hcm]
    · exfalso
      have hset := hinv.vlow (c.1.toNat, c.2.toNat) hpb1 hpb2 (by omega)
      exact hns hset
  refine ⟨new, ?_, ?_⟩
  · refine ⟨?_, ?_, ?_, ?_, ?_, ?_, ?_, ?_, ?_, ?_, ?_, ?_, ?_, ?_⟩
    · rw [hq]
      show (q1t ++ q2) ++ new = q1t ++ (q2 ++ new)
      exact List.append_assoc _ _ _
    · exact fun p hp => hinv.q1lvl p (List.mem_cons_of_mem _ hp)
    · intro p hp
      rcases List.mem_append.mp hp with h | h
      · exact hinv.q2lvl p h
      · obtain ⟨_, hb1, hb2, _, hlvl⟩ := hnewmem p h
        exact ⟨hb1, hb2, hlvl⟩
    · intro x
      rw [hv, hq]
      show x ∈ st.visitedSet ++ new ↔ x ∈ D ++ [cur] ∨ x ∈ (q1t ++ q2) ++ new
      have hvs := hinv.vset x
      rw [hqst] at hvs
      simp only [List.mem_append, List.mem_cons, List.mem_singleton] at hvs ⊢
      tauto
    · intro x hx
      rcases List.mem_append.mp hx with h | h
      · obtain ⟨h1, h2, h3⟩ := hinv.dlvl x h
        exact ⟨h1, h2, h3⟩
      · have hxc : x = cur := by simpa using h
        rw [hxc]
        exact ⟨hcb1, hcb2, by omega⟩
    · intro x hx1 hx2 hxm
      exact List.mem_append.mpr (Or.inl (hinv.dlow x hx1 hx2 hxm))
    · intro x hx1 hx2 hxm
      rw [hv]
      show x ∈ st.visitedSet ++ new
      exact List.mem_append.mpr (Or.inl (hinv.vlow x hx1 hx2 hxm))
    · intro x hx
      rw [hv] at hx
      rcases List.mem_append.mp hx with h | h
      · exact hinv.vhigh x h
      · obtain ⟨_, hb1, hb2, _, hlvl⟩ := hnewmem x h
        exact ⟨hb1, hb2, by omega⟩
    · intro x hx1 hx2 hxm
      have hh := hinv.hiq2 x hx1 hx2 hxm
      rw [hv]
      show x ∈ st.visitedSet ++ new ↔ x ∈ q2 ++ new
      simp only [List.mem_append]
      tauto
    · intro x hx
      rcases List.mem_append.mp hx with h | h
      · exact hinv.notend x h
      · have hxc : x = cur := by simpa using h
        rw [hxc]
        exact hcurne
    · intro y hy x hx1 hx2 hadj
      rw [hv]
      show x ∈ st.visitedSet ++ new
      rcases List.mem_append.mp hy with h | h
      · exact List.mem_append.mpr (Or.inl (hinv.dproc y h x hx1 hx2 hadj))
      · have hyc : y = cur := by simpa using h
        subst hyc
        by_cases hxv : x ∈ st.visitedSet
        · exact List.mem_append.mpr (Or.inl hxv)
        · have hcand := adj_mem_candidates y x hadj
          have e1 : ((x.1 : Int)).toNat = x.1 := Int.toNat_natCast x.1
          have e2 : ((x.2 : Int)).toNat = x.2 := Int.toNat_natCast x.2
          have hwall : (getNode g ((x.1 : Int)).toNat ((x.2 : Int)).toNat).isWall
              = false := by
            rw [e1, e2]
            exact hnw x.1 x.2 hx1 hx2
          have hnm : ¬ (((x.1 : Int)).toNat, ((x.2 : Int)).toNat) ∈ st.visitedSet := by
            rw [e1, e2, Prod.mk.eta]
            exact hxv
          have hin := hcomp ((x.1 : Int), (x.2 : Int)) hcand (by omega) (by omega)
            (by omega) (by omega) hwall hnm
          rw [e1, e2, Prod.mk.eta] at hin
          exact List.mem_append.mpr (Or.inr hin)
    · intro x p hxp
      rw [hpm x] at hxp
      by_cases hxn : x ∈ new
      · rw [if_pos hxn] at hxp
        have hpc : cur = p := Option.some.inj hxp
        obtain ⟨_, hb1, hb2, _, hlvl⟩ := hnewmem x hxn
        refine ⟨?_, ?_, ?_, ?_⟩
        · rw [← hpc, hcm, hlvl]
        · intro hc
          have hz : mdist s x = 0 := by
            unfold mdist
            omega
          omega
        · rw [hv]
          show x ∈ st.visitedSet ++ new
          exact List.mem_append.mpr (Or.inr hxn)
        · rw [← hpc, hv]
          show cur ∈ st.visitedSet ++ new
          exact List.mem_append.mpr (Or.inl hcurset)
      · rw [if_neg hxn] at hxp
        obtain ⟨h1, h2, h3, h4⟩ := hinv.prevstep x p hxp
        refine ⟨h1, h2, ?_, ?_⟩
        · rw [hv]
          show x ∈ st.visitedSet ++ new
          exact List.mem_append.mpr (Or.inl h3)
        · rw [hv]
          show p ∈ st.visitedSet ++ new
          exact List.mem_append.mpr (Or.inl h4)
    · rw [hpm]
      have hns : ¬ (s.1, s.2) ∈ new := by
        intro h
        have hlvl := (hnewmem _ h).2.2.2.2
        rw [Prod.mk.eta, mdist_self] at hlvl
        omega
      rw [if_neg hns]
      exact hinv.sprev
    · intro x hx hne
      rw [hpm x]
      by_cases hxn : x ∈ new
      · rw [if_pos hxn]
        exact Option.some_ne_none cur
      · rw [if_neg hxn]
        rw [hv] at hx
        rcases List.mem_append.mp hx with h | h
        · exact hinv.prevex x h hne
        · exact absurd h hxn
  · have hmemall : ∀ p ∈ new, p ∈ allCoords g ∧ ¬ p ∈ st.visitedSet := by
      intro p hp
      obtain ⟨hns, hb1, hb2, _, _⟩ := hnewmem p hp
      have hmm := (mem_allCoords g p.1 p.2).mpr ⟨hb1, by rw [hrect _ hb1]; exact hb2⟩
      rw [Prod.mk.eta] at hmm
      exact ⟨hmm, hns⟩
    have hcount := countP_append_list new (allCoords g) st.visitedSet
      (allCoords_nodup g) hnd hmemall
    have hcnt2 : unvisCount g (List.foldl (bfsProcessNeighbor g.length (gridCols g) g cur)
        { st with queue := q1t ++ q2 } (bfsCandidates cur.1 cur.2)) + new.length
        = unvisCount g st := by
      unfold unvisCount
      rw [hv]
      exact hcount
    have hql : (List.foldl (bfsProcessNeighbor g.length (gridCols g) g cur)
        { st with queue := q1t ++ q2 } (bfsCandidates cur.1 cur.2)).queue.length
        = (q1t ++ q2).length + new.length := by
      rw [hq]
      show ((q1t ++ q2) ++ new).length = _
      rw [List.length_append]
    have hsl : st.queue.length = (q1t ++ q2).length + 1 := by
      rw [hqst]
      rfl
    omega

/-- On a wall-free rectangular grid, the fuelled BFS loop always dequeues the
end cell (given enough fuel), and the returned predecessor map steps down one
Manhattan level per link, is undefined on the start, and is defined on the
dequeued end cell whenever it differs from the start. -/
theorem bfsLoop_finds (g : Grid) (s e : Nat × Nat)
    (hrect : ∀ r, r < g.length → (g.getD r []).length = gridCols g)
    (hnw : ∀ r c, r < g.length → c < gridCols g → (getNode g r c).isWall = false)
    (hendiff : ∀ r c, r < g.length → c < gridCols g →
      ((getNode g r c).isEnd = true ↔ (r = e.1 ∧ c = e.2)))
    (hs1 : s.1 < g.length) (hs2 : s.2 < gridCols g)
    (he1 : e.1 < g.length) (he2 : e.2 < gridCols g) :
    ∀ (fuel : Nat) (st : BfsState) (D : List (Nat × Nat)) (t : Nat)
      (q1 q2 : List (Nat × Nat)),
      BInv g s e st D t q1 q2 →
      st.queue.length + unvisCount g st ≤ fuel →
      ∃ pm, bfsLoop g.length (gridCols g) g fuel st = some ((e.1, e.2), pm)
        ∧ (∀ x p : Nat × Nat, pm x = some p → mdist s p + 1 = mdist s x
            ∧ ¬ (x.1 = s.1 ∧ x.2 = s.2) ∧ p.1 < g.length ∧ p.2 < gridCols g
            ∧ (¬ (p.1 = s.1 ∧ p.2 = s.2) → pm p ≠ none))
        ∧ pm (s.1, s.2) = none
        ∧ (¬ (e.1 = s.1 ∧ e.2 = s.2) → pm (e.1, e.2) ≠ none) := by
  intro fuel
  induction fuel with
  | zero =>
    intro st D t q1 q2 hinv hfuel
    have hq : st.queue = [] := by
      have hl : st.queue.length = 0 := by omega
      exact List.length_eq_zero.mp hl
    exact (binv_empty_absurd g s e hs1 hs2 he1 he2 st D t q1 q2 hinv hq).elim
  | succ n ih =>
    intro st D t q1 q2 hinv hfuel
    cases hql : st.queue with
    | nil => exact (binv_empty_absurd g s e hs1 hs2 he1 he2 st D t q1 q2 hinv hql).elim
    | cons cur qrest =>
      have hcurq : cur ∈ st.queue := by
        rw [hql]
        exact List.mem_cons_self _ _
      have hcb : cur.1 < g.length ∧ cur.2 < gridCols g := by
        have h := hcurq
        rw [hinv.qeq] at h
        rcases List.mem_append.mp h with h | h
        · exact ⟨(hinv.q1lvl cur h).1, (hinv.q1lvl cur h).2.1⟩
        · exact ⟨(hinv.q2lvl cur h).1, (hinv.q2lvl cur h).2.1⟩
      by_cases hend : (getNode g cur.1 cur.2).isEnd = true
      · have hce := (hendiff cur.1 cur.2 hcb.1 hcb.2).mp hend
        have hcure : cur = (e.1, e.2) := by
          rw [← hce.1, ← hce.2, Prod.mk.eta]
        refine ⟨st.prevMap, ?_, ?_, hinv.sprev, ?_⟩
        · rw [bfsLoop_succ, hql]
          show (if (getNode g cur.1 cur.2).isEnd = true then some (cur, st.prevMap)
            else bfsLoop g.length (gridCols g) g n
              (bfsStep g.length (gridCols g) g cur { st with queue := qrest }))
            = some ((e.1, e.2), st.prevMap)
          rw [if_pos hend, hcure]
        · intro x p hxp
          obtain ⟨h1, h2, h3, h4⟩ := hinv.prevstep x p hxp
          obtain ⟨hb1, hb2, _⟩ := hinv.vhigh p h4
          exact ⟨h1, h2, hb1, hb2, fun hps => hinv.prevex p h4 hps⟩
        · intro hne
          have heset : (e.1, e.2) ∈ st.visitedSet := by
            rw [← hcure, hinv.vset]
            right
            exact hcurq
          exact hinv.prevex (e.1, e.2) heset hne
      · have hx : ∃ t2 q1t2 q22, BInv g s e st D t2 (cur :: q1t2) q22 := by
          cases q1 with
          | nil =>
            have hq2 : q2 = cur :: qrest := by
              have h := hinv.qeq
              rw [hql, List.nil_append] at h
              exact h.symm
            subst hq2
            exact ⟨t + 1, qrest, [], binv_promote g s e hs1 hs2 st D t _ hinv⟩
          | cons c1 q1t =>
            have h := hinv.qeq
            rw [hql, List.cons_append] at h
            injection h with h1 h2
            subst h1
            exact ⟨t, q1t, q2, hinv⟩
        obtain ⟨t2, q1t2, q22, hinv2⟩ := hx
        have hcurne : ¬ (cur.1 = e.1 ∧ cur.2 = e.2) :=
          fun hc => hend ((hendiff cur.1 cur.2 hcb.1 hcb.2).mpr hc)
        obtain ⟨new, hinv3, hmeas⟩ :=
          binv_step g s e hrect hnw hs1 hs2 st D t2 cur q1t2 q22 hinv2 hcurne
        have hqr : qrest = q1t2 ++ q22 := by
          have h := hinv2.qeq
          rw [hql, List.cons_append, List.cons.injEq] at h
          exact h.2
        obtain ⟨pm, hloop, hpk1, hpk2, hpk3⟩ :=
          ih (bfsStep g.length (gridCols g) g cur { st with queue := q1t2 ++ q22 })
            (D ++ [cur]) t2 q1t2 (q22 ++ new) hinv3 (by omega)
        refine ⟨pm, ?_, hpk1, hpk2, hpk3⟩
        rw [bfsLoop_succ, hql]
        show (if (getNode g cur.1 cur.2).isEnd = true then some (cur, st.prevMap)
          else bfsLoop g.length (gridCols g) g n
            (bfsStep g.length (gridCols g) g cur { st with queue := qrest }))
          = some ((e.1, e.2), pm)
        rw [if_neg hend, hqr]
        exact hloop

/-- The BFS start state (start cell queued and visited, empty predecessor
map) satisfies the invariant at level 0. -/
theorem binv_initial (g : Grid) (s e : Nat × Nat)
    (hs1 : s.1 < g.length) (hs2 : s.2 < gridCols g) :
    BInv g s e ⟨[(s.1, s.2)], [(s.1, s.2)], fun _ => none⟩ [] 0 [(s.1, s.2)] [] := by
  refine ⟨?_, ?_, ?_, ?_, ?_, ?_, ?_, ?_, ?_, ?_, ?_, ?_, ?_, ?_⟩
  · rfl
  · intro p hp
    rw [List.mem_singleton] at hp
    subst hp
    exact ⟨hs1, hs2, by rw [Prod.mk.eta, mdist_self]⟩
  · intro p hp
    exact absurd hp (List.not_mem_nil p)
  · intro x
    simp
  · intro x hx
    exact absurd hx (List.not_mem_nil x)
  · intro x _ _ hm
    omega
  · intro x _ _ hm
    obtain ⟨h1, h2⟩ := mdist_eq_zero s x (by omega)
    show x ∈ [(s.1, s.2)]
    rw [List.mem_singleton, ← h1, ← h2, Prod.mk.eta]
  · intro x hx
    rw [List.mem_singleton] at hx
    subst hx
    exact ⟨hs1, hs2, by rw [Prod.mk.eta, mdist_self]; omega⟩
  · intro x _ _ hm
    constructor
    · intro hx
      rw [List.mem_singleton] at hx
      subst hx
      rw [Prod.mk.eta, mdist_self] at hm
      omega
    · intro hx
      exact absurd hx (List.not_mem_nil x)
  · intro x hx
    exact absurd hx (List.not_mem_nil x)
  · intro y hy
    exact absurd hy (List.not_mem_nil y)
  · intro x p hxp
    exact Option.noConfusion hxp
  · rfl
  · intro x hx hne
    rw [List.mem_singleton] at hx
    subst hx
    exact absurd ⟨rfl, rfl⟩ hne

/-- Length of the reconstructed BFS mark list: walking the predecessor chain
from a cell at Manhattan level `n` emits exactly `n - 1` marks (the chain
cells strictly between the start and the walked-from cell). -/
theorem bfsMarks_len (g : Grid) (s : Nat × Nat)
    (hstartiff : ∀ r c, r < g.length → c < gridCols g →
      ((getNode g r c).isStart = true ↔ (r = s.1 ∧ c = s.2)))
    (pm : (Nat × Nat) → Option (Nat × Nat))
    (hP : ∀ x p : Nat × Nat, pm x = some p → mdist s p + 1 = mdist s x
      ∧ ¬ (x.1 = s.1 ∧ x.2 = s.2) ∧ p.1 < g.length ∧ p.2 < gridCols g
      ∧ (¬ (p.1 = s.1 ∧ p.2 = s.2) → pm p ≠ none)) :
    ∀ (n fuel : Nat) (x : Nat × Nat), x.1 < g.length → x.2 < gridCols g →
      mdist s x = n → n ≤ fuel → (¬ (x.1 = s.1 ∧ x.2 = s.2) → pm x ≠ none) →
      (bfsMarks g pm fuel x).length = n - 1 := by
  intro n
  induction n with
  | zero =>
    intro fuel x hb1 hb2 hm _ _
    obtain ⟨h1, h2⟩ := mdist_eq_zero s x hm
    cases fuel with
    | zero => rfl
    | succ f =>
      rw [bfsMarks_start g pm f x ((hstartiff x.1 x.2 hb1 hb2).mpr ⟨h1, h2⟩)]
      rfl
  | succ k ihk =>
    intro fuel x hb1 hb2 hm hf hpx
    cases fuel with
    | zero => omega
    | succ f =>
      have hxne : ¬ (x.1 = s.1 ∧ x.2 = s.2) := by
        intro hc
        have hz : mdist s x = 0 := by
          unfold mdist
          omega
        omega
      have hxs : ¬ (getNode g x.1 x.2).isStart = true :=
        fun h => hxne ((hstartiff x.1 x.2 hb1 hb2).mp h)
      cases hpmx : pm x with
      | none => exact absurd hpmx (hpx hxne)
      | some p =>
        obtain ⟨hstep, _, hpb1, hpb2, hrec⟩ := hP x p hpmx
        have hmp : mdist s p = k := by omega
        rw [bfsMarks, if_neg hxs, hpmx]
        rw [List.length_append, ihk f p hpb1 hpb2 hmp (by omega) hrec]
        by_cases hk : k = 0
        · obtain ⟨h1, h2⟩ := mdist_eq_zero s p (by omega)
          rw [if_pos ((hstartiff p.1 p.2 hpb1 hpb2).mpr ⟨h1, h2⟩), List.length_nil]
          omega
        · have hpne : ¬ (p.1 = s.1 ∧ p.2 = s.2) := by
            intro hc
            have hz : mdist s p = 0 := by
              unfold mdist
              omega
            omega
          have hps : ¬ (getNode g p.1 p.2).isStart = true :=
            fun h => hpne ((hstartiff p.1 p.2 hpb1 hpb2).mp h)
          rw [if_neg hps]
          show 1 + (k - 1) = k + 1 - 1
          omega

/-- On any wall-free fresh grid the visualizer's BFS emits exactly
`manhattan(start,end) - 1` PathMark cells: the reconstruction walks the
predecessor chain from the end but never marks the start or the end cell
itself. -/
theorem bfs_wallfree_marks_len (rows cols : Nat) (s e : Nat × Nat)
    (hs1 : s.1 < rows) (hs2 : s.2 < cols) (he1 : e.1 < rows) (he2 : e.2 < cols) :
    (bfsAlgorithm (mkGrid rows cols s e [])).length = mdist s e - 1 := by
  have hlen : (mkGrid rows cols s e []).length = rows := mkGrid_length rows cols s e []
  have hgc : gridCols (mkGrid rows cols s e []) = cols := by
    unfold gridCols
    exact mkGrid_row_length rows cols s e [] 0 (by omega)
  have hrect : ∀ r, r < (mkGrid rows cols s e []).length →
      ((mkGrid rows cols s e []).getD r []).length = gridCols (mkGrid rows cols s e []) := by
    intro r hr
    rw [hlen] at hr
    rw [mkGrid_row_length rows cols s e [] r hr, hgc]
  have hnw : ∀ r c, r < (mkGrid rows cols s e []).length →
      c < gridCols (mkGrid rows cols s e []) →
      (getNode (mkGrid rows cols s e []) r c).isWall = false := by
    intro r c hr hc
    rw [hlen] at hr
    rw [hgc] at hc
    rw [mkGrid_getNode rows cols s e [] r c hr hc]
    simp [mkCell]
  have hendiff : ∀ r c, r < (mkGrid rows cols s e []).length →
      c < gridCols (mkGrid rows cols s e []) →
      ((getNode (mkGrid rows cols s e []) r c).isEnd = true ↔ (r = e.1 ∧ c = e.2)) := by
    intro r c hr hc
    rw [hlen] at hr
    rw [hgc] at hc
    rw [mkGrid_getNode rows cols s e [] r c hr hc]
    simp [mkCell, Prod.ext_iff]
  have hstartiff : ∀ r c, r < (mkGrid rows cols s e []).length →
      c < gridCols (mkGrid rows cols s e []) →
      ((getNode (mkGrid rows cols s e []) r c).isStart = true ↔ (r = s.1 ∧ c = s.2)) := by
    intro r c hr hc
    rw [hlen] at hr
    rw [hgc] at hc
    rw [mkGrid_getNode rows cols s e [] r c hr hc]
    simp [mkCell, Prod.ext_iff]
  have hs1g : s.1 < (mkGrid rows cols s e []).length := by
    rw [hlen]
    exact hs1
  have hs2g : s.2 < gridCols (mkGrid rows cols s e []) := by
    rw [hgc]
    exact hs2
  have he1g : e.1 < (mkGrid rows cols s e []).length := by
    rw [hlen]
    exact he1
  have he2g : e.2 < gridCols (mkGrid rows cols s e []) := by
    rw [hgc]
    exact he2
  have hmemS : s ∈ allCoords (mkGrid rows cols s e []) :=
    (mem_allCoords_mkGrid rows cols s e [] s.1 s.2).mpr ⟨hs1, hs2⟩
  have hmemE : e ∈ allCoords (mkGrid rows cols s e []) :=
    (mem_allCoords_mkGrid rows cols s e [] e.1 e.2).mpr ⟨he1, he2⟩
  have hfindS : (mkGrid rows cols s e []).flatten.find? (fun c => c.isStart)
      = some (getNode (mkGrid rows cols s e []) s.1 s.2) :=
    find?_isStart _ s hmemS (mkGrid_onlyStart rows cols s e [] hs1 hs2)
  have hfindE : (mkGrid rows cols s e []).flatten.find? (fun c => c.isEnd)
      = some (getNode (mkGrid rows cols s e []) e.1 e.2) :=
    find?_isEnd _ e hmemE (mkGrid_onlyEnd rows cols s e [] he1 he2)
  have hrowcol : (getNode (mkGrid rows cols s e []) s.1 s.2).row = s.1
      ∧ (getNode (mkGrid rows cols s e []) s.1 s.2).col = s.2 := by
    rw [mkGrid_getNode rows cols s e [] s.1 s.2 hs1 hs2]
    exact ⟨rfl, rfl⟩
  have hac : (allCoords (mkGrid rows cols s e [])).length
      = (mkGrid rows cols s e []).length * gridCols (mkGrid rows cols s e []) :=
    allCoords_length _ hrect
  have hcnt1 : (allCoords (mkGrid rows cols s e [])).countP
      (fun x => decide (¬ x ∈ ([] : List (Nat × Nat))))
      = (allCoords (mkGrid rows cols s e [])).length := by
    rw [countP_congr2 (fun x => decide (¬ x ∈ ([] : List (Nat × Nat)))) (fun _ => true)
      (allCoords (mkGrid rows cols s e [])) (by
        intro x _
        simp), List.countP_true]
  have hcnt2 := countP_append_one (allCoords (mkGrid rows cols s e []))
    (allCoords_nodup _) [] (s.1, s.2) hmemS (List.not_mem_nil _)
  rw [List.nil_append] at hcnt2
  have hfuel : (⟨[(s.1, s.2)], [(s.1, s.2)], fun _ => none⟩ : BfsState).queue.length
      + unvisCount (mkGrid rows cols s e []) ⟨[(s.1, s.2)], [(s.1, s.2)], fun _ => none⟩
      ≤ (mkGrid rows cols s e []).length * gridCols (mkGrid rows cols s e []) + 1 := by
    have h1 : unvisCount (mkGrid rows cols s e [])
        ⟨[(s.1, s.2)], [(s.1, s.2)], fun _ => none⟩ + 1
        = (allCoords (mkGrid rows cols s e [])).length := by
      unfold unvisCount
      show (allCoords (mkGrid rows cols s e [])).countP
        (fun p => decide (¬ p ∈ [(s.1, s.2)])) + 1 = _
      rw [← hcnt1]
      exact hcnt2
    have h2 : (⟨[(s.1, s.2)], [(s.1, s.2)], fun _ => none⟩ : BfsState).queue.length = 1 :=
      rfl
    rw [hac] at h1
    omega
  obtain ⟨pm, hloop, hpk1, hpk2, hpk3⟩ := bfsLoop_finds (mkGrid rows cols s e []) s e
    hrect hnw hendiff hs1g hs2g he1g he2g
    ((mkGrid rows cols s e []).length * gridCols (mkGrid rows cols s e []) + 1)
    ⟨[(s.1, s.2)], [(s.1, s.2)], fun _ => none⟩ [] 0 [(s.1, s.2)] []
    (binv_initial (mkGrid rows cols s e []) s e hs1g hs2g) hfuel
  have hbound : mdist s e
      ≤ (mkGrid rows cols s e []).length * gridCols (mkGrid rows cols s e []) + 1 := by
    obtain ⟨a, ha⟩ : ∃ a, rows = a + 1 := ⟨rows - 1, by omega⟩
    obtain ⟨b, hb⟩ : ∃ b, cols = b + 1 := ⟨cols - 1, by omega⟩
    have hm : mdist s e ≤ a + b := by
      unfold mdist
      omega
    have hprod : (a + 1) * (b + 1) = a * b + a + b + 1 := by ring
    rw [hlen, hgc, ha, hb, hprod]
    omega
  have hmde : mdist s (e.1, e.2) = mdist s e := by
    rw [Prod.mk.eta]
  unfold bfsAlgorithm
  rw [hfindS, hfindE]
  simp only [hrowcol.1, hrowcol.2]
  rw [hloop]
  exact bfsMarks_len (mkGrid rows cols s e []) s hstartiff pm hpk1 (mdist s e)
    ((mkGrid rows cols s e []).length * gridCols (mkGrid rows cols s e []) + 1)
    (e.1, e.2) he1g he2g hmde hbound hpk3

/-- C4 counterexample: on the wall-free 1x3 fresh grid with start (0,0) and
end (0,2), dijkstra's PathMark count minus 1 equals the Manhattan distance 2,
but the visualizer's BFS emits a single PathMark (only the interior cell
(0,1); its reconstruction never marks the start or the end cell), so its
count minus 1 is 0 — the two path lengths are neither equal to each other nor
both equal to the Manhattan distance. -/
theorem C4_pathmark_counterexample :
    (getNodesInShortestPathOrder (dijkstra (mkGrid 1 3 (0, 0) (0, 2) []) (0, 0) (0, 2)).1
        (0, 2)).length - 1 = manhattan (0, 0) (0, 2)
    ∧ bfsAlgorithm (mkGrid 1 3 (0, 0) (0, 2) []) = [(0, 1)]
    ∧ ¬ ((bfsAlgorithm (mkGrid 1 3 (0, 0) (0, 2) [])).length - 1
        = (getNodesInShortestPathOrder (dijkstra (mkGrid 1 3 (0, 0) (0, 2) []) (0, 0)
            (0, 2)).1 (0, 2)).length - 1)
    ∧ ¬ ((bfsAlgorithm (mkGrid 1 3 (0, 0) (0, 2) [])).length - 1
        = manhattan (0, 0) (0, 2)) := by
  decide

/-- C4 amended: on every wall-free fresh grid, dijkstra's reconstructed path
has exactly manhattan(start,end) + 1 cells (count minus 1 equals the Manhattan
distance, as claimed), but the visualizer's BFS emits only the interior cells
of the path — manhattan(start,end) - 1 PathMarks — because its reconstruction
marks neither the start nor the end cell, so the two PathMark counts differ
by two whenever start and end differ. -/
theorem C4_wallfree_path_lengths_amended (rows cols : Nat) (s e : Nat × Nat)
    (hs1 : s.1 < rows) (hs2 : s.2 < cols) (he1 : e.1 < rows) (he2 : e.2 < cols) :
    (getNodesInShortestPathOrder (dijkstra (mkGrid rows cols s e []) s e).1 e).length
      = manhattan s e + 1
    ∧ (bfsAlgorithm (mkGrid rows cols s e [])).length = manhattan s e - 1 := by
  constructor
  · rw [← mdist_eq_manhattan]
    exact dijkstra_wallfree_path_len rows cols s e hs1 hs2 he1 he2
  · rw [← mdist_eq_manhattan]
    exact bfs_wallfree_marks_len rows cols s e hs1 hs2 he1 he2

/-- C4 amended witness: the 2x3 wall-free grid with start (0,0), end (1,2):
dijkstra marks 4 cells (Manhattan distance 3 plus 1), BFS marks 2. -/
theorem C4_wallfree_path_lengths_amended_witness :
    ((0 : Nat) < 2 ∧ (0 : Nat) < 3 ∧ (1 : Nat) < 2 ∧ (2 : Nat) < 3)
    ∧ ((getNodesInShortestPathOrder (dijkstra (mkGrid 2 3 (0, 0) (1, 2) []) (0, 0)
          (1, 2)).1 (1, 2)).length = manhattan (0, 0) (1, 2) + 1
      ∧ (bfsAlgorithm (mkGrid 2 3 (0, 0) (1, 2) [])).length
          = manhattan (0, 0) (1, 2) - 1) :=
  ⟨⟨by decide, by decide, by decide, by decide⟩,
    C4_wallfree_path_lengths_amended 2 3 (0, 0) (1, 2) (by decide) (by decide)
      (by decide) (by decide)⟩
